import Mathlib

/-!
# fero-client: reload/sync engine, permission evaluator, dispatcher and prefix table

A shallow embedding of `src/Structures/Client.ts`:

* `Client.reload` (lines 239-443), restricted to the command registry and the remote
  slash-command calls it issues: the first pass over the loaded commands, the built-in help
  injection and the second pass over the remote commands;
* `Client.checkPermissions` / `Client.checkPermission` (lines 445-479);
* `Client.runCommand` (lines 481-500) and the coercers of `Client.constructors`
  (lines 131-156 and 597-720);
* `Client.prefix` and `Client.loadPrefixes` (lines 529-578), over the prefix table.

JavaScript exceptions are explicit: a function that may throw returns `Except Fault _`, and a
`forEach` that may be cut short by a throwing callback returns the state reached together with
the fault.
-/

set_option autoImplicit false

namespace FeroDC

/-! ## Faults -/

/-- What a call can end with instead of a value. -/
inductive Fault where
  /-- A JavaScript `TypeError`: a property read or a method call on `undefined`, or a call of
  something that is not a function. -/
  | typeError
  /-- The framework's own error class, `FDCError`. -/
  | fdcError
  /-- An error raised by the platform library. -/
  | platform
  /-- The recursion budget of the evaluator is used up. -/
  | fuel
  deriving DecidableEq, Repr

/-! ## Data model of the synchronizer -/

/-- One slash-command option value. The source compares options with `===`; an option is
represented by the value `===` decides on. -/
structure OptionData where
  ref : Nat
  deriving DecidableEq, Repr

/-- The fields of `Command` that `reload` reads. `slash` is the result of `cmd.isSlash()`;
`slashCommandOptions` may be absent (`reload` itself tests `!helpCommand.slashCommandOptions`). -/
structure Command where
  name : String
  description : String
  aliases : List String
  category : String
  slash : Bool
  slashCommandOptions : Option (List OptionData)
  deriving DecidableEq, Repr

/-- A remotely registered application command, as fetched by `application.commands.fetch()`. -/
structure SlashCommand where
  id : String
  name : String
  description : String
  options : List OptionData
  deriving DecidableEq, Repr

/-- The object literal passed to `commands.create` and `slashCommand.edit`. -/
structure ApplicationCommandData where
  name : String
  description : String
  type : String
  options : Option (List OptionData)
  defaultPermission : Bool
  deriving DecidableEq, Repr

/-- A call issued to the remote application-command resource. -/
inductive RemoteCall where
  | create (data : ApplicationCommandData)
  | edit (target : SlashCommand) (data : ApplicationCommandData)
  | delete (target : SlashCommand)
  deriving DecidableEq, Repr

/-- The part of the client that `reload` mutates: the calls issued so far (oldest first),
`this.commands` (a collection keyed by name, in insertion order) and
`this.commandCategories`. -/
structure ReloadState where
  calls : List RemoteCall
  commands : List (String × Command)
  commandCategories : List String
  deriving DecidableEq, Repr

/-- The function `lower` of the source (line 722), `s.toLowerCase()`, computed as
`String.toLower` computes it: character by character, on the letters `A` to `Z`. The general
theorems use no property of it; the evaluations use names of ASCII letters. -/
def lower (s : String) : String := String.mk (s.data.map Char.toLower)

/-- `Collection.set(key, value)`: replaces the value of an existing key in place, otherwise
appends the entry. -/
def collectionSet (m : List (String × Command)) (key : String) (value : Command) :
    List (String × Command) :=
  if m.any (fun e => e.1 == key) then
    m.map (fun e => if e.1 == key then (key, value) else e)
  else m ++ [(key, value)]

/-- `a.every((val, index) => p(val, index))`, with the index counted from `i`. -/
def everyIdx {α : Type} (p : α → Nat → Bool) : List α → Nat → Bool
  | [], _ => true
  | val :: rest, i => p val i && everyIdx p rest (i + 1)

/-- The function `arrayEquals` of the source (line 593):
`a.every((val, index) => val === b[index])`. An index past the end of `b` reads `undefined`,
which no option value is `===` to. -/
def arrayEquals (a b : List OptionData) : Bool :=
  everyIdx (fun val index => decide (b.get? index = some val)) a 0

/-- The definition sent on create and edit (lines 287-293 and 307-313). -/
def commandData (cmd : Command) : ApplicationCommandData :=
  { name := cmd.name
    description := cmd.description
    type := "CHAT_INPUT"
    options := cmd.slashCommandOptions
    defaultPermission := true }

/-- The lookup `slashCommands.find(c => c.name.toLowerCase() == cmd.name.toLowerCase())`. -/
def findSlashCommand (slashCommands : List SlashCommand) (cmd : Command) : Option SlashCommand :=
  slashCommands.find? (fun c => lower c.name == lower cmd.name)

/-- The body of `commands.forEach(cmd => ...)` (lines 280-316). The fault is the `TypeError`
of `a.every` inside `arrayEquals` when `cmd.slashCommandOptions` is absent. -/
def loadCommand (slashCommands : List SlashCommand) (st : ReloadState) (cmd : Command) :
    ReloadState × Option Fault :=
  let st1 : ReloadState :=
    { st with
      commandCategories :=
        if st.commandCategories.contains cmd.category then st.commandCategories
        else st.commandCategories ++ [cmd.category]
      commands := collectionSet st.commands cmd.name cmd }
  match findSlashCommand slashCommands cmd with
  | none =>
    if cmd.slash then
      ({ st1 with calls := st1.calls ++ [RemoteCall.create (commandData cmd)] }, none)
    else (st1, none)
  | some slashCommand =>
    if cmd.slash then
      if cmd.description == slashCommand.description then
        match cmd.slashCommandOptions with
        | none => (st1, some Fault.typeError)
        | some a =>
          if arrayEquals a slashCommand.options then (st1, none)
          else
            ({ st1 with calls := st1.calls ++ [RemoteCall.edit slashCommand (commandData cmd)] },
              none)
      else
        ({ st1 with calls := st1.calls ++ [RemoteCall.edit slashCommand (commandData cmd)] },
          none)
    else (st1, none)

/-- `xs.forEach(x => body)` over a state, stopping at the first fault. -/
def forEach {σ α : Type} (body : σ → α → σ × Option Fault) : σ → List α → σ × Option Fault
  | st, [] => (st, none)
  | st, x :: rest =>
    match body st x with
    | (st1, none) => forEach body st1 rest
    | (st1, some e) => (st1, some e)

/-- The first pass of `reload` (lines 279-317) from the state `st`. -/
def firstPass (slashCommands : List SlashCommand) (st : ReloadState) (commands : List Command) :
    ReloadState × Option Fault :=
  forEach (loadCommand slashCommands) st commands

/-- The predicate of `this.commands.find` in the help injection (lines 324-326). -/
def collidesWithHelp (helpCommand cmd : Command) : Bool :=
  lower cmd.name == helpCommand.name || (cmd.aliases.map lower).contains helpCommand.name

/-- The block `if (this.builtInHelpCommand) ...` (lines 319-343). `builtInHelpCommand` is
`none` when the configuration has no built-in help, and otherwise the command that
`builtInHelpCommand(this)` returns. -/
def injectHelp (builtInHelpCommand : Option Command) (st : ReloadState) :
    ReloadState × Option Fault :=
  match builtInHelpCommand with
  | none => (st, none)
  | some helpCommand =>
    if st.commands.any (fun e => collidesWithHelp helpCommand e.2) then
      (st, some Fault.fdcError)
    else
      let st1 : ReloadState :=
        { st with commands := collectionSet st.commands helpCommand.name helpCommand }
      if helpCommand.slash && helpCommand.slashCommandOptions.isNone then
        ({ st1 with calls := st1.calls ++ [RemoteCall.create (commandData helpCommand)] }, none)
      else (st1, none)

/-- Reading `cmd.name` where `cmd` is the result of a `find`: a `TypeError` on `undefined`. -/
def readName (cmd : Option Command) : Except Fault String :=
  match cmd with
  | some c => Except.ok c.name
  | none => Except.error Fault.typeError

/-- The condition of the `if` in the second pass (lines 356-360), evaluated left to right
with the short-circuit of `&&`:
`!cmd && this.deleteUnusedSlashCommands && !(cmd.name == "help" && this.builtInHelpCommand)`. -/
def deleteCondition (cmd : Option Command) (deleteUnusedSlashCommands builtInHelp : Bool) :
    Except Fault Bool :=
  if cmd.isNone then
    if deleteUnusedSlashCommands then
      match readName cmd with
      | Except.ok name => Except.ok (!(name == "help" && builtInHelp))
      | Except.error e => Except.error e
    else Except.ok false
  else Except.ok false

/-- The body of `slashCommands.forEach(slashCommand => ...)` (lines 351-364). -/
def sweepSlashCommand (commands : List Command) (deleteUnusedSlashCommands builtInHelp : Bool)
    (st : ReloadState) (slashCommand : SlashCommand) : ReloadState × Option Fault :=
  let cmd := commands.find? (fun cmd => lower cmd.name == lower slashCommand.name && cmd.slash)
  match deleteCondition cmd deleteUnusedSlashCommands builtInHelp with
  | Except.ok true => ({ st with calls := st.calls ++ [RemoteCall.delete slashCommand] }, none)
  | Except.ok false => (st, none)
  | Except.error e => (st, some e)

/-- The second pass of `reload` (lines 350-365) from the state `st`. -/
def secondPass (commands : List Command) (deleteUnusedSlashCommands builtInHelp : Bool)
    (st : ReloadState) (slashCommands : List SlashCommand) : ReloadState × Option Fault :=
  forEach (sweepSlashCommand commands deleteUnusedSlashCommands builtInHelp) st slashCommands

/-- What `reload` is run on: the command modules read from disk, the remote commands fetched,
the two configuration switches, and the categories left by earlier reloads. -/
structure ReloadInput where
  commands : List Command
  slashCommands : List SlashCommand
  builtInHelpCommand : Option Command
  deleteUnusedSlashCommands : Bool
  commandCategories : List String

/-- The command part of `Client.reload` (lines 241-365): clear the registry, first pass, help
injection, second pass. A fault in one step ends the run. -/
def reload (inp : ReloadInput) : ReloadState × Option Fault :=
  let st0 : ReloadState :=
    { calls := [], commands := [], commandCategories := inp.commandCategories }
  match firstPass inp.slashCommands st0 inp.commands with
  | (st1, some e) => (st1, some e)
  | (st1, none) =>
    match injectHelp inp.builtInHelpCommand st1 with
    | (st2, some e) => (st2, some e)
    | (st2, none) =>
      secondPass inp.commands inp.deleteUnusedSlashCommands inp.builtInHelpCommand.isSome st2
        inp.slashCommands

/-! ## The remote command set under the calls of a run -/

/-- The remote command set after one call, as the spec describes the remote resource: create
registers a new command with the definition sent (`newId` is the id the platform gives it,
absent options are none), edit replaces the definition of the command it was called on (absent
options leave the registered ones), delete removes it. The remote set then reflects the
definition sent: the option values registered are the values sent, so that `===` holds between
them. -/
def applyCall (newId : ApplicationCommandData → String) (remote : List SlashCommand) :
    RemoteCall → List SlashCommand
  | RemoteCall.create data =>
    remote ++ [{ id := newId data, name := data.name, description := data.description,
                 options := data.options.getD [] }]
  | RemoteCall.edit target data =>
    remote.map (fun r =>
      if r = target then
        { r with name := data.name, description := data.description,
                 options := data.options.getD r.options }
      else r)
  | RemoteCall.delete target => remote.filter (fun r => decide (r ≠ target))

/-- The remote command set after the calls of a run, applied in the order issued. -/
def applyCalls (newId : ApplicationCommandData → String) (remote : List SlashCommand)
    (calls : List RemoteCall) : List SlashCommand :=
  calls.foldl (applyCall newId) remote

/-! ## Data model of the permission evaluator -/

/-- One element of a `Permission[]` list: a string (`typeof permission == "string"`) or an
array of strings (`permission instanceof Array`). Atoms are strings, as in the spec; the
`Discord.Permissions` objects that the type `Perm` also admits are left out. -/
inductive Permission where
  | perm (p : String)
  | all (ps : List String)
  deriving DecidableEq, Repr

/-- The value handed to `checkPermissions` as `permissions`: an array, or (for a value read
from the permission table) a single string. -/
inductive PermissionSpec where
  | list (ps : List Permission)
  | single (p : String)
  deriving DecidableEq, Repr

/-- What `checkPermission` reads of a `Discord.GuildMember`: its id, the keys of
`member.guild.roles.cache`, the keys of `member.roles.cache`, and
`member.permissions.has(p, true)` as the platform answers it. -/
structure GuildMember where
  id : String
  guildRoles : List String
  roles : List String
  permissionsHas : String → Except Fault Bool

/-- The `member` argument of `checkPermissions`: absent (`null` or `undefined`), a value that
is not an instance of `Discord.GuildMember`, or a guild member. -/
inductive MemberArg where
  | absent
  | other
  | guildMember (m : GuildMember)

/-- What the evaluator reads of the client: the keys of `this.users.cache` and the
permission table `this.permissionData` (own keys, each once). -/
structure Client where
  users : List String
  permissionData : List (String × PermissionSpec)

/-- Truthiness of a table value: an array is truthy, a string is truthy unless empty. -/
def PermissionSpec.truthy : PermissionSpec → Bool
  | PermissionSpec.list _ => true
  | PermissionSpec.single p => p != ""

/-- The test `this.permissionData[permission]`: the value under the key when it is truthy. -/
def tableEntry (permissionData : List (String × PermissionSpec)) (permission : String) :
    Option PermissionSpec :=
  match permissionData.lookup permission with
  | some spec => if spec.truthy then some spec else none
  | none => none

/-- `xs.some(f)` for a callback that may fail: stops at the first `true`. -/
def arraySome {α : Type} (f : α → Except Fault Bool) : List α → Except Fault Bool
  | [] => Except.ok false
  | x :: rest =>
    match f x with
    | Except.ok true => Except.ok true
    | Except.ok false => arraySome f rest
    | Except.error e => Except.error e

/-- `xs.every(f)` for a callback that may fail: stops at the first `false`. -/
def arrayEvery {α : Type} (f : α → Except Fault Bool) : List α → Except Fault Bool
  | [] => Except.ok true
  | x :: rest =>
    match f x with
    | Except.ok true => arrayEvery f rest
    | Except.ok false => Except.ok false
    | Except.error e => Except.error e

/-- The callback of `permissions.some` in `checkPermissions` (lines 451-458), with
`this.checkPermission` as `check`. -/
def checkElement (check : String → GuildMember → Except Fault Bool) (member : GuildMember) :
    Permission → Except Fault Bool
  | Permission.perm p => check p member
  | Permission.all ps => arrayEvery (fun perm => check perm member) ps

/-- The body of `Client.checkPermissions` (lines 445-459), with `this.checkPermission` as
`check`. A string has no method `some`, so calling it is a `TypeError`. -/
def checkPermissionsWith (check : String → GuildMember → Except Fault Bool)
    (permissions : PermissionSpec) : MemberArg → Except Fault Bool
  | MemberArg.guildMember member =>
    match permissions with
    | PermissionSpec.list ps => arraySome (checkElement check member) ps
    | PermissionSpec.single _ => Except.error Fault.typeError
  | _ => Except.ok false

/-- The method `Client.checkPermission` (lines 461-479), with a bound on the depth of the
recursion through the permission table: at depth 0 the call ends with `Fault.fuel`. -/
def checkPermission (client : Client) : Nat → String → GuildMember → Except Fault Bool
  | 0 => fun _ _ => Except.error Fault.fuel
  | n + 1 => fun permission member =>
    if client.users.contains permission then Except.ok (member.id == permission)
    else if member.guildRoles.contains permission then
      Except.ok (member.roles.contains permission)
    else
      match tableEntry client.permissionData permission with
      | some spec =>
        checkPermissionsWith (checkPermission client n) spec (MemberArg.guildMember member)
      | none => member.permissionsHas permission

/-- The method `Client.checkPermissions` (lines 445-459), at recursion depth `n`. -/
def checkPermissions (client : Client) (n : Nat) (permissions : PermissionSpec)
    (member : MemberArg) : Except Fault Bool :=
  checkPermissionsWith (checkPermission client n) permissions member

/-- JavaScript `x || y` on two evaluations that may fail: `y` is evaluated only when `x`
gives `false`. -/
def jsOr (x y : Except Fault Bool) : Except Fault Bool :=
  match x with
  | Except.ok true => Except.ok true
  | Except.ok false => y
  | Except.error e => Except.error e

/-- JavaScript `x && y` on two evaluations that may fail: `y` is evaluated only when `x`
gives `true`. -/
def jsAnd (x y : Except Fault Bool) : Except Fault Bool :=
  match x with
  | Except.ok true => y
  | Except.ok false => Except.ok false
  | Except.error e => Except.error e

/-! ## Data model of the argument coercer and the dispatcher -/

/-- The declared argument types (`ArgumentType`, lines 71-90), one per key of
`Client.constructors`. -/
inductive ArgumentType where
  | string | mstring | char | number | int | float | boolean | color | guild | member | user
  | channel | message | invite | emoji | role | permission | time | command
  deriving DecidableEq, Repr

/-- A declared argument (`Argument`, lines 92-97). -/
structure Argument where
  name : String
  description : String
  required : Bool
  type : ArgumentType
  deriving DecidableEq, Repr

/-- A JavaScript Number as `parseInt` and `parseFloat` produce it: not-a-number, an infinity,
or the value `± mantissa * 10 ^ exponent` of the literal read. The Number is the double nearest
to that value; the rounding is not part of the model. -/
inductive JsNumber where
  | nan
  | infinity (negative : Bool)
  | finite (negative : Bool) (mantissa : Nat) (exponent : Int)
  deriving DecidableEq, Repr

/-- A user of the users cache: id and tag. -/
structure User where
  id : String
  tag : String
  deriving DecidableEq, Repr

/-- A guild of the guilds cache. -/
structure Guild where
  id : String
  deriving DecidableEq, Repr

/-- A channel of the channels cache. -/
structure Channel where
  id : String
  deriving DecidableEq, Repr

/-- A message of a channel: id and URL. -/
structure ChatMessage where
  id : String
  url : String
  deriving DecidableEq, Repr

/-- An invite of a guild: code and URL. -/
structure Invite where
  code : String
  url : String
  deriving DecidableEq, Repr

/-- An emoji of the emojis cache: id, name and URL. -/
structure Emoji where
  id : String
  name : String
  url : String
  deriving DecidableEq, Repr

/-- A role of a guild: id and name. -/
structure Role where
  id : String
  name : String
  deriving DecidableEq, Repr

/-- A value a coercion returns and a handler receives. -/
inductive Value where
  | undefined
  | null
  | string (s : String)
  | number (x : JsNumber)
  | boolean (b : Bool)
  | guild (g : Guild)
  | member (m : GuildMember)
  | user (u : User)
  | channel (c : Channel)
  | message (m : ChatMessage)
  | invite (i : Invite)
  | emoji (e : Emoji)
  | role (r : Role)
  | command (c : Command)

/-- What the coercers read of `message.guild`: the roles cache, the invites cache, and the two
remote fetches `invites.fetch` and `members.fetch` as the platform answers them (a rejected
fetch is a fault; `none` is a falsy answer). -/
structure GuildContext where
  roles : List Role
  invites : List Invite
  fetchInvite : Option String → Except Fault (Option Invite)
  fetchMember : String → Except Fault GuildMember

/-- What the coercers read of the invoking message: its guild (`null` outside a guild), the
messages cache of its channel, and `message.channel.messages.fetch` as the platform answers
it. -/
structure Message where
  guild : Option GuildContext
  channelMessages : List ChatMessage
  fetchMessage : Option String → Except Fault (Option ChatMessage)

/-- What is handed to the duration utility `FMS` as its first argument: the client object, or
a raw token (absent when `undefined`). -/
inductive FmsInput where
  | client
  | token (string : Option String)
  deriving DecidableEq, Repr

/-- What the coercers read of the client: the caches, the command registry, and the library
functions they delegate to, as black boxes: `Discord.Util.resolveColor`, `FMS` of `fero-ms`,
and the names of `Discord.Permissions.FLAGS`. -/
structure Bot where
  guilds : List Guild
  users : List User
  channels : List Channel
  emojis : List Emoji
  commands : List (String × Command)
  resolveColor : Option String → Except Fault Value
  fms : FmsInput → String → Except Fault Value
  permissionFlags : List String

/-- The array `falsy` of the source (lines 59-69); `none` is its last element, `undefined`. -/
def falsy : List (Option String) :=
  [some "false", some "0", some "0n", some "undefined", some "NaN", some "", some "no",
    some "off", none]

/-- JavaScript `s.toUpperCase()`, computed character by character on the letters `a` to
`z`. -/
def upper (s : String) : String := String.mk (s.data.map Char.toUpper)

/-- The code points of `StrWhiteSpaceChar` (white space and line terminators), which
`parseInt` and `parseFloat` skip at the start of their input. -/
def strWhiteSpaceCodes : List Nat :=
  [9, 10, 11, 12, 13, 32, 160, 5760, 8192, 8193, 8194, 8195, 8196, 8197, 8198, 8199, 8200,
    8201, 8202, 8232, 8233, 8239, 8287, 12288, 65279]

/-- Whether a character is a `StrWhiteSpaceChar`. -/
def isStrWhiteSpaceChar (c : Char) : Bool := strWhiteSpaceCodes.contains c.toNat

/-- Whether a character is a decimal digit, `0` to `9`. -/
def isDecimalDigit (c : Char) : Bool := decide (48 ≤ c.toNat) && decide (c.toNat ≤ 57)

/-- Whether a character is a hexadecimal digit. -/
def isHexDigit (c : Char) : Bool :=
  isDecimalDigit c || (decide (97 ≤ c.toNat) && decide (c.toNat ≤ 102)) ||
    (decide (65 ≤ c.toNat) && decide (c.toNat ≤ 70))

/-- The value of a digit in radix 10 or 16. -/
def digitValue (c : Char) : Nat :=
  if isDecimalDigit c then c.toNat - 48
  else if decide (97 ≤ c.toNat) && decide (c.toNat ≤ 102) then c.toNat - 87
  else c.toNat - 55

/-- The integer a digit string denotes in a radix. -/
def digitsValue (radix : Nat) (z : List Char) : Nat :=
  z.foldl (fun acc c => radix * acc + digitValue c) 0

/-- Whether the characters start with `0x` or `0X`. -/
def startsWithHexMark : List Char → Bool
  | '0' :: 'x' :: _ => true
  | '0' :: 'X' :: _ => true
  | _ => false

/-- JavaScript `ToString` on a raw token: an absent token is `undefined`. -/
def tokenToString (string : Option String) : List Char := (string.getD "undefined").data

/-- The characters after the leading white space, which `parseInt` and `parseFloat` skip. -/
def trimStart (s : List Char) : List Char := s.dropWhile isStrWhiteSpaceChar

/-- The characters after one leading sign, `+` or `-`, when there is one. -/
def afterSign (s : List Char) : List Char :=
  if s.head? == some '+' || s.head? == some '-' then s.tail else s

/-- JavaScript `parseInt(string)`, called with no radix: leading white space is skipped, a
sign is read, `0x` or `0X` selects radix 16 and anything else radix 10, and the longest run of
digits of that radix is the result; no digit gives not-a-number. -/
def parseInt (string : Option String) : JsNumber :=
  let s := trimStart (tokenToString string)
  let negative := s.head? == some '-'
  let s1 := afterSign s
  if startsWithHexMark s1 then
    let z := (s1.drop 2).takeWhile isHexDigit
    if z.isEmpty then JsNumber.nan else JsNumber.finite negative (digitsValue 16 z) 0
  else
    let z := s1.takeWhile isDecimalDigit
    if z.isEmpty then JsNumber.nan else JsNumber.finite negative (digitsValue 10 z) 0

/-- The exponent part of a decimal literal at the start of the characters: `e` or `E`, an
optional sign and at least one digit; `0` when there is none. -/
def exponentPart : List Char → Int
  | c :: rest =>
    if c == 'e' || c == 'E' then
      let negative := rest.head? == some '-'
      let z := (afterSign rest).takeWhile isDecimalDigit
      if z.isEmpty then 0
      else if negative then - (digitsValue 10 z : Int) else (digitsValue 10 z : Int)
    else 0
  | [] => 0

/-- The longest `StrUnsignedDecimalLiteral` at the start of the characters: `Infinity`, or
digits with an optional fraction and exponent, or a fraction with an optional exponent. -/
def unsignedDecimalLiteral (negative : Bool) (s : List Char) : JsNumber :=
  if "Infinity".data.isPrefixOf s then JsNumber.infinity negative
  else
    let intDigits := s.takeWhile isDecimalDigit
    let afterInt := s.dropWhile isDecimalDigit
    match afterInt with
    | '.' :: afterDot =>
      let fracDigits := afterDot.takeWhile isDecimalDigit
      let afterFrac := afterDot.dropWhile isDecimalDigit
      if intDigits.isEmpty && fracDigits.isEmpty then JsNumber.nan
      else
        JsNumber.finite negative (digitsValue 10 (intDigits ++ fracDigits))
          (exponentPart afterFrac - fracDigits.length)
    | _ =>
      if intDigits.isEmpty then JsNumber.nan
      else JsNumber.finite negative (digitsValue 10 intDigits) (exponentPart afterInt)

/-- JavaScript `parseFloat(string)`: leading white space is skipped and the longest decimal
literal at the start is the result; none gives not-a-number. -/
def parseFloat (string : Option String) : JsNumber :=
  let s := trimStart (tokenToString string)
  unsignedDecimalLiteral (s.head? == some '-') (afterSign s)

/-- Whether a token has a numeric start: after the leading white space and one optional sign
come a decimal digit, or a dot and a decimal digit, or the word `Infinity`. -/
def numericStart (string : Option String) : Bool :=
  match afterSign (trimStart (tokenToString string)) with
  | c :: rest =>
    isDecimalDigit c ||
      (c == '.' && (match rest with
        | d :: _ => isDecimalDigit d
        | [] => false)) ||
      "Infinity".data.isPrefixOf (c :: rest)
  | [] => false

/-- The function `resolveUser` (lines 597-611): the first cached user whose id, tag or
mention (`<@!id>`, `<@id>`) is the token. An absent token equals none of them. -/
def resolveUser (client : Bot) (string : Option String) : Option User :=
  client.users.find? (fun u =>
    some u.id == string || some u.tag == string || some ("<@!" ++ u.id ++ ">") == string ||
      some ("<@" ++ u.id ++ ">") == string)

/-- The function `resolveMember` (lines 613-622):
`message.guild.members.fetch(resolveUser(...).id)`. Reading `members` of a `null` guild and
reading `id` of the `null` that `resolveUser` returns are `TypeError`s; a rejected fetch is
passed on. -/
def resolveMember (client : Bot) (string : Option String) (message : Message) :
    Except Fault Value :=
  match message.guild with
  | none => Except.error Fault.typeError
  | some guild =>
    match resolveUser client string with
    | none => Except.error Fault.typeError
    | some user =>
      match guild.fetchMember user.id with
      | Except.ok m => Except.ok (Value.member m)
      | Except.error e => Except.error e

/-- The function `resolveChannel` (lines 624-634). -/
def resolveChannel (client : Bot) (string : Option String) : Value :=
  match client.channels.find? (fun c =>
    some c.id == string || some ("<#!" ++ c.id ++ ">") == string ||
      some ("<#" ++ c.id ++ ">") == string) with
  | some channel => Value.channel channel
  | none => Value.null

/-- The function `resolveMessage` (lines 636-652): the cache lookup, then the awaited remote
fetch, then `msg ? msg : msg2 ? msg2 : null`. -/
def resolveMessage (string : Option String) (message : Message) : Except Fault Value :=
  let msg := message.channelMessages.find? (fun m => some m.id == string || some m.url == string)
  match message.fetchMessage string with
  | Except.error e => Except.error e
  | Except.ok msg2 =>
    match msg with
    | some m => Except.ok (Value.message m)
    | none =>
      match msg2 with
      | some m => Except.ok (Value.message m)
      | none => Except.ok Value.null

/-- The function `resolveInvite` (lines 654-671); reading `invites` of a `null` guild is a
`TypeError`. -/
def resolveInvite (string : Option String) (message : Message) : Except Fault Value :=
  match message.guild with
  | none => Except.error Fault.typeError
  | some guild =>
    let invite := guild.invites.find? (fun e => some e.code == string || some e.url == string)
    match guild.fetchInvite string with
    | Except.error e => Except.error e
    | Except.ok invite2 =>
      match invite with
      | some i => Except.ok (Value.invite i)
      | none =>
        match invite2 with
        | some i => Except.ok (Value.invite i)
        | none => Except.ok Value.null

/-- The function `resolveEmoji` (lines 673-683). -/
def resolveEmoji (client : Bot) (string : Option String) : Value :=
  match client.emojis.find? (fun e =>
    some e.id == string || some e.name == string || some e.url == string) with
  | some emoji => Value.emoji emoji
  | none => Value.null

/-- The function `resolveRole` (lines 685-695); reading `roles` of a `null` guild is a
`TypeError`. -/
def resolveRole (string : Option String) (message : Message) : Except Fault Value :=
  match message.guild with
  | none => Except.error Fault.typeError
  | some guild =>
    match guild.roles.find? (fun r => some r.id == string || some r.name == string) with
    | some role => Except.ok (Value.role role)
    | none => Except.ok Value.null

/-- The function `resolvePermission` (lines 697-707); `string.toUpperCase()` on an absent
token is a `TypeError`. -/
def resolvePermission (client : Bot) (string : Option String) : Except Fault Value :=
  match string with
  | none => Except.error Fault.typeError
  | some s =>
    if !(client.permissionFlags.contains (upper s)) then Except.ok Value.null
    else Except.ok (Value.string (upper s))

/-- The function `resolveCommand` (lines 709-720): `client.commands.find` with a test that
calls `string.toLowerCase()`, a `TypeError` on an absent token as soon as the test runs, that
is, unless the registry is empty. The result of `find` is the command or `undefined`. -/
def resolveCommand (client : Bot) (string : Option String) : Except Fault Value :=
  match string with
  | none => if client.commands.isEmpty then Except.ok Value.undefined
    else Except.error Fault.typeError
  | some s =>
    match client.commands.find? (fun e =>
      lower e.2.name == lower s || (e.2.aliases.map lower).contains (lower s)) with
    | some e => Except.ok (Value.command e.2)
    | none => Except.ok Value.undefined

/-- The table `Client.constructors` (lines 131-156), called by `runCommand` as
`constructors[type](client, string, message, rest)`. The entry `time` is declared with the one
parameter `string`, which receives the first argument of the call, the client. -/
def constructors (type : ArgumentType) (client : Bot) (string : Option String)
    (message : Message) (rest : List String) : Except Fault Value :=
  match type with
  | ArgumentType.string =>
    Except.ok (match string with
      | some s => Value.string s
      | none => Value.undefined)
  | ArgumentType.mstring =>
    Except.ok (Value.string (string.getD "undefined" ++ " " ++ " ".intercalate rest))
  | ArgumentType.char =>
    Except.ok (match string with
      | some s => Value.string (String.mk (s.data.take 1))
      | none => Value.null)
  | ArgumentType.number => Except.ok (Value.number (parseFloat string))
  | ArgumentType.int => Except.ok (Value.number (parseInt string))
  | ArgumentType.float => Except.ok (Value.number (parseFloat string))
  | ArgumentType.boolean =>
    Except.ok (match string with
      | none => Value.null
      | some s => Value.boolean (!(falsy.contains (some s))))
  | ArgumentType.color => client.resolveColor string
  | ArgumentType.guild =>
    Except.ok (match client.guilds.find? (fun g => some g.id == string) with
      | some g => Value.guild g
      | none => Value.undefined)
  | ArgumentType.member => resolveMember client string message
  | ArgumentType.user =>
    Except.ok (match resolveUser client string with
      | some user => Value.user user
      | none => Value.null)
  | ArgumentType.channel => Except.ok (resolveChannel client string)
  | ArgumentType.message => resolveMessage string message
  | ArgumentType.invite => resolveInvite string message
  | ArgumentType.emoji => Except.ok (resolveEmoji client string)
  | ArgumentType.role => resolveRole string message
  | ArgumentType.permission => resolvePermission client string
  | ArgumentType.time => client.fms FmsInput.client "ms"
  | ArgumentType.command => resolveCommand client string

/-- The arguments of the one call `command.run(message, args, this, ...conversions)`. -/
structure Invocation where
  message : Message
  args : List String
  client : Bot
  conversions : List Value

/-- The fields of `Command` that concern `runCommand`: the declared arguments and the handler
`run`, which it reads, and the permission specification, which it does not. The handler is a
function of the arguments it is called with; `ρ` is what it returns. -/
structure DispatchedCommand (ρ : Type) where
  args : List Argument
  permissions : List Permission
  run : Invocation → ρ

/-- The conversions of `runCommand` (lines 486-497) for the declared arguments from `index`
on: argument `index` is coerced from `args[index]`, with `args.slice(index + 1)` as the rest.
A failed coercion fails the whole; where several fail, the one reported here is the first in
declaration order. -/
def conversionsFrom (client : Bot) (message : Message) (args : List String) :
    Nat → List Argument → Except Fault (List Value)
  | _, [] => Except.ok []
  | index, argument :: others =>
    match constructors argument.type client (args.get? index) message (args.drop (index + 1))
    with
    | Except.error e => Except.error e
    | Except.ok v =>
      match conversionsFrom client message args (index + 1) others with
      | Except.error e => Except.error e
      | Except.ok vs => Except.ok (v :: vs)

/-- The method `Client.runCommand` (lines 481-500): all conversions, then the call of the
handler. -/
def runCommand {ρ : Type} (client : Bot) (command : DispatchedCommand ρ) (message : Message)
    (args : List String) : Except Fault ρ :=
  match conversionsFrom client message args 0 command.args with
  | Except.ok conversions => Except.ok (command.run ⟨message, args, client, conversions⟩)
  | Except.error e => Except.error e

/-! ## Data model of the prefix table -/

/-- The key of an entry handed to `loadPrefixes`, as the tests of the source tell keys apart:
a string (`typeof k == "string"`), a guild (`k instanceof Discord.Guild`), or anything else. -/
inductive PrefixKey where
  | string (k : String)
  | guild (g : Guild)
  | other
  deriving DecidableEq, Repr

/-- An element of an array handed to `loadPrefixes`, as `const [k, v] = i` reads it: the two
values the destructuring binds (a value that is not a string is `none`), or an element that is
not iterable, on which the destructuring is a `TypeError`. -/
inductive ArrayItem where
  | pair (k : PrefixKey) (v : Option String)
  | notIterable
  deriving DecidableEq, Repr

/-- One argument of `loadPrefixes`, as the chain of tests of the source tells arguments apart
(lines 539-575): a `Discord.Collection`, an array, a `Map`, any other value whose `typeof` is
`"object"` and that is not `null` (read through `Object.entries`, whose keys are strings),
`null` (whose `typeof` is `"object"` too), and a value of any other type. Entries are in
iteration order; the value of an entry is `none` when it is not a string. -/
inductive PrefixCollection where
  | collection (entries : List (PrefixKey × Option String))
  | array (items : List ArrayItem)
  | map (entries : List (PrefixKey × Option String))
  | object (entries : List (String × Option String))
  | null
  | primitive
  deriving DecidableEq, Repr

/-- The `guild` argument of `Client.prefix`: absent (`undefined`, which the default turns into
`null`, or `null`), a string, or a guild. -/
inductive GuildArg where
  | absent
  | id (s : String)
  | guild (g : Guild)
  deriving DecidableEq, Repr

/-- `this.prefixes.set(key, value)` on the collection `this.prefixes`, kept in insertion order:
replaces the value of an existing key in place, otherwise appends the entry. -/
def prefixesSet (prefixes : List (String × String)) (key value : String) :
    List (String × String) :=
  if prefixes.any (fun e => e.1 == key) then
    prefixes.map (fun e => if e.1 == key then (key, value) else e)
  else prefixes ++ [(key, value)]

/-- `this.prefixes.get(key) || this.defaultPrefix`: the default when the key has no entry and
when the prefix stored under it is falsy, that is, the empty string. -/
def getOrDefault (prefixes : List (String × String)) (defaultPrefix key : String) : String :=
  match prefixes.lookup key with
  | some p => if p = "" then defaultPrefix else p
  | none => defaultPrefix

/-- The method `Client.prefix` (lines 529-535). The outer test is the truthiness of `guild`: an
absent guild and the empty string are falsy, a guild object is truthy. -/
def prefixFor (prefixes : List (String × String)) (defaultPrefix : String) :
    GuildArg → String
  | GuildArg.absent => defaultPrefix
  | GuildArg.id s => if s = "" then defaultPrefix else getOrDefault prefixes defaultPrefix s
  | GuildArg.guild g => getOrDefault prefixes defaultPrefix g.id

/-- The body of the callbacks on a collection, an array and a map (lines 541-545, 550-555,
559-563), after `k` and `v` are bound: nothing for a value that is not a string and for a key
that is neither a string nor a guild, otherwise `set` under the guild's id or under the
string. -/
def setEntry (prefixes : List (String × String)) (k : PrefixKey) (v : Option String) :
    List (String × String) :=
  match v with
  | none => prefixes
  | some p =>
    match k with
    | PrefixKey.other => prefixes
    | PrefixKey.guild g => prefixesSet prefixes g.id p
    | PrefixKey.string s => prefixesSet prefixes s p

/-- The callback of `Object.entries(iterator).forEach` (lines 566-569); the key of an entry of
`Object.entries` is a string. -/
def setRecordEntry (prefixes : List (String × String)) (e : String × Option String) :
    List (String × String) :=
  match e.2 with
  | none => prefixes
  | some p => prefixesSet prefixes e.1 p

/-- The callback of `iterators.forEach` (lines 538-575). On `null` the call
`Object.entries(null)` is a `TypeError`; the last branch throws the framework's error. -/
def loadIterator (prefixes : List (String × String)) :
    PrefixCollection → List (String × String) × Option Fault
  | PrefixCollection.collection entries =>
    forEach (fun st e => (setEntry st e.1 e.2, none)) prefixes entries
  | PrefixCollection.array items =>
    forEach (fun st i =>
      match i with
      | ArrayItem.pair k v => (setEntry st k v, none)
      | ArrayItem.notIterable => (st, some Fault.typeError)) prefixes items
  | PrefixCollection.map entries =>
    forEach (fun st e => (setEntry st e.1 e.2, none)) prefixes entries
  | PrefixCollection.object entries =>
    forEach (fun st e => (setRecordEntry st e, none)) prefixes entries
  | PrefixCollection.null => (prefixes, some Fault.typeError)
  | PrefixCollection.primitive => (prefixes, some Fault.fdcError)

/-- The method `Client.loadPrefixes` (lines 537-578) from the table `prefixes`: the table it
leaves, which is the value it returns when it ends with no fault. -/
def loadPrefixes (prefixes : List (String × String)) (iterators : List PrefixCollection) :
    List (String × String) × Option Fault :=
  forEach loadIterator prefixes iterators

/-! ## Views of the first pass used in the proofs -/

/-- The empty state a reload starts from when no category is known. -/
def emptyState : ReloadState := { calls := [], commands := [], commandCategories := [] }

/-- The calls `loadCommand` issues for one command and the fault it ends with; neither depends
on the state. -/
def syncAction (slashCommands : List SlashCommand) (cmd : Command) :
    List RemoteCall × Option Fault :=
  ((loadCommand slashCommands emptyState cmd).1.calls,
    (loadCommand slashCommands emptyState cmd).2)

/-- The calls the first pass issues over a list of commands. -/
def syncCalls (slashCommands : List SlashCommand) (commands : List Command) : List RemoteCall :=
  (firstPass slashCommands emptyState commands).1.calls

/-- Whether a call is a create. -/
def RemoteCall.isCreate : RemoteCall → Bool
  | RemoteCall.create _ => true
  | _ => false

/-- The lowercased name a create or edit call carries. -/
def RemoteCall.key : RemoteCall → String
  | RemoteCall.create data => lower data.name
  | RemoteCall.edit _ data => lower data.name
  | RemoteCall.delete target => lower target.name

/-- A call as the first pass issues it: a create, or an edit whose definition has the
lowercased name of the command it is called on. -/
def RemoteCall.wellFormed : RemoteCall → Bool
  | RemoteCall.create _ => true
  | RemoteCall.edit target data => lower target.name == lower data.name
  | RemoteCall.delete _ => false

/-! ## Views of the permission table and of the prefix entries used in the proofs -/

/-- The strings that an element of a permission list names. -/
def Permission.atoms : Permission → List String
  | Permission.perm p => [p]
  | Permission.all ps => ps

/-- The strings that a permission spec names. -/
def PermissionSpec.atoms : PermissionSpec → List String
  | PermissionSpec.list ps => ps.flatMap Permission.atoms
  | PermissionSpec.single p => [p]

/-- The alias-reference relation for a member: `a` is an alias (a key of the permission table
with a truthy value that is neither a known user nor a role of the member's guild) and its
spec names `b`. -/
def refers (client : Client) (m : GuildMember) (a b : String) : Prop :=
  client.users.contains a = false ∧ m.guildRoles.contains a = false ∧
    ∃ spec, tableEntry client.permissionData a = some spec ∧ b ∈ spec.atoms

/-- The key of the prefix table that an entry is stored under, when its key is a string or a
guild. -/
def entryKey : PrefixKey → Option String
  | PrefixKey.string s => some s
  | PrefixKey.guild g => some g.id
  | PrefixKey.other => none

/-- The table after the entries of one container, in order. -/
def merged (prefixes : List (String × String)) (entries : List (PrefixKey × Option String)) :
    List (String × String) :=
  entries.foldl (fun st e => setEntry st e.1 e.2) prefixes

/-! ## Concrete inputs of the evaluations -/

/-- A remote command with no local counterpart. -/
def staleRemote : SlashCommand :=
  { id := "1", name := "stale", description := "An old command", options := [] }

/-- A slash-enabled local command with an empty option list. -/
def pingLocal : Command :=
  { name := "ping", description := "Replies with pong", aliases := [], category := "misc",
    slash := true, slashCommandOptions := some [] }

/-- The remote `ping`, same description, with one option registered. -/
def pingRemote : SlashCommand :=
  { id := "2", name := "ping", description := "Replies with pong", options := [⟨1⟩] }

/-- A slash-enabled local command that declares no option list. -/
def echoLocal : Command :=
  { name := "echo", description := "Repeats a message", aliases := [], category := "misc",
    slash := true, slashCommandOptions := none }

/-- The remote `echo`, as registered from `echoLocal`. -/
def echoRemote : SlashCommand :=
  { id := "3", name := "echo", description := "Repeats a message", options := [] }

/-- A custom help command, slash-enabled, declaring no option list. -/
def customHelp : Command :=
  { name := "help", description := "Shows the manual", aliases := ["h"], category := "misc",
    slash := true, slashCommandOptions := none }

/-- The remote `help`, as registered from `customHelp`. -/
def customHelpRemote : SlashCommand :=
  { id := "4", name := "help", description := "Shows the manual", options := [] }

/-- A built-in help command, not slash-enabled. -/
def builtInHelp : Command :=
  { name := "help", description := "Lists the commands", aliases := [], category := "help",
    slash := false, slashCommandOptions := some [] }

/-- A client that knows the user `42`. Its permission table has an alias that names itself,
an alias whose value is a single string, aliases whose values are lists, and entries under the
keys `42` and `7`. -/
def sampleClient : Client :=
  { users := ["42"]
    permissionData :=
      [("loop", PermissionSpec.list [Permission.perm "loop"]),
       ("mods", PermissionSpec.single "42"),
       ("staff", PermissionSpec.list [Permission.perm "42"]),
       ("42", PermissionSpec.list []),
       ("7", PermissionSpec.list [])] }

/-- The guild member with id `42`, in a guild whose roles are `42`, `7` and `8`, holding the
role `7` and no platform permission. -/
def alice : GuildMember :=
  { id := "42", guildRoles := ["42", "7", "8"], roles := ["7"],
    permissionsHas := fun _ => Except.ok false }

/-- A second slash-enabled local command whose name differs from `ping` by case only. -/
def pingUpper : Command :=
  { name := "Ping", description := "Measures latency", aliases := [], category := "misc",
    slash := true, slashCommandOptions := some [] }

/-- The commands `ping` and `Ping` against an empty remote set. -/
def caseInput : ReloadInput :=
  { commands := [pingLocal, pingUpper], slashCommands := [], builtInHelpCommand := none,
    deleteUnusedSlashCommands := false, commandCategories := [] }

/-- A remote `ping` registered with an older description. -/
def pingOutdated : SlashCommand :=
  { id := "5", name := "ping", description := "Old text", options := [] }

/-- The commands `ping` and `echo` against a remote set with an outdated `ping` and an unused
command, delete-unused enabled. -/
def sampleInput : ReloadInput :=
  { commands := [pingLocal, echoLocal], slashCommands := [pingOutdated, staleRemote],
    builtInHelpCommand := none, deleteUnusedSlashCommands := true, commandCategories := [] }

/-- A platform that gives a created command its name as id. -/
def idOfName (data : ApplicationCommandData) : String := data.name

/-- A bot with one cached user, no registered command, a color utility that accepts no input,
a duration utility that accepts no input but the token `5m`, and two permission flags. -/
def sampleBot : Bot :=
  { guilds := [], users := [⟨"42", "alice#0001"⟩], channels := [], emojis := [], commands := []
    resolveColor := fun _ => Except.error Fault.platform
    fms := fun input _ =>
      match input with
      | FmsInput.token (some "5m") => Except.ok (Value.number (JsNumber.finite false 300000 0))
      | _ => Except.error Fault.platform
    permissionFlags := ["ADMINISTRATOR", "KICK_MEMBERS"] }

/-- A message sent in a guild with no role and no invite, whose fetches are all rejected. -/
def sampleMessage : Message :=
  { guild := some
      { roles := [], invites := []
        fetchInvite := fun _ => Except.error Fault.platform
        fetchMember := fun _ => Except.error Fault.platform }
    channelMessages := []
    fetchMessage := fun _ => Except.error Fault.platform }

/-- A command with an integer and a boolean argument, guarded by the role `8`; its handler
returns the values it is given. -/
def rollCommand : DispatchedCommand (List Value) :=
  { args := [⟨"sides", "Number of sides", true, ArgumentType.int⟩,
             ⟨"loud", "Announce the result", false, ArgumentType.boolean⟩]
    permissions := [Permission.perm "8"]
    run := fun call => call.conversions }

/-- A command with a string, a permission and an integer argument. -/
def grantCommand : DispatchedCommand (List Value) :=
  { args := [⟨"who", "Target", true, ArgumentType.string⟩,
             ⟨"what", "Permission", true, ArgumentType.permission⟩,
             ⟨"days", "Duration in days", false, ArgumentType.int⟩]
    permissions := []
    run := fun call => call.conversions }

/-- A client that knows the users `42` and `43`. The alias `staff` lists the user `42` and
then itself; the aliases `ring` and `back` refer to each other. -/
def groupClient : Client :=
  { users := ["42", "43"]
    permissionData :=
      [("staff", PermissionSpec.list [Permission.perm "42", Permission.perm "staff"]),
       ("ring", PermissionSpec.list [Permission.perm "43", Permission.all ["42", "back"]]),
       ("back", PermissionSpec.list [Permission.perm "ring"])] }

/-- A message sent outside a guild, in a channel whose cache holds one message; the fetch of a
message is rejected by the platform. -/
def cachedMessage : Message :=
  { guild := none
    channelMessages := [⟨"900", "https://discord.com/channels/1/2/900"⟩]
    fetchMessage := fun _ => Except.error Fault.platform }

/-- A slash-enabled local command with the alias `help` and an empty option list. -/
def guideLocal : Command :=
  { name := "guide", description := "Shows the guide", aliases := ["Help"], category := "misc",
    slash := true, slashCommandOptions := some [] }

/-- A bot whose registry holds `ping` and `guide`. -/
def registryBot : Bot :=
  { sampleBot with commands := [("ping", pingLocal), ("guide", guideLocal)] }

/-- A client that knows the user `42`, with two aliases: `staff` names the user `42` and the
pair of the role `7` and the alias `mods`; `mods` names the role `8`. -/
def teamClient : Client :=
  { users := ["42"]
    permissionData :=
      [("staff", PermissionSpec.list [Permission.perm "42", Permission.all ["7", "mods"]]),
       ("mods", PermissionSpec.list [Permission.perm "8"])] }

/-- A client that knows the user `42`, with one alias whose value is a single string. -/
def plainClient : Client :=
  { users := ["42"], permissionData := [("mods", PermissionSpec.single "42")] }

/-- The rank of the aliases of `teamClient`: an alias ranks above the strings it names. -/
def teamRank (a : String) : Nat := if a = "staff" then 2 else if a = "mods" then 1 else 0

/-! ## Theorems: the synchronizer -/

/-- The condition of the second pass never comes out true: where `!cmd` holds and
delete-unused is set, reading `cmd.name` faults. -/
theorem deleteCondition_ne_true (cmd : Option Command) (del help : Bool) :
    deleteCondition cmd del help ≠ Except.ok true := by
  cases cmd <;> cases del <;> simp [deleteCondition, readName]

/-- The body of the second pass leaves the issued calls as they are. -/
theorem sweepSlashCommand_calls (commands : List Command) (del help : Bool) (st : ReloadState)
    (sc : SlashCommand) : (sweepSlashCommand commands del help st sc).1.calls = st.calls := by
  simp only [sweepSlashCommand]
  split
  · next h => exact absurd h (deleteCondition_ne_true _ _ _)
  · rfl
  · rfl

/-- A `forEach` whose body keeps a projection of the state keeps it. -/
theorem forEach_keeps {σ α β : Type} (body : σ → α → σ × Option Fault) (proj : σ → β)
    (h : ∀ st x, proj (body st x).1 = proj st) (xs : List α) (st : σ) :
    proj (forEach body st xs).1 = proj st := by
  induction xs generalizing st with
  | nil => rfl
  | cons x rest ih =>
    have hx := h st x
    unfold forEach
    match hb : body st x with
    | (st1, none) =>
      rw [hb] at hx
      simpa [hx] using ih st1
    | (st1, some e) =>
      rw [hb] at hx
      simpa using hx

/-- The second pass issues no call. -/
theorem secondPass_calls (commands : List Command) (del help : Bool) (st : ReloadState)
    (slashCommands : List SlashCommand) :
    (secondPass commands del help st slashCommands).1.calls = st.calls :=
  forEach_keeps _ ReloadState.calls (sweepSlashCommand_calls commands del help) _ _

/-- Shifting the index along with the list `b`. -/
theorem everyIdx_shift (x : OptionData) (b a : List OptionData) (k : Nat) :
    everyIdx (fun val index => decide ((x :: b).get? index = some val)) a (k + 1) =
      everyIdx (fun val index => decide (b.get? index = some val)) a k := by
  induction a generalizing k with
  | nil => rfl
  | cons v rest ih => simp only [everyIdx, List.get?, ih]

/-- What `arrayEquals` decides: that `a` is an initial segment of `b`. -/
theorem arrayEquals_iff_initial (a b : List OptionData) : arrayEquals a b = true ↔ a <+: b := by
  induction a generalizing b with
  | nil => simp [arrayEquals, everyIdx]
  | cons v rest ih =>
    cases b with
    | nil => simp [arrayEquals, everyIdx]
    | cons x b =>
      have hshift := everyIdx_shift x b rest 0
      simp only [Nat.zero_add] at hshift
      have ih2 := ih b
      simp only [arrayEquals] at ih2
      simp only [arrayEquals, everyIdx, List.get?, Nat.zero_add, hshift, Bool.and_eq_true,
        decide_eq_true_eq, Option.some.injEq, ih2, List.cons_prefix_cons]
      constructor
      · rintro ⟨h1, h2⟩; exact ⟨h1.symm, h2⟩
      · rintro ⟨h1, h2⟩; exact ⟨h1.symm, h2⟩

/-- A list is `arrayEquals` to itself. -/
theorem arrayEquals_self (a : List OptionData) : arrayEquals a a = true :=
  (arrayEquals_iff_initial a a).mpr (List.prefix_refl a)

/-- The calls and the fault of `loadCommand`, by the remote command found. -/
theorem syncAction_eq (R : List SlashCommand) (c : Command) :
    syncAction R c =
      match findSlashCommand R c with
      | none => if c.slash then ([RemoteCall.create (commandData c)], none) else ([], none)
      | some t =>
        if c.slash then
          if c.description == t.description then
            match c.slashCommandOptions with
            | none => ([], some Fault.typeError)
            | some a =>
              if arrayEquals a t.options then ([], none)
              else ([RemoteCall.edit t (commandData c)], none)
          else ([RemoteCall.edit t (commandData c)], none)
        else ([], none) := by
  simp only [syncAction, loadCommand, emptyState]
  split
  · split <;> simp
  · split
    · split
      · split
        · simp
        · split <;> simp
      · simp
    · simp

/-- The calls and the fault of `loadCommand` from any state are those of `syncAction`. -/
theorem loadCommand_calls (R : List SlashCommand) (st : ReloadState) (c : Command) :
    (loadCommand R st c).1.calls = st.calls ++ (syncAction R c).1 ∧
      (loadCommand R st c).2 = (syncAction R c).2 := by
  simp only [syncAction, loadCommand, emptyState]
  split
  · split <;> simp
  · split
    · split
      · split
        · simp
        · split <;> simp
      · simp
    · simp

/-- The calls of the first pass from any state: those issued before, then `syncCalls`. -/
theorem firstPass_calls (R : List SlashCommand) (L : List Command) (st : ReloadState) :
    (firstPass R st L).1.calls = st.calls ++ syncCalls R L := by
  induction L generalizing st with
  | nil => simp [syncCalls, firstPass, forEach, emptyState]
  | cons c rest ih =>
    have h1 := loadCommand_calls R st c
    have h2 := loadCommand_calls R emptyState c
    have ih1 := ih (loadCommand R st c).1
    have ih2 := ih (loadCommand R emptyState c).1
    simp only [syncCalls, firstPass, forEach] at ih1 ih2 ⊢
    rcases hb : loadCommand R st c with ⟨s1, f1⟩
    rcases hb2 : loadCommand R emptyState c with ⟨s2, f2⟩
    rw [hb] at h1 ih1; rw [hb2] at h2 ih2
    simp only at h1 h2 ih1 ih2
    have hf : f1 = f2 := by rw [h1.2, h2.2]
    subst hf
    cases f1 with
    | none =>
      simp only
      rw [ih1, ih2, h1.1, h2.1]
      simp [emptyState, List.append_assoc]
    | some e =>
      simp only [h1.1, h2.1]
      simp [emptyState]

/-- The calls of the first pass, command by command: the calls for the head, then those for
the rest unless the head faults. -/
theorem syncCalls_cons (R : List SlashCommand) (c : Command) (rest : List Command) :
    syncCalls R (c :: rest) =
      (syncAction R c).1 ++ (if (syncAction R c).2 = none then syncCalls R rest else []) := by
  have h2 := loadCommand_calls R emptyState c
  have ih2 := firstPass_calls R rest (loadCommand R emptyState c).1
  simp only [syncCalls, firstPass, forEach] at ih2 ⊢
  rcases hb2 : loadCommand R emptyState c with ⟨s2, f2⟩
  rw [hb2] at h2 ih2
  simp only at h2 ih2
  rw [← h2.2]
  cases f2 with
  | none =>
    simp only [if_true]
    rw [ih2, h2.1]
    simp [emptyState, syncCalls, firstPass]
  | some e =>
    simp only [h2.1]
    simp [emptyState]
/-- A `find?` over a mapped list, for a map that keeps the test and the elements passing it. -/
theorem find?_map_fix {α : Type} (p : α → Bool) (g : α → α) (hp : ∀ r, p (g r) = p r)
    (hg : ∀ r, p r = true → g r = r) (R : List α) : (R.map g).find? p = R.find? p := by
  induction R with
  | nil => rfl
  | cons r rest ih =>
    simp only [List.map_cons, List.find?_cons, hp r, ih]
    cases hr : p r with
    | false => rfl
    | true => simp [hg r hr]

/-- A `find?` over a mapped list, for a map that keeps the test. -/
theorem find?_map_keep {α : Type} (p : α → Bool) (g : α → α) (hp : ∀ r, p (g r) = p r)
    (R : List α) : (R.map g).find? p = (R.find? p).map g := by
  induction R with
  | nil => rfl
  | cons r rest ih =>
    simp only [List.map_cons, List.find?_cons, hp r, ih]
    cases hr : p r <;> rfl

/-- One call under another lowercased name leaves the remote command found for a name. -/
theorem find_applyCall_other (newId : ApplicationCommandData → String) (key : String)
    (R : List SlashCommand) (call : RemoteCall) (hw : call.wellFormed = true)
    (hk : call.key ≠ key) :
    (applyCall newId R call).find? (fun r => lower r.name == key) =
      R.find? (fun r => lower r.name == key) := by
  cases call with
  | create data =>
    simp only [RemoteCall.key] at hk
    simp [applyCall, List.find?_append, hk]
  | edit target data =>
    simp only [RemoteCall.key] at hk
    simp only [RemoteCall.wellFormed, beq_iff_eq] at hw
    simp only [applyCall]
    apply find?_map_fix
    · intro r
      by_cases hr : r = target
      · subst hr; simp [hw, hk]
      · simp [hr]
    · intro r hr
      by_cases hrt : r = target
      · subst hrt
        simp only [beq_iff_eq] at hr
        exact absurd (hw ▸ hr) hk
      · simp [hrt]
  | delete target => simp [RemoteCall.wellFormed] at hw

/-- Calls under other lowercased names leave the remote command found for a name. -/
theorem find_applyCalls_other (newId : ApplicationCommandData → String) (key : String)
    (calls : List RemoteCall) (R : List SlashCommand)
    (h : ∀ call ∈ calls, call.wellFormed = true ∧ call.key ≠ key) :
    (applyCalls newId R calls).find? (fun r => lower r.name == key) =
      R.find? (fun r => lower r.name == key) := by
  induction calls generalizing R with
  | nil => rfl
  | cons call rest ih =>
    simp only [applyCalls, List.foldl_cons]
    have h1 := h call (List.mem_cons_self _ _)
    have := ih (applyCall newId R call) (fun x hx => h x (List.mem_cons_of_mem _ hx))
    simp only [applyCalls] at this
    rw [this, find_applyCall_other newId key R call h1.1 h1.2]

/-- Applying a concatenation of calls. -/
theorem applyCalls_append (newId : ApplicationCommandData → String) (R : List SlashCommand)
    (xs ys : List RemoteCall) :
    applyCalls newId R (xs ++ ys) = applyCalls newId (applyCalls newId R xs) ys := by
  simp [applyCalls, List.foldl_append]

/-- A command that is not slash-enabled causes no call and no fault. -/
theorem syncAction_not_slash (R : List SlashCommand) (c : Command) (h : c.slash = false) :
    syncAction R c = ([], none) := by
  rw [syncAction_eq]
  cases findSlashCommand R c <;> simp [h]

/-- The calls for a command are well formed and carry its lowercased name. -/
theorem syncAction_key (R : List SlashCommand) (c : Command) :
    ∀ call ∈ (syncAction R c).1,
      call.wellFormed = true ∧ call.key = lower c.name ∧ c.slash = true := by
  intro call hcall
  rw [syncAction_eq] at hcall
  cases hfind : findSlashCommand R c with
  | none =>
    rw [hfind] at hcall
    by_cases hs : c.slash = true
    · simp only [hs, if_true, List.mem_singleton] at hcall
      subst hcall
      exact ⟨rfl, rfl, hs⟩
    · simp [hs] at hcall
  | some t =>
    rw [hfind] at hcall
    have ht : lower t.name = lower c.name := by
      have := List.find?_some hfind
      simpa using this
    have hedit : (RemoteCall.edit t (commandData c)).wellFormed = true ∧
        (RemoteCall.edit t (commandData c)).key = lower c.name := by
      simp [RemoteCall.wellFormed, RemoteCall.key, commandData, ht]
    by_cases hs : c.slash = true
    · simp only [hs, if_true] at hcall
      by_cases hd : (c.description == t.description) = true
      · simp only [hd, if_true] at hcall
        cases ho : c.slashCommandOptions with
        | none => rw [ho] at hcall; simp at hcall
        | some a =>
          rw [ho] at hcall
          by_cases ha : arrayEquals a t.options = true
          · simp [ha] at hcall
          · simp [ha] at hcall
            subst hcall
            exact ⟨hedit.1, hedit.2, hs⟩
      · simp [hd] at hcall
        subst hcall
        exact ⟨hedit.1, hedit.2, hs⟩
    · simp [hs] at hcall

/-- Every call of the first pass is well formed and carries the lowercased name of a
slash-enabled command of the list. -/
theorem syncCalls_key (R : List SlashCommand) (L : List Command) :
    ∀ call ∈ syncCalls R L,
      call.wellFormed = true ∧ ∃ c ∈ L, c.slash = true ∧ call.key = lower c.name := by
  induction L with
  | nil => intro call h; simp [syncCalls, firstPass, forEach, emptyState] at h
  | cons c rest ih =>
    intro call h
    rw [syncCalls_cons, List.mem_append] at h
    rcases h with h | h
    · obtain ⟨hw, hk, hs⟩ := syncAction_key R c call h
      exact ⟨hw, c, List.mem_cons_self _ _, hs, hk⟩
    · by_cases hf : (syncAction R c).2 = none
      · simp only [hf, if_true] at h
        obtain ⟨hw, c2, hc2, hs, hk⟩ := ih call h
        exact ⟨hw, c2, List.mem_cons_of_mem _ hc2, hs, hk⟩
      · simp [hf] at h
/-- The calls and the fault for a command depend on the remote set only through the remote
command found. -/
theorem syncAction_congr (R1 R2 : List SlashCommand) (c : Command)
    (h : findSlashCommand R1 c = findSlashCommand R2 c) : syncAction R1 c = syncAction R2 c := by
  rw [syncAction_eq, syncAction_eq, h]

/-- No call is issued for a command whose remote match has its description and, when it
declares options, its option list. -/
theorem syncAction_of_synced (R : List SlashCommand) (c : Command) (t : SlashCommand)
    (hfind : findSlashCommand R c = some t) (hd : t.description = c.description)
    (ho : ∀ o, c.slashCommandOptions = some o → t.options = o) : (syncAction R c).1 = [] := by
  rw [syncAction_eq, hfind]
  by_cases hs : c.slash = true
  · simp only [hs, if_true, hd, beq_self_eq_true]
    cases hopt : c.slashCommandOptions with
    | none => rfl
    | some o =>
      simp only [ho o hopt, arrayEquals_self, if_true]
  · simp [hs]

/-- After the calls of a run are applied, a second look at a command issues no call, and
faults if the first look did; the calls before and after those for the command are under other
lowercased names. -/
theorem syncAction_settled (newId : ApplicationCommandData → String) (R : List SlashCommand)
    (c : Command) (pre post : List RemoteCall)
    (hpre : ∀ call ∈ pre, call.wellFormed = true ∧ call.key ≠ lower c.name)
    (hpost : ∀ call ∈ post, call.wellFormed = true ∧ call.key ≠ lower c.name) :
    (syncAction (applyCalls newId R (pre ++ (syncAction R c).1 ++ post)) c).1 = [] ∧
      ((syncAction R c).2 ≠ none →
        (syncAction (applyCalls newId R (pre ++ (syncAction R c).1 ++ post)) c).2 ≠ none) := by
  have hX : findSlashCommand (applyCalls newId R pre) c = findSlashCommand R c :=
    find_applyCalls_other newId (lower c.name) pre R hpre
  have hpost2 : ∀ Y, findSlashCommand (applyCalls newId Y post) c = findSlashCommand Y c :=
    fun Y => find_applyCalls_other newId (lower c.name) post Y hpost
  rw [applyCalls_append, applyCalls_append]
  generalize hXdef : applyCalls newId R pre = X at hX
  by_cases hs : c.slash = true
  swap
  · have hs2 : c.slash = false := by simpa using hs
    simp [syncAction_not_slash _ c hs2]
  have hact := syncAction_eq R c
  cases hfind : findSlashCommand R c with
  | none =>
    rw [hfind] at hact hX
    simp only [hs, if_true] at hact
    rw [hact]
    refine ⟨?_, by simp⟩
    apply syncAction_of_synced _ c
        ⟨newId (commandData c), c.name, c.description, c.slashCommandOptions.getD []⟩
    · rw [hpost2]
      simp only [findSlashCommand] at hX ⊢
      simp [applyCalls, applyCall, List.find?_append, hX, commandData]
    · rfl
    · intro o ho; simp [ho]
  | some t =>
    rw [hfind] at hact hX
    simp only [hs, if_true] at hact
    have hsame : (syncAction R c).1 = [] →
        syncAction (applyCalls newId (applyCalls newId X (syncAction R c).1) post) c =
          syncAction R c := by
      intro hnil
      apply syncAction_congr
      rw [hpost2, hnil]
      simp only [applyCalls, List.foldl_nil]
      rw [hX, hfind]
    have hedit : (syncAction R c).1 = [RemoteCall.edit t (commandData c)] →
        (syncAction (applyCalls newId (applyCalls newId X (syncAction R c).1) post) c).1 = [] ∧
          ((syncAction R c).2 ≠ none →
            (syncAction (applyCalls newId (applyCalls newId X (syncAction R c).1) post) c).2 ≠
              none) := by
      intro he
      have hfault : (syncAction R c).2 = none := by
        rw [hact] at he ⊢
        by_cases hd : (c.description == t.description) = true
        · simp only [hd, if_true] at he ⊢
          cases ho : c.slashCommandOptions with
          | none => simp [ho] at he
          | some a =>
            by_cases ha : arrayEquals a t.options = true
            · simp [ho, ha] at he
            · simp [ha]
        · simp [hd]
      refine ⟨?_, fun h => absurd hfault h⟩
      rw [he]
      apply syncAction_of_synced _ c
        { t with name := c.name, description := c.description,
                 options := c.slashCommandOptions.getD t.options }
      · rw [hpost2]
        have ht : lower t.name = lower c.name := by
          have := List.find?_some hfind
          simpa using this
        simp only [findSlashCommand] at hX ⊢
        simp only [applyCalls, List.foldl_cons, List.foldl_nil, applyCall]
        rw [find?_map_keep, hX]
        · simp [commandData]
        · intro r
          by_cases hr : r = t
          · subst hr; simp [commandData, ht]
          · simp [hr]
      · rfl
      · intro o ho; simp [ho]
    by_cases hd : (c.description == t.description) = true
    · simp only [hd, if_true] at hact
      cases ho : c.slashCommandOptions with
      | none =>
        rw [ho] at hact
        have hnil : (syncAction R c).1 = [] := by rw [hact]
        rw [hsame hnil]
        exact ⟨hnil, fun h => h⟩
      | some a =>
        rw [ho] at hact
        by_cases ha : arrayEquals a t.options = true
        · simp only [ha, if_true] at hact
          have hnil : (syncAction R c).1 = [] := by rw [hact]
          rw [hsame hnil]
          exact ⟨hnil, fun h => h⟩
        · simp only [ha] at hact
          exact hedit (by rw [hact]; rfl)
    · simp only [hd] at hact
      exact hedit (by rw [hact]; rfl)
/-- After the calls of a first pass are applied to the remote set, a first pass over the same
commands issues no call, when no two slash-enabled commands share a lowercased name. -/
theorem syncCalls_settled (newId : ApplicationCommandData → String) (R : List SlashCommand)
    (L : List Command) :
    ∀ pre : List RemoteCall,
      L.Pairwise (fun a b => a.slash = true → b.slash = true → lower a.name ≠ lower b.name) →
      (∀ call ∈ pre, call.wellFormed = true ∧
        ∀ c ∈ L, c.slash = true → call.key ≠ lower c.name) →
      syncCalls (applyCalls newId R (pre ++ syncCalls R L)) L = [] := by
  induction L with
  | nil => intro pre _ _; rfl
  | cons c rest ih =>
    intro pre hpw hpre
    rw [List.pairwise_cons] at hpw
    obtain ⟨hc, hrest⟩ := hpw
    have hpreRest : ∀ call ∈ pre, call.wellFormed = true ∧
        ∀ c2 ∈ rest, c2.slash = true → call.key ≠ lower c2.name :=
      fun call h => ⟨(hpre call h).1,
        fun c2 hc2 hs2 => (hpre call h).2 c2 (List.mem_cons_of_mem _ hc2) hs2⟩
    by_cases hs : c.slash = true
    · have hpreC : ∀ call ∈ pre, call.wellFormed = true ∧ call.key ≠ lower c.name :=
        fun call h => ⟨(hpre call h).1, (hpre call h).2 c (List.mem_cons_self _ _) hs⟩
      by_cases hf : (syncAction R c).2 = none
      · have hkeys : ∀ call ∈ syncCalls R rest,
            call.wellFormed = true ∧ call.key ≠ lower c.name := by
          intro call h
          obtain ⟨hw, c2, hc2, hs2, hk⟩ := syncCalls_key R rest call h
          exact ⟨hw, by rw [hk]; exact fun heq => hc c2 hc2 hs hs2 heq.symm⟩
        have hS := syncAction_settled newId R c pre (syncCalls R rest) hpreC hkeys
        have hcalls : syncCalls R (c :: rest) = (syncAction R c).1 ++ syncCalls R rest := by
          rw [syncCalls_cons]; simp [hf]
        rw [hcalls, ← List.append_assoc, syncCalls_cons, hS.1]
        by_cases hf2 : (syncAction (applyCalls newId R
            (pre ++ (syncAction R c).1 ++ syncCalls R rest)) c).2 = none
        · simp only [hf2, if_true, List.nil_append]
          apply ih (pre ++ (syncAction R c).1) hrest
          intro call hcall
          rcases List.mem_append.mp hcall with h | h
          · exact hpreRest call h
          · obtain ⟨hw, hk, _⟩ := syncAction_key R c call h
            exact ⟨hw, fun c2 hc2 hs2 => by rw [hk]; exact hc c2 hc2 hs hs2⟩
        · rw [if_neg hf2]; rfl
      · have hS := syncAction_settled newId R c pre [] hpreC (by simp)
        have hcalls : syncCalls R (c :: rest) = (syncAction R c).1 := by
          rw [syncCalls_cons]; simp [hf]
        rw [List.append_nil] at hS
        rw [hcalls, syncCalls_cons, hS.1]
        simp [hS.2 hf]
    · have hs2 : c.slash = false := by simpa using hs
      have hcalls : syncCalls R (c :: rest) = syncCalls R rest := by
        rw [syncCalls_cons, syncAction_not_slash R c hs2]; simp
      rw [hcalls, syncCalls_cons, syncAction_not_slash _ c hs2]
      simpa using ih pre hrest hpreRest

/-- The calls of a reload are those of its first pass, unless the built-in help command is
slash-enabled without options. -/
theorem reload_calls (inp : ReloadInput)
    (hHelp : ∀ h, inp.builtInHelpCommand = some h →
      (h.slash && h.slashCommandOptions.isNone) = false) :
    (reload inp).1.calls = syncCalls inp.slashCommands inp.commands := by
  have hfp := firstPass_calls inp.slashCommands inp.commands
    { calls := [], commands := [], commandCategories := inp.commandCategories }
  simp only [List.nil_append] at hfp
  simp only [reload]
  rcases hb : firstPass inp.slashCommands
    { calls := [], commands := [], commandCategories := inp.commandCategories }
    inp.commands with ⟨s1, f1⟩
  rw [hb] at hfp
  simp only at hfp
  cases f1 with
  | some e => exact hfp
  | none =>
    simp only
    cases hh : inp.builtInHelpCommand with
    | none =>
      simp only [injectHelp, secondPass_calls]
      exact hfp
    | some h =>
      have hno := hHelp h hh
      simp only [injectHelp, hno]
      by_cases hcol : (s1.commands.any fun e => collidesWithHelp h e.2) = true
      · simp only [hcol, if_true]
        exact hfp
      · simp only [hcol, Bool.false_eq_true, if_false, secondPass_calls]
        exact hfp

/-- Whatever the remote set is, a run over the local commands `ping` and `Ping` issues a
call: a create or an edit for `ping`, or else an edit for `Ping`. -/
theorem syncCalls_case_pair (remote : List SlashCommand) :
    syncCalls remote [pingLocal, pingUpper] ≠ [] := by
  have hfind : findSlashCommand remote pingUpper = findSlashCommand remote pingLocal := by
    have hl : lower pingUpper.name = lower pingLocal.name := by decide
    simp only [findSlashCommand, hl]
  rw [syncCalls_cons, syncCalls_cons, syncAction_eq remote pingLocal,
    syncAction_eq remote pingUpper, hfind]
  cases findSlashCommand remote pingLocal with
  | none => simp [pingLocal]
  | some t =>
    have hs1 : pingLocal.slash = true := rfl
    have hs2 : pingUpper.slash = true := rfl
    have ho1 : pingLocal.slashCommandOptions = some [] := rfl
    have hae : arrayEquals [] t.options = true := rfl
    by_cases hd : (pingLocal.description == t.description) = true
    · have hd2 : (pingUpper.description == t.description) = false := by
        have h1 : pingLocal.description = t.description := by simpa using hd
        rw [← h1]; decide
      simp only [hs1, hs2, ho1, hae, hd, hd2, if_true]
      simp
    · simp only [hs1, hd]
      simp

/-- The creates of a first pass in which no command faults: one for each slash-enabled
command without a remote command of the same lowercased name, in the order of the commands,
each carrying the definition of its command. -/
theorem syncCalls_creates (R : List SlashCommand) (L : List Command)
    (h : ∀ c ∈ L, (syncAction R c).2 = none) :
    (syncCalls R L).filter RemoteCall.isCreate =
      (L.filter (fun c => c.slash && (findSlashCommand R c).isNone)).map
        (fun c => RemoteCall.create (commandData c)) := by
  induction L with
  | nil => rfl
  | cons c rest ih =>
    have hc := h c (List.mem_cons_self _ _)
    have ih2 := ih (fun x hx => h x (List.mem_cons_of_mem _ hx))
    rw [syncCalls_cons, hc, if_pos rfl, List.filter_append, ih2, List.filter_cons]
    have hact := syncAction_eq R c
    cases hfind : findSlashCommand R c with
    | none =>
      rw [hfind] at hact
      by_cases hs : c.slash = true
      · simp [hact, hs, RemoteCall.isCreate]
      · simp [hact, hs]
    | some t =>
      rw [hfind] at hact
      have hnone : (syncAction R c).1.filter RemoteCall.isCreate = [] := by
        rw [hact]
        by_cases hs : c.slash = true
        · by_cases hd : (c.description == t.description) = true
          · cases ho : c.slashCommandOptions with
            | none => simp [hs, hd]
            | some a =>
              by_cases ha : arrayEquals a t.options = true
              · simp [hs, hd, ha]
              · simp [hs, hd, ha, RemoteCall.isCreate]
          · simp [hs, hd, RemoteCall.isCreate]
        · simp [hs]
      simp [hnone]

/-- What the test of the help injection decides for one command. -/
theorem collidesWithHelp_iff (helpCommand cmd : Command) :
    collidesWithHelp helpCommand cmd = true ↔
      lower cmd.name = helpCommand.name ∨ ∃ al ∈ cmd.aliases, lower al = helpCommand.name := by
  simp only [collidesWithHelp, Bool.or_eq_true, beq_iff_eq, List.contains_iff_exists_mem_beq,
    List.mem_map]
  constructor
  · rintro (h | ⟨x, ⟨al, ha, rfl⟩, hx⟩)
    · exact Or.inl h
    · exact Or.inr ⟨al, ha, hx.symm⟩
  · rintro (h | ⟨al, ha, hx⟩)
    · exact Or.inl h
    · exact Or.inr ⟨lower al, ⟨al, ha, rfl⟩, hx.symm⟩

/-- The help injection on a registry: it ends with the framework's error exactly when a
registered command has the help command's name as lowercased name or as a lowercased alias, and
otherwise it puts the help command in the registry under its name. -/
theorem injectHelp_some (helpCommand : Command) (st : ReloadState) :
    ((injectHelp (some helpCommand) st).2 = some Fault.fdcError ↔
        ∃ e ∈ st.commands, collidesWithHelp helpCommand e.2 = true) ∧
      ((∀ e ∈ st.commands, collidesWithHelp helpCommand e.2 = false) →
        (injectHelp (some helpCommand) st).2 = none ∧
          (injectHelp (some helpCommand) st).1.commands =
            collectionSet st.commands helpCommand.name helpCommand) := by
  by_cases hany : (st.commands.any fun e => collidesWithHelp helpCommand e.2) = true
  · have hex := List.any_eq_true.mp hany
    refine ⟨by simp only [injectHelp, hany, if_true]; exact iff_of_true trivial hex, ?_⟩
    intro hall
    obtain ⟨e, he, hc⟩ := hex
    rw [hall e he] at hc
    cases hc
  · have hno : ¬ ∃ e ∈ st.commands, collidesWithHelp helpCommand e.2 = true :=
      fun hex => hany (List.any_eq_true.mpr hex)
    have hfalse : (st.commands.any fun e => collidesWithHelp helpCommand e.2) = false := by
      simpa using hany
    constructor
    · simp only [injectHelp, hfalse, Bool.false_eq_true, if_false]
      refine iff_of_false ?_ hno
      split <;> simp
    · intro _
      simp only [injectHelp, hfalse, Bool.false_eq_true, if_false]
      split <;> simp

/-- C1 (evaluation at the failing input). With no local command, one remote command,
delete-unused enabled and built-in help disabled, the claim asks for one delete and a pass that
completes; `reload` issues no call and ends with a `TypeError`, raised by the read of
`cmd.name` in the second pass. -/
theorem reload_unmatched_remote_faults :
    reload ⟨[], [staleRemote], none, true, []⟩ = (emptyState, some Fault.typeError) ∧
      secondPass [] true false emptyState [staleRemote] = (emptyState, some Fault.typeError) := by
  decide

/-- C2 (evaluation at the failing input). The local `ping` has a remote match with the same
description; its option list is empty and the remote one has one option, so the lists differ
in length, and `reload` issues no edit. -/
theorem reload_shorter_options_no_edit :
    findSlashCommand [pingRemote] pingLocal = some pingRemote ∧
      pingLocal.description = pingRemote.description ∧
      pingLocal.slashCommandOptions = some [] ∧ pingRemote.options.length = 1 ∧
      arrayEquals [] pingRemote.options = true ∧
      (reload ⟨[pingLocal], [pingRemote], none, false, []⟩).1.calls = [] := by
  decide

/-- C3 (evaluation at the failing input). `echo` is registered remotely with the same
description and declares no option list; `ping` is slash-enabled and has no remote command.
The first pass ends with a `TypeError` at `echo` and issues no create for `ping`. -/
theorem firstPass_fault_skips_create :
    findSlashCommand [echoRemote] pingLocal = none ∧ pingLocal.slash = true ∧
      firstPass [echoRemote] emptyState [echoLocal, pingLocal] =
        (⟨[], [("echo", echoLocal)], ["misc"]⟩, some Fault.typeError) ∧
      (reload ⟨[echoLocal, pingLocal], [echoRemote], none, false, []⟩).1.calls = [] := by
  decide

/-- C4 (counterexample). The local commands `ping` and `Ping` are both slash-enabled and the
remote set is empty. The first run issues two creates; with both commands registered, the
second run finds the remote `ping` for the local `Ping` and issues an edit. Indeed no remote
set at all makes a run over these two commands issue nothing. -/
theorem reload_twice_counterexample :
    (reload caseInput).1.calls =
        [RemoteCall.create (commandData pingLocal), RemoteCall.create (commandData pingUpper)] ∧
      applyCalls idOfName caseInput.slashCommands (reload caseInput).1.calls =
        [⟨"ping", "ping", "Replies with pong", []⟩, ⟨"Ping", "Ping", "Measures latency", []⟩] ∧
      (reload { caseInput with
          slashCommands :=
            applyCalls idOfName caseInput.slashCommands (reload caseInput).1.calls }).1.calls =
        [RemoteCall.edit ⟨"ping", "ping", "Replies with pong", []⟩ (commandData pingUpper)] ∧
      ∀ remote, (reload { caseInput with slashCommands := remote }).1.calls ≠ [] := by
  refine ⟨by decide, by decide, by decide, ?_⟩
  intro remote
  rw [reload_calls { caseInput with slashCommands := remote } (fun h hh => by cases hh)]
  exact syncCalls_case_pair remote

/-- C4 (amended). When no two slash-enabled local commands share a lowercased name, and the
built-in help command is disabled or is not slash-enabled without options: after the remote set
is replaced by the result of applying the calls of one run, a second run over the same local
commands issues no create, edit or delete, whatever ids the platform gives to the commands
created. -/
theorem reload_twice_no_calls (newId : ApplicationCommandData → String) (inp : ReloadInput)
    (hnames : inp.commands.Pairwise
      (fun a b => a.slash = true → b.slash = true → lower a.name ≠ lower b.name))
    (hHelp : ∀ h, inp.builtInHelpCommand = some h →
      (h.slash && h.slashCommandOptions.isNone) = false) :
    (reload { inp with
        slashCommands := applyCalls newId inp.slashCommands (reload inp).1.calls }).1.calls =
      [] := by
  rw [reload_calls inp hHelp]
  rw [reload_calls
    { inp with
      slashCommands :=
        applyCalls newId inp.slashCommands (syncCalls inp.slashCommands inp.commands) } hHelp]
  have h := syncCalls_settled newId inp.slashCommands inp.commands [] hnames (by simp)
  simpa using h

/-- C4 (witness). For `sampleInput` the first run issues an edit for `ping` and a create for
`echo`; the second run issues nothing. -/
theorem reload_twice_no_calls_witness :
    sampleInput.commands.Pairwise
        (fun a b => a.slash = true → b.slash = true → lower a.name ≠ lower b.name) ∧
      sampleInput.builtInHelpCommand = none ∧
      (reload sampleInput).1.calls =
        [RemoteCall.edit pingOutdated (commandData pingLocal),
          RemoteCall.create (commandData echoLocal)] ∧
      (reload { sampleInput with
          slashCommands :=
            applyCalls idOfName sampleInput.slashCommands (reload sampleInput).1.calls }).1.calls =
        [] :=
  ⟨by decide, rfl, by decide,
    reload_twice_no_calls idOfName sampleInput (by decide) (fun h hh => by cases hh)⟩

/-- C5 (evaluation at the failing input). Built-in help is enabled and the loaded command
`help` has the help command's name, but it is registered remotely with the same description and
declares no option list: `reload` ends with a `TypeError` in the first pass, not with the
framework's error, and the registry still holds the custom command. -/
theorem reload_collision_typeError :
    collidesWithHelp builtInHelp customHelp = true ∧
      reload ⟨[customHelp], [customHelpRemote], some builtInHelp, false, []⟩ =
        (⟨[], [("help", customHelp)], ["misc"]⟩, some Fault.typeError) := by
  decide

/-! ## Theorems: the permission evaluator -/

/-- Unfolding of `arraySome` on a non-empty list: the head, or-ed with the rest. -/
theorem arraySome_cons {α : Type} (f : α → Except Fault Bool) (x : α) (rest : List α) :
    arraySome f (x :: rest) = jsOr (f x) (arraySome f rest) := by
  simp only [arraySome, jsOr]

/-- The test `some` over a concatenation is the or of the two parts. -/
theorem arraySome_append {α : Type} (f : α → Except Fault Bool) (xs ys : List α) :
    arraySome f (xs ++ ys) = jsOr (arraySome f xs) (arraySome f ys) := by
  induction xs with
  | nil => rfl
  | cons x rest ih =>
    rw [List.cons_append, arraySome_cons, arraySome_cons, ih]
    rcases f x with e | b
    · rfl
    · cases b <;> rfl

/-- The test `some` over a mapped list. -/
theorem arraySome_map {α β : Type} (f : β → Except Fault Bool) (g : α → β) (xs : List α) :
    arraySome f (xs.map g) = arraySome (fun x => f (g x)) xs := by
  induction xs with
  | nil => rfl
  | cons x rest ih => simp only [List.map_cons, arraySome, ih]

/-- The test `some` gives `true` exactly when an element gives `true` and every element
before it gives `false`. -/
theorem arraySome_eq_true_iff {α : Type} (f : α → Except Fault Bool) (xs : List α) :
    arraySome f xs = Except.ok true ↔
      ∃ pre a post, xs = pre ++ a :: post ∧ (∀ b ∈ pre, f b = Except.ok false) ∧
        f a = Except.ok true := by
  induction xs with
  | nil => simp [arraySome]
  | cons x rest ih =>
    rw [arraySome_cons]
    constructor
    · intro h
      rcases hx : f x with e | b
      · rw [hx] at h; simp [jsOr] at h
      · cases b
        · rw [hx] at h
          obtain ⟨pre, a, post, hsplit, hpre, ha⟩ := ih.mp h
          refine ⟨x :: pre, a, post, by simp [hsplit], ?_, ha⟩
          intro b hb
          rcases List.mem_cons.mp hb with rfl | hb
          · exact hx
          · exact hpre b hb
        · exact ⟨[], x, rest, rfl, by simp, hx⟩
    · rintro ⟨pre, a, post, hsplit, hpre, ha⟩
      cases pre with
      | nil =>
        simp only [List.nil_append, List.cons.injEq] at hsplit
        rw [hsplit.1, ha]; rfl
      | cons p pre =>
        simp only [List.cons_append, List.cons.injEq] at hsplit
        have hp : f x = Except.ok false := by
          rw [hsplit.1]; exact hpre p (List.mem_cons_self _ _)
        rw [hp]
        exact ih.mpr ⟨pre, a, post, hsplit.2, fun b hb => hpre b (List.mem_cons_of_mem _ hb), ha⟩

/-- The test `every` gives `true` exactly when every element gives `true`. -/
theorem arrayEvery_eq_true_iff {α : Type} (f : α → Except Fault Bool) (xs : List α) :
    arrayEvery f xs = Except.ok true ↔ ∀ a ∈ xs, f a = Except.ok true := by
  induction xs with
  | nil => simp [arrayEvery]
  | cons x rest ih =>
    simp only [arrayEvery, List.mem_cons, forall_eq_or_imp]
    rcases hx : f x with e | b
    · simp
    · cases b
      · simp
      · simpa using ih

/-- The test `some` gives the same boolean under a callback that returns at least what the
first one returns. -/
theorem arraySome_mono {α : Type} (f g : α → Except Fault Bool)
    (h : ∀ x b, f x = Except.ok b → g x = Except.ok b) (xs : List α) (b : Bool) :
    arraySome f xs = Except.ok b → arraySome g xs = Except.ok b := by
  induction xs with
  | nil => exact id
  | cons x rest ih =>
    intro hx
    rw [arraySome_cons] at hx ⊢
    rcases hf : f x with e | v
    · rw [hf] at hx; simp [jsOr] at hx
    · rw [hf] at hx
      rw [h x v hf]
      cases v
      · exact ih hx
      · exact hx

/-- The test `every` gives the same boolean under a callback that returns at least what the
first one returns. -/
theorem arrayEvery_mono {α : Type} (f g : α → Except Fault Bool)
    (h : ∀ x b, f x = Except.ok b → g x = Except.ok b) (xs : List α) (b : Bool) :
    arrayEvery f xs = Except.ok b → arrayEvery g xs = Except.ok b := by
  induction xs with
  | nil => exact id
  | cons x rest ih =>
    intro hx
    simp only [arrayEvery] at hx ⊢
    rcases hf : f x with e | v
    · rw [hf] at hx; simp at hx
    · rw [hf] at hx
      rw [h x v hf]
      cases v
      · exact hx
      · exact ih hx

/-- The body of `checkPermissions` gives the same boolean under a callback that returns at
least what the first one returns. -/
theorem checkPermissionsWith_mono (check1 check2 : String → GuildMember → Except Fault Bool)
    (h : ∀ x m b, check1 x m = Except.ok b → check2 x m = Except.ok b)
    (permissions : PermissionSpec) (member : MemberArg) (b : Bool) :
    checkPermissionsWith check1 permissions member = Except.ok b →
      checkPermissionsWith check2 permissions member = Except.ok b := by
  cases member with
  | absent => exact id
  | other => exact id
  | guildMember m =>
    cases permissions with
    | single p => exact id
    | list ps =>
      simp only [checkPermissionsWith]
      apply arraySome_mono
      intro x v
      cases x with
      | perm p => exact h p m v
      | all qs =>
        simp only [checkElement]
        exact arrayEvery_mono _ _ (fun y w => h y m w) qs v

/-- A boolean returned at one recursion depth is returned one level deeper. -/
theorem checkPermission_succ (client : Client) (n : Nat) :
    ∀ (permission : String) (m : GuildMember) (b : Bool),
      checkPermission client n permission m = Except.ok b →
        checkPermission client (n + 1) permission m = Except.ok b := by
  induction n with
  | zero => intro permission m b h; simp [checkPermission] at h
  | succ k ih =>
    intro permission m b h
    rw [checkPermission] at h ⊢
    cases hu : client.users.contains permission with
    | true => simpa only [hu, if_true] using h
    | false =>
      cases hr : m.guildRoles.contains permission with
      | true => simpa only [hu, hr, if_true, Bool.false_eq_true, if_false] using h
      | false =>
        simp only [hu, hr, Bool.false_eq_true, if_false] at h ⊢
        cases ht : tableEntry client.permissionData permission with
        | none => simpa only [ht] using h
        | some spec =>
          simp only [ht] at h ⊢
          exact checkPermissionsWith_mono _ _ ih spec _ b h

/-- A boolean returned at one recursion depth is returned at every greater depth. -/
theorem checkPermission_le (client : Client) (n k : Nat) (hnk : n ≤ k) (permission : String)
    (m : GuildMember) (b : Bool) (h : checkPermission client n permission m = Except.ok b) :
    checkPermission client k permission m = Except.ok b := by
  induction hnk with
  | refl => exact h
  | step _ ih => exact checkPermission_succ client _ permission m b ih

/-- The same for `checkPermissions`. -/
theorem checkPermissions_le (client : Client) (n k : Nat) (hnk : n ≤ k)
    (permissions : PermissionSpec) (member : MemberArg) (b : Bool)
    (h : checkPermissions client n permissions member = Except.ok b) :
    checkPermissions client k permissions member = Except.ok b :=
  checkPermissionsWith_mono _ _ (fun x m v => checkPermission_le client n k hnk x m v)
    permissions member b h

/-- Atoms that each return `v` at some depth all return `v` at one common depth. -/
theorem checkPermission_common_depth (client : Client) (m : GuildMember) (v : Bool)
    (atoms : List String)
    (h : ∀ a ∈ atoms, ∃ n, checkPermission client n a m = Except.ok v) :
    ∃ N, ∀ a ∈ atoms, ∀ k, N ≤ k → checkPermission client k a m = Except.ok v := by
  induction atoms with
  | nil => exact ⟨0, fun a ha => by simp at ha⟩
  | cons x rest ih =>
    obtain ⟨N, hN⟩ := ih (fun a ha => h a (List.mem_cons_of_mem _ ha))
    obtain ⟨n, hn⟩ := h x (List.mem_cons_self _ _)
    refine ⟨max N n, fun a ha k hk => ?_⟩
    rcases List.mem_cons.mp ha with rfl | ha
    · exact checkPermission_le client n k (le_trans (le_max_right _ _) hk) _ m v hn
    · exact hN a ha k (le_trans (le_max_left _ _) hk)

/-- The alias `loop` of `sampleClient` names itself: at no depth does its evaluation give a
boolean. -/
theorem checkPermission_loop (n : Nat) :
    checkPermission sampleClient n "loop" alice = Except.error Fault.fuel := by
  induction n with
  | zero => rfl
  | succ k ih =>
    have h1 : sampleClient.users.contains "loop" = false := by decide
    have h2 : alice.guildRoles.contains "loop" = false := by decide
    have h3 : tableEntry sampleClient.permissionData "loop" =
        some (PermissionSpec.list [Permission.perm "loop"]) := by decide
    simp only [checkPermission, h1, h2, h3, checkPermissionsWith, arraySome, checkElement, ih]
    simp

/-- C6 (counterexample). For the list `["loop", "42"]` the atom `42` evaluates to true for
the member `42`, yet `checkPermissions` never gives true: the atom before it is an alias that
names itself. -/
theorem checkPermissions_any_atom_counterexample :
    ¬ ((∃ n, checkPermissions sampleClient n
            (PermissionSpec.list [Permission.perm "loop", Permission.perm "42"])
            (MemberArg.guildMember alice) = Except.ok true) ↔
        (∃ a ∈ ["loop", "42"], ∃ n, checkPermission sampleClient n a alice = Except.ok true)) := by
  intro h
  have hr : ∃ a ∈ ["loop", "42"], ∃ n, checkPermission sampleClient n a alice = Except.ok true :=
    ⟨"42", by simp, 1, rfl⟩
  obtain ⟨n, hn⟩ := h.mpr hr
  simp [checkPermissions, checkPermissionsWith, arraySome, checkElement, checkPermission_loop]
    at hn

/-- C6 (amended). For a guild member and a list of bare atoms, `checkPermissions` is the
`some` of `checkPermission` over the atoms in order: it returns true exactly when some atom
returns true and every atom before it returns false (at each recursion depth, and for the
calls as they return at some depth); on `[A, B]` it is
`checkPermission(A) || checkPermission(B)`, and on the empty list it is false. -/
theorem checkPermissions_atoms (client : Client) (n : Nat) (m : GuildMember) (L : List String)
    (A B : String) :
    checkPermissions client n (PermissionSpec.list (L.map Permission.perm))
        (MemberArg.guildMember m) = arraySome (fun a => checkPermission client n a m) L ∧
      (checkPermissions client n (PermissionSpec.list (L.map Permission.perm))
          (MemberArg.guildMember m) = Except.ok true ↔
        ∃ pre a post, L = pre ++ a :: post ∧
          (∀ b ∈ pre, checkPermission client n b m = Except.ok false) ∧
          checkPermission client n a m = Except.ok true) ∧
      ((∃ k, checkPermissions client k (PermissionSpec.list (L.map Permission.perm))
          (MemberArg.guildMember m) = Except.ok true) ↔
        ∃ pre a post, L = pre ++ a :: post ∧
          (∀ b ∈ pre, ∃ k, checkPermission client k b m = Except.ok false) ∧
          ∃ k, checkPermission client k a m = Except.ok true) ∧
      checkPermissions client n (PermissionSpec.list [Permission.perm A, Permission.perm B])
          (MemberArg.guildMember m) =
        jsOr (checkPermission client n A m) (checkPermission client n B m) ∧
      checkPermissions client n (PermissionSpec.list []) (MemberArg.guildMember m) =
        Except.ok false := by
  have hmap : ∀ k, checkPermissions client k (PermissionSpec.list (L.map Permission.perm))
      (MemberArg.guildMember m) = arraySome (fun a => checkPermission client k a m) L := by
    intro k
    simp only [checkPermissions, checkPermissionsWith, arraySome_map, checkElement]
  refine ⟨hmap n, ?_, ?_, ?_, rfl⟩
  · rw [hmap]; exact arraySome_eq_true_iff _ L
  · constructor
    · rintro ⟨k, hk⟩
      rw [hmap] at hk
      obtain ⟨pre, a, post, hsplit, hpre, ha⟩ := (arraySome_eq_true_iff _ L).mp hk
      exact ⟨pre, a, post, hsplit, fun b hb => ⟨k, hpre b hb⟩, k, ha⟩
    · rintro ⟨pre, a, post, hsplit, hpre, ka, ha⟩
      obtain ⟨N, hN⟩ := checkPermission_common_depth client m false pre hpre
      refine ⟨max N ka, ?_⟩
      rw [hmap]
      refine (arraySome_eq_true_iff _ L).mpr ⟨pre, a, post, hsplit, ?_, ?_⟩
      · exact fun b hb => hN b hb _ (le_max_left _ _)
      · exact checkPermission_le client ka _ (le_max_right _ _) a m true ha
  · simp only [checkPermissions, checkPermissionsWith, arraySome_cons, checkElement]
    rcases checkPermission client n A m with e | a
    · rfl
    · cases a
      · rcases checkPermission client n B m with e | b
        · rfl
        · cases b <;> rfl
      · rfl

/-- C7. For a guild member, an element of the spec list that is a list of atoms evaluates to
true exactly when `checkPermission` returns true for each of its atoms (at each recursion
depth, and for the calls as they return at some depth); wherever it stands in the spec list it
is or-ed with the elements before and after it; and on `[[A, B]]` `checkPermissions` is
`checkPermission(A) && checkPermission(B)`. -/
theorem checkPermissions_nested (client : Client) (n : Nat) (m : GuildMember)
    (pre post : List Permission) (ps : List String) (A B : String) :
    (checkElement (checkPermission client n) m (Permission.all ps) = Except.ok true ↔
        ∀ a ∈ ps, checkPermission client n a m = Except.ok true) ∧
      (checkPermissions client n (PermissionSpec.list [Permission.all ps])
          (MemberArg.guildMember m) = Except.ok true ↔
        ∀ a ∈ ps, checkPermission client n a m = Except.ok true) ∧
      ((∃ k, checkPermissions client k (PermissionSpec.list [Permission.all ps])
          (MemberArg.guildMember m) = Except.ok true) ↔
        ∀ a ∈ ps, ∃ k, checkPermission client k a m = Except.ok true) ∧
      checkPermissions client n (PermissionSpec.list (pre ++ Permission.all ps :: post))
          (MemberArg.guildMember m) =
        jsOr (checkPermissions client n (PermissionSpec.list pre) (MemberArg.guildMember m))
          (jsOr (checkElement (checkPermission client n) m (Permission.all ps))
            (checkPermissions client n (PermissionSpec.list post) (MemberArg.guildMember m))) ∧
      checkPermissions client n (PermissionSpec.list [Permission.all [A, B]])
          (MemberArg.guildMember m) =
        jsAnd (checkPermission client n A m) (checkPermission client n B m) := by
  have hel : ∀ k, checkElement (checkPermission client k) m (Permission.all ps) =
      Except.ok true ↔ ∀ a ∈ ps, checkPermission client k a m = Except.ok true := by
    intro k
    simp only [checkElement]
    exact arrayEvery_eq_true_iff _ ps
  have hone : ∀ k, checkPermissions client k (PermissionSpec.list [Permission.all ps])
      (MemberArg.guildMember m) = Except.ok true ↔
        ∀ a ∈ ps, checkPermission client k a m = Except.ok true := by
    intro k
    rw [← hel k]
    simp only [checkPermissions, checkPermissionsWith, arraySome_cons]
    rcases checkElement (checkPermission client k) m (Permission.all ps) with e | b
    · simp [jsOr]
    · cases b <;> simp [jsOr, arraySome]
  refine ⟨hel n, hone n, ?_, ?_, ?_⟩
  · constructor
    · rintro ⟨k, hk⟩ a ha
      exact ⟨k, (hone k).mp hk a ha⟩
    · intro hall
      obtain ⟨N, hN⟩ := checkPermission_common_depth client m true ps hall
      exact ⟨N, (hone N).mpr (fun a ha => hN a ha N (le_refl N))⟩
  · simp only [checkPermissions, checkPermissionsWith, arraySome_append, arraySome_cons]
  · simp only [checkPermissions, checkPermissionsWith, arraySome, checkElement, arrayEvery]
    rcases checkPermission client n A m with e | a
    · rfl
    · cases a
      · rfl
      · rcases checkPermission client n B m with e | b
        · rfl
        · cases b <;> rfl

/-- C8. When the member is absent, or is not a guild member, `checkPermissions` returns false
for every spec, whatever `checkPermission` would do on an atom (fail included) and at every
recursion depth, depth 0 included: no atom is evaluated. -/
theorem checkPermissions_no_member (check : String → GuildMember → Except Fault Bool)
    (client : Client) (n : Nat) (permissions : PermissionSpec) :
    checkPermissionsWith check permissions MemberArg.absent = Except.ok false ∧
      checkPermissionsWith check permissions MemberArg.other = Except.ok false ∧
      checkPermissions client n permissions MemberArg.absent = Except.ok false ∧
      checkPermissions client n permissions MemberArg.other = Except.ok false :=
  ⟨rfl, rfl, rfl, rfl⟩

/-- C9. `checkPermission` applies the first matching rule: for an atom in the users cache the
result is whether the member's id equals the atom, whatever the roles, the permission table and
the platform permissions are; for an atom not in the users cache that is a role of the member's
guild, the result is whether the member holds that role, whatever the permission table is. -/
theorem checkPermission_first_rule (client : Client) (n : Nat) (permission : String)
    (m : GuildMember) :
    (client.users.contains permission = true →
        checkPermission client (n + 1) permission m = Except.ok (decide (m.id = permission))) ∧
      (client.users.contains permission = false → m.guildRoles.contains permission = true →
        checkPermission client (n + 1) permission m =
          Except.ok (m.roles.contains permission)) := by
  constructor
  · intro h
    simp only [checkPermission, h, if_true]
    by_cases hid : m.id = permission <;> simp [hid]
  · intro h1 h2
    simp only [checkPermission, h1, h2, if_true, Bool.false_eq_true, if_false]

/-- C9 (witness). In `sampleClient`, `42` is a known user, a role of the guild and a key of
the permission table, and `7` is a role of the guild and a key of the permission table. -/
theorem checkPermission_first_rule_witness :
    (sampleClient.users.contains "42" = true ∧ alice.guildRoles.contains "42" = true ∧
        (tableEntry sampleClient.permissionData "42").isSome = true ∧
        checkPermission sampleClient 1 "42" alice = Except.ok (decide (alice.id = "42"))) ∧
      (sampleClient.users.contains "7" = false ∧ alice.guildRoles.contains "7" = true ∧
        (tableEntry sampleClient.permissionData "7").isSome = true ∧
        checkPermission sampleClient 1 "7" alice = Except.ok (alice.roles.contains "7")) :=
  ⟨⟨by decide, by decide, by decide,
      (checkPermission_first_rule sampleClient 0 "42" alice).1 (by decide)⟩,
    ⟨by decide, by decide, by decide,
      (checkPermission_first_rule sampleClient 0 "7" alice).2 (by decide) (by decide)⟩⟩

/-- C10 (counterexample). `mods` is neither a user nor a role and its table value is the
single atom `42`; `checkPermission("42")` is true for the member `42`, while
`checkPermission("mods")` ends with a `TypeError` at every depth that lets it run. -/
theorem checkPermission_single_alias_counterexample :
    sampleClient.users.contains "mods" = false ∧ alice.guildRoles.contains "mods" = false ∧
      tableEntry sampleClient.permissionData "mods" = some (PermissionSpec.single "42") ∧
      checkPermission sampleClient 1 "42" alice = Except.ok true ∧
      ∀ n, checkPermission sampleClient (n + 1) "mods" alice = Except.error Fault.typeError := by
  refine ⟨by decide, by decide, by decide, rfl, ?_⟩
  intro n
  have h1 : sampleClient.users.contains "mods" = false := by decide
  have h2 : alice.guildRoles.contains "mods" = false := by decide
  have h3 : tableEntry sampleClient.permissionData "mods" =
      some (PermissionSpec.single "42") := by decide
  simp only [checkPermission, h1, h2, h3, checkPermissionsWith]
  simp

/-- C10 (amended). For an atom that is neither a known user nor a role of the member's guild
and whose table value is truthy: when the value is a list, `checkPermission` of the atom is
`checkPermissions` of that list for the member, one level deeper; when the value is a single
string, `checkPermission` of the atom ends with a `TypeError`. -/
theorem checkPermission_alias (client : Client) (n : Nat) (permission : String)
    (m : GuildMember) (hu : client.users.contains permission = false)
    (hr : m.guildRoles.contains permission = false) :
    (∀ l, tableEntry client.permissionData permission = some (PermissionSpec.list l) →
        checkPermission client (n + 1) permission m =
          checkPermissions client n (PermissionSpec.list l) (MemberArg.guildMember m)) ∧
      (∀ b, tableEntry client.permissionData permission = some (PermissionSpec.single b) →
        checkPermission client (n + 1) permission m = Except.error Fault.typeError) := by
  constructor
  · intro l hl
    simp only [checkPermission, hu, hr, hl, checkPermissions, Bool.false_eq_true, if_false]
  · intro b hb
    simp only [checkPermission, hu, hr, hb, checkPermissionsWith, Bool.false_eq_true, if_false]

/-- C10 (witness). In `sampleClient`, `staff` is an alias of the list `["42"]` and `mods` an
alias of the single string `42`. -/
theorem checkPermission_alias_witness :
    (checkPermission sampleClient 2 "staff" alice =
        checkPermissions sampleClient 1 (PermissionSpec.list [Permission.perm "42"])
          (MemberArg.guildMember alice) ∧
      checkPermission sampleClient 2 "staff" alice = Except.ok true) ∧
      checkPermission sampleClient 2 "mods" alice = Except.error Fault.typeError :=
  ⟨⟨(checkPermission_alias sampleClient 1 "staff" alice (by decide) (by decide)).1
        [Permission.perm "42"] (by decide),
      rfl⟩,
    (checkPermission_alias sampleClient 1 "mods" alice (by decide) (by decide)).2 "42"
      (by decide)⟩

/-- Unfolding of `arrayEvery` on a non-empty list: the head, and-ed with the rest. -/
theorem arrayEvery_cons {α : Type} (f : α → Except Fault Bool) (x : α) (rest : List α) :
    arrayEvery f (x :: rest) = jsAnd (f x) (arrayEvery f rest) := by
  simp only [arrayEvery, jsAnd]

/-- The test `some` runs out of depth when an element does and every element before it gives
`false` or runs out of depth. -/
theorem arraySome_blocked {α : Type} (f : α → Except Fault Bool) (pre : List α) (elem : α)
    (post : List α)
    (hpre : ∀ e ∈ pre, f e = Except.ok false ∨ f e = Except.error Fault.fuel)
    (helem : f elem = Except.error Fault.fuel) :
    arraySome f (pre ++ elem :: post) = Except.error Fault.fuel := by
  induction pre with
  | nil => simp only [List.nil_append, arraySome, helem]
  | cons p rest ih =>
    have ih2 := ih (fun e he => hpre e (List.mem_cons_of_mem _ he))
    rw [List.cons_append, arraySome_cons]
    rcases hpre p (List.mem_cons_self _ _) with h | h
    · rw [h, ih2]; rfl
    · rw [h]; rfl

/-- The test `every` runs out of depth when an element does and every element before it gives
`true` or runs out of depth. -/
theorem arrayEvery_blocked {α : Type} (f : α → Except Fault Bool) (pre : List α) (elem : α)
    (post : List α)
    (hpre : ∀ e ∈ pre, f e = Except.ok true ∨ f e = Except.error Fault.fuel)
    (helem : f elem = Except.error Fault.fuel) :
    arrayEvery f (pre ++ elem :: post) = Except.error Fault.fuel := by
  induction pre with
  | nil => simp only [List.nil_append, arrayEvery, helem]
  | cons p rest ih =>
    have ih2 := ih (fun e he => hpre e (List.mem_cons_of_mem _ he))
    rw [List.cons_append, arrayEvery_cons]
    rcases hpre p (List.mem_cons_self _ _) with h | h
    · rw [h, ih2]; rfl
    · rw [h]; rfl

/-- C11 (counterexample). The alias `staff` of `groupClient` is neither a user nor a role and
its spec `["42", "staff"]` references it directly, yet `checkPermission("staff")` returns true
for the member `42`: the atom before the reference is true and `some` stops there. -/
theorem checkPermission_cycle_counterexample :
    groupClient.users.contains "staff" = false ∧ alice.guildRoles.contains "staff" = false ∧
      tableEntry groupClient.permissionData "staff" =
        some (PermissionSpec.list [Permission.perm "42", Permission.perm "staff"]) ∧
      checkPermission groupClient 2 "staff" alice = Except.ok true :=
  ⟨by decide, by decide, by decide, rfl⟩

/-- C11 (amended). There is no cycle detection. Let `S` be a set of aliases, none a known user
or a role of the member's guild, such that the spec of each contains a reference to an alias of
`S` (as an element, or as an atom of a nested list) that the evaluation reaches: every element
before it returns false or runs out of depth, and inside the nested list every atom before it
returns true or runs out of depth. Then at no recursion depth does `checkPermission` of an
alias of `S` return: every depth is used up. -/
theorem checkPermission_cycle (client : Client) (m : GuildMember) (S : String → Prop)
    (hS : ∀ a, S a →
      client.users.contains a = false ∧ m.guildRoles.contains a = false ∧
      ∃ pre elem post,
        tableEntry client.permissionData a = some (PermissionSpec.list (pre ++ elem :: post)) ∧
        (∀ e ∈ pre, ∀ n,
          checkElement (checkPermission client n) m e = Except.ok false ∨
            checkElement (checkPermission client n) m e = Except.error Fault.fuel) ∧
        ((∃ b, S b ∧ elem = Permission.perm b) ∨
          ∃ qpre b qpost, S b ∧ elem = Permission.all (qpre ++ b :: qpost) ∧
            ∀ q ∈ qpre, ∀ n,
              checkPermission client n q m = Except.ok true ∨
                checkPermission client n q m = Except.error Fault.fuel)) :
    ∀ n a, S a → checkPermission client n a m = Except.error Fault.fuel := by
  intro n
  induction n with
  | zero => intro a _; rfl
  | succ k ih =>
    intro a ha
    obtain ⟨hu, hr, pre, elem, post, htable, hpre, helem⟩ := hS a ha
    simp only [checkPermission, hu, hr, htable, checkPermissionsWith, Bool.false_eq_true,
      if_false]
    apply arraySome_blocked _ pre elem post (fun e he => hpre e he k)
    rcases helem with ⟨b, hb, rfl⟩ | ⟨qpre, b, qpost, hb, rfl, hq⟩
    · exact ih b hb
    · simp only [checkElement]
      exact arrayEvery_blocked _ qpre b qpost (fun q hq2 => hq q hq2 k) (ih b hb)

/-- C11 (witness). In `groupClient` the alias `ring` has the spec `["43", ["42", "back"]]` and
`back` has the spec `["ring"]`. For the member `42` the atom `43` is false and the atom `42`
true, so the evaluation of either alias reaches the other, and neither returns, here at depth
1000. In `sampleClient` the alias `loop` has the spec `["loop"]` and does not return either. -/
theorem checkPermission_cycle_witness :
    checkPermission groupClient 1000 "ring" alice = Except.error Fault.fuel ∧
      checkPermission groupClient 1000 "back" alice = Except.error Fault.fuel ∧
      checkPermission sampleClient 1000 "loop" alice = Except.error Fault.fuel := by
  have hloop := checkPermission_cycle sampleClient alice (fun a => a = "loop") (by
    intro a ha
    subst ha
    exact ⟨by decide, by decide, [], Permission.perm "loop", [], by decide,
      fun e he => absurd he (List.not_mem_nil e), Or.inl ⟨"loop", rfl, rfl⟩⟩)
  have h := checkPermission_cycle groupClient alice (fun a => a = "ring" ∨ a = "back") (by
    intro a ha
    rcases ha with rfl | rfl
    · refine ⟨by decide, by decide, [Permission.perm "43"],
        Permission.all ["42", "back"], [], by decide, ?_, Or.inr ⟨["42"], "back", [], Or.inr rfl,
          rfl, ?_⟩⟩
      · intro e he n
        simp only [List.mem_singleton] at he
        subst he
        cases n with
        | zero => exact Or.inr rfl
        | succ k => exact Or.inl rfl
      · intro q hq n
        simp only [List.mem_singleton] at hq
        subst hq
        cases n with
        | zero => exact Or.inr rfl
        | succ k => exact Or.inl rfl
    · exact ⟨by decide, by decide, [], Permission.perm "ring", [], by decide,
        fun e he => absurd he (List.not_mem_nil e), Or.inl ⟨"ring", Or.inl rfl, rfl⟩⟩)
  exact ⟨h 1000 "ring" (Or.inl rfl), h 1000 "back" (Or.inr rfl), hloop 1000 "loop" rfl⟩

/-! ## Theorems: the dispatcher and the argument coercer -/

/-- When every coercion from `index` on succeeds, `conversionsFrom` returns the list of their
results, in order. -/
theorem conversionsFrom_ok (client : Bot) (message : Message) (args : List String)
    (arguments : List Argument) (index : Nat)
    (h : ∀ i (hi : i < arguments.length), ∃ v,
      constructors (arguments.get ⟨i, hi⟩).type client (args.get? (index + i)) message
        (args.drop (index + i + 1)) = Except.ok v) :
    ∃ values, conversionsFrom client message args index arguments = Except.ok values ∧
      values.length = arguments.length ∧
      ∀ i (h1 : i < arguments.length) (h2 : i < values.length),
        constructors (arguments.get ⟨i, h1⟩).type client (args.get? (index + i)) message
          (args.drop (index + i + 1)) = Except.ok (values.get ⟨i, h2⟩) := by
  induction arguments generalizing index with
  | nil => exact ⟨[], rfl, rfl, fun i h1 => absurd h1 (Nat.not_lt_zero i)⟩
  | cons a others ih =>
    obtain ⟨v, hv⟩ := h 0 (Nat.succ_pos _)
    have hrest : ∀ i (hi : i < others.length), ∃ w,
        constructors (others.get ⟨i, hi⟩).type client (args.get? (index + 1 + i)) message
          (args.drop (index + 1 + i + 1)) = Except.ok w := by
      intro i hi
      obtain ⟨w, hw⟩ := h (i + 1) (Nat.succ_lt_succ hi)
      refine ⟨w, ?_⟩
      have e1 : index + 1 + i = index + (i + 1) := by omega
      rw [e1]
      exact hw
    obtain ⟨vs, hvs, hlen, hget⟩ := ih (index + 1) hrest
    have hv2 : constructors a.type client (args.get? index) message (args.drop (index + 1)) =
        Except.ok v := hv
    refine ⟨v :: vs, ?_, by simp [hlen], ?_⟩
    · simp only [conversionsFrom, hv2, hvs]
    · intro i h1 h2
      cases i with
      | zero => exact hv2
      | succ j =>
        have h1j : j < others.length := Nat.lt_of_succ_lt_succ h1
        have h2j : j < vs.length := Nat.lt_of_succ_lt_succ h2
        have := hget j h1j h2j
        have e1 : index + 1 + j = index + (j + 1) := by omega
        rw [e1] at this
        exact this

/-- When some coercion from `index` on fails, `conversionsFrom` fails. -/
theorem conversionsFrom_error (client : Bot) (message : Message) (args : List String)
    (arguments : List Argument) (index : Nat) (i : Nat) (hi : i < arguments.length) (e : Fault)
    (h : constructors (arguments.get ⟨i, hi⟩).type client (args.get? (index + i)) message
      (args.drop (index + i + 1)) = Except.error e) :
    ∃ e2, conversionsFrom client message args index arguments = Except.error e2 := by
  induction arguments generalizing index i with
  | nil => exact absurd hi (Nat.not_lt_zero i)
  | cons a others ih =>
    cases i with
    | zero =>
      have h2 : constructors a.type client (args.get? index) message (args.drop (index + 1)) =
          Except.error e := h
      exact ⟨e, by simp only [conversionsFrom, h2]⟩
    | succ j =>
      simp only [conversionsFrom]
      rcases constructors a.type client (args.get? index) message (args.drop (index + 1)) with
        e1 | v
      · exact ⟨e1, rfl⟩
      · have hj : j < others.length := Nat.lt_of_succ_lt_succ hi
        have e1 : index + 1 + j = index + (j + 1) := by omega
        have h2 : constructors (others.get ⟨j, hj⟩).type client (args.get? (index + 1 + j))
            message (args.drop (index + 1 + j + 1)) = Except.error e := by
          rw [e1]; exact h
        obtain ⟨e2, he2⟩ := ih (index + 1) j hj h2
        exact ⟨e2, by simp only [he2]⟩

/-- C12. When the coercion of every declared argument succeeds, `runCommand` returns what the
handler returns on the one call `(message, args, client, ...values)`, where `values` has one
entry per declared argument, in declaration order, and entry `i` is the result of
`constructors[type i](client, args[i], message, args.slice(i + 1))`, with `args[i]` absent past
the end of `args`. -/
theorem runCommand_invokes {ρ : Type} (client : Bot) (command : DispatchedCommand ρ)
    (message : Message) (args : List String)
    (h : ∀ i (hi : i < command.args.length), ∃ v,
      constructors (command.args.get ⟨i, hi⟩).type client (args.get? i) message
        (args.drop (i + 1)) = Except.ok v) :
    ∃ values : List Value, values.length = command.args.length ∧
      (∀ i (h1 : i < command.args.length) (h2 : i < values.length),
        constructors (command.args.get ⟨i, h1⟩).type client (args.get? i) message
          (args.drop (i + 1)) = Except.ok (values.get ⟨i, h2⟩)) ∧
      runCommand client command message args =
        Except.ok (command.run ⟨message, args, client, values⟩) := by
  have h0 : ∀ i (hi : i < command.args.length), ∃ v,
      constructors (command.args.get ⟨i, hi⟩).type client (args.get? (0 + i)) message
        (args.drop (0 + i + 1)) = Except.ok v := by
    intro i hi
    simpa using h i hi
  obtain ⟨values, hvs, hlen, hget⟩ := conversionsFrom_ok client message args command.args 0 h0
  refine ⟨values, hlen, ?_, ?_⟩
  · intro i h1 h2
    simpa using hget i h1 h2
  · simp only [runCommand, hvs]

/-- C12 (witness). `rollCommand` on the one token `7`: the integer argument is coerced from
`7`, the boolean argument from an absent token, and the handler receives both values. -/
theorem runCommand_invokes_witness :
    (∃ values : List Value, values.length = rollCommand.args.length ∧
      (∀ i (h1 : i < rollCommand.args.length) (h2 : i < values.length),
        constructors (rollCommand.args.get ⟨i, h1⟩).type sampleBot (["7"].get? i) sampleMessage
          (["7"].drop (i + 1)) = Except.ok (values.get ⟨i, h2⟩)) ∧
      runCommand sampleBot rollCommand sampleMessage ["7"] =
        Except.ok (rollCommand.run ⟨sampleMessage, ["7"], sampleBot, values⟩)) ∧
      runCommand sampleBot rollCommand sampleMessage ["7"] =
        Except.ok [Value.number (JsNumber.finite false 7 0), Value.null] :=
  ⟨runCommand_invokes sampleBot rollCommand sampleMessage ["7"] (by
      intro i hi
      match i, hi with
      | 0, _ => exact ⟨_, rfl⟩
      | 1, _ => exact ⟨_, rfl⟩),
    rfl⟩

/-- C13. `runCommand` performs no permission check: two commands that differ only in their
permission specification give the same result on the same client, message and raw arguments;
and for a caller for whom `checkPermissions` on the command's permissions is false, the
handler is still called with the converted values. -/
theorem runCommand_ignores_permissions {ρ : Type} (client : Bot) (command : DispatchedCommand ρ)
    (message : Message) (args : List String) (p1 p2 : List Permission) :
    runCommand client { command with permissions := p1 } message args =
        runCommand client { command with permissions := p2 } message args ∧
      ∀ (guard : Client) (n : Nat) (member : MemberArg) (conversions : List Value),
        checkPermissions guard n (PermissionSpec.list command.permissions) member =
            Except.ok false →
          conversionsFrom client message args 0 command.args = Except.ok conversions →
          runCommand client command message args =
            Except.ok (command.run ⟨message, args, client, conversions⟩) := by
  refine ⟨rfl, ?_⟩
  intro guard n member conversions _ hc
  simp only [runCommand, hc]

/-- C13 (witness). `rollCommand` is guarded by the role `8`, which `alice` does not hold:
`checkPermissions` is false for her, and `runCommand` calls the handler all the same. -/
theorem runCommand_ignores_permissions_witness :
    checkPermissions sampleClient 1 (PermissionSpec.list rollCommand.permissions)
        (MemberArg.guildMember alice) = Except.ok false ∧
      runCommand sampleBot rollCommand sampleMessage ["7"] =
        Except.ok (rollCommand.run ⟨sampleMessage, ["7"], sampleBot,
          [Value.number (JsNumber.finite false 7 0), Value.null]⟩) :=
  ⟨rfl,
    (runCommand_ignores_permissions sampleBot rollCommand sampleMessage ["7"] [] []).2
      sampleClient 1 (MemberArg.guildMember alice) _ rfl rfl⟩

/-- C14. When the coercion of some declared argument fails, `runCommand` fails, and with the
same failure whatever the handler is: the handler is not called. -/
theorem runCommand_fail_fast {ρ : Type} (client : Bot) (command : DispatchedCommand ρ)
    (message : Message) (args : List String) (i : Nat) (hi : i < command.args.length)
    (e : Fault)
    (h : constructors (command.args.get ⟨i, hi⟩).type client (args.get? i) message
      (args.drop (i + 1)) = Except.error e) :
    ∃ e2, ∀ run : Invocation → ρ,
      runCommand client { command with run := run } message args = Except.error e2 := by
  have h0 : constructors (command.args.get ⟨i, hi⟩).type client (args.get? (0 + i)) message
      (args.drop (0 + i + 1)) = Except.error e := by
    simpa using h
  obtain ⟨e2, he2⟩ := conversionsFrom_error client message args command.args 0 i hi e h0
  exact ⟨e2, fun run => by simp only [runCommand, he2]⟩

/-- C14 (witness). `grantCommand` on the one token `a`: the string argument is coerced, the
permission argument has no token and its coercion fails, the integer argument would give
not-a-number; `runCommand` fails for every handler. -/
theorem runCommand_fail_fast_witness :
    constructors ArgumentType.string sampleBot (["a"].get? 0) sampleMessage (["a"].drop 1) =
        Except.ok (Value.string "a") ∧
      constructors ArgumentType.permission sampleBot (["a"].get? 1) sampleMessage
        (["a"].drop 2) = Except.error Fault.typeError ∧
      ∃ e2, ∀ run : Invocation → List Value,
        runCommand sampleBot { grantCommand with run := run } sampleMessage ["a"] =
          Except.error e2 :=
  ⟨rfl, rfl,
    runCommand_fail_fast sampleBot grantCommand sampleMessage ["a"] 1 (by decide)
      Fault.typeError rfl⟩

/-- C15. The boolean coercion returns `null` for an absent token; for a present token it
returns a boolean that is false exactly when the token is one of `false`, `0`, `0n`,
`undefined`, `NaN`, the empty string, `no` and `off`, compared as they are written: `off` gives
false, `yes` and `False` give true. -/
theorem boolean_coercion (client : Bot) (message : Message) (rest : List String) (s : String) :
    constructors ArgumentType.boolean client none message rest = Except.ok Value.null ∧
      (∃ b, constructors ArgumentType.boolean client (some s) message rest =
          Except.ok (Value.boolean b) ∧
        (b = false ↔ s ∈ ["false", "0", "0n", "undefined", "NaN", "", "no", "off"])) ∧
      constructors ArgumentType.boolean client (some "off") message rest =
        Except.ok (Value.boolean false) ∧
      constructors ArgumentType.boolean client (some "yes") message rest =
        Except.ok (Value.boolean true) ∧
      constructors ArgumentType.boolean client (some "False") message rest =
        Except.ok (Value.boolean true) := by
  refine ⟨rfl, ⟨!(falsy.contains (some s)), rfl, ?_⟩, rfl, rfl, rfl⟩
  rw [Bool.not_eq_false']
  show List.elem (some s) falsy = true ↔ _
  rw [List.elem_iff]
  simp only [falsy, List.mem_cons, Option.some.injEq, List.mem_singleton, reduceCtorEq,
    or_false, List.mem_nil_iff]

/-- The accumulator of `String.intercalate` can be split off in front. -/
theorem intercalate_go_append (sep : String) (xs : List String) (a b : String) :
    String.intercalate.go (a ++ b) sep xs = a ++ String.intercalate.go b sep xs := by
  induction xs generalizing b with
  | nil => rfl
  | cons x rest ih =>
    simp only [String.intercalate.go]
    rw [String.append_assoc, String.append_assoc, ← String.append_assoc b, ih]

/-- The multi-word-string coercion with at least one remaining token: the single-space join
of the token and the remaining tokens. -/
theorem mstring_rest (client : Bot) (message : Message) (s r : String) (rest : List String) :
    constructors ArgumentType.mstring client (some s) message (r :: rest) =
      Except.ok (Value.string (" ".intercalate (s :: r :: rest))) := by
  simp only [constructors, Option.getD_some, String.intercalate, String.intercalate.go]
  rw [String.append_assoc, String.append_assoc, intercalate_go_append, intercalate_go_append]

/-- The multi-word-string coercion with no remaining token: the token followed by a space. -/
theorem mstring_last (client : Bot) (message : Message) (s : String) :
    constructors ArgumentType.mstring client (some s) message [] =
      Except.ok (Value.string (s ++ " ")) := by
  simp [constructors, String.intercalate]

/-- C16 (evaluation at the failing input). On the raw arguments `["hello"]` a multi-word
string at index 0 has no remaining token: the single-space join of `rawArgs[0..]` is `hello`,
and the value passed is `hello` followed by a space. On `["hello", "world", "foo"]` at index 1
the value is `world foo`. -/
theorem mstring_trailing_space :
    " ".intercalate (["hello"].drop 0) = "hello" ∧
      constructors ArgumentType.mstring sampleBot (["hello"].get? 0) sampleMessage
        (["hello"].drop 1) = Except.ok (Value.string "hello ") ∧
      runCommand sampleBot
          ({ args := [⟨"text", "Text", true, ArgumentType.mstring⟩], permissions := [],
             run := fun call => call.conversions } : DispatchedCommand (List Value))
          sampleMessage ["hello"] = Except.ok [Value.string "hello "] ∧
      constructors ArgumentType.mstring sampleBot (["hello", "world", "foo"].get? 1)
        sampleMessage (["hello", "world", "foo"].drop 2) = Except.ok (Value.string "world foo") :=
  ⟨rfl, rfl, rfl, rfl⟩

/-- C19 (evaluation at the failing input). The duration argument of a command called with
the token `5m`: the utility applied to the token gives 300000 milliseconds, but the coercion
calls it on the client object, whatever the token is, and here fails. -/
theorem time_ignores_token (client : Bot) (message : Message) (rest : List String)
    (s1 s2 : Option String) :
    constructors ArgumentType.time client s1 message rest =
        constructors ArgumentType.time client s2 message rest ∧
      constructors ArgumentType.time client s1 message rest = client.fms FmsInput.client "ms" ∧
      sampleBot.fms (FmsInput.token (some "5m")) "ms" =
        Except.ok (Value.number (JsNumber.finite false 300000 0)) ∧
      constructors ArgumentType.time sampleBot (some "5m") sampleMessage [] =
        Except.error Fault.platform :=
  ⟨rfl, rfl, rfl, rfl⟩

/-- A decimal digit is not white space. -/
theorem not_whiteSpace_of_digit (c : Char) (h : isDecimalDigit c = true) :
    isStrWhiteSpaceChar c = false := by
  simp only [isDecimalDigit, Bool.and_eq_true, decide_eq_true_eq] at h
  simp only [isStrWhiteSpaceChar, strWhiteSpaceCodes, List.contains_cons, List.contains_nil,
    Bool.or_false, Bool.or_eq_false_iff, beq_eq_false_iff_ne, ne_eq]
  omega

/-- A decimal digit is not a sign. -/
theorem not_sign_of_digit (c : Char) (h : isDecimalDigit c = true) : c ≠ '+' ∧ c ≠ '-' := by
  constructor <;> (intro hc; subst hc; revert h; decide)

/-- The run of decimal digits at the start of digits followed by a non-digit. -/
theorem takeWhile_digits (p : Char → Bool) (digits tail : List Char)
    (hd : ∀ c ∈ digits, p c = true) (ht : ∀ c, tail.head? = some c → p c = false) :
    (digits ++ tail).takeWhile p = digits := by
  induction digits with
  | nil =>
    cases tail with
    | nil => rfl
    | cons t rest => simp [List.takeWhile, ht t rfl]
  | cons d rest ih =>
    have ih2 := ih (fun c hc => hd c (List.mem_cons_of_mem _ hc))
    simp only [List.cons_append, List.takeWhile_cons, hd d (List.mem_cons_self _ _), if_true,
      ih2]

/-- C18. For a token with no numeric start (after the leading white space and one optional
sign comes neither a digit, nor a dot and a digit, nor `Infinity`), and for an absent token, the
number, integer and float coercions each return not-a-number, not an error. -/
theorem numeric_coercions_nan (client : Bot) (message : Message) (rest : List String)
    (string : Option String) (h : numericStart string = false) :
    constructors ArgumentType.number client string message rest =
        Except.ok (Value.number JsNumber.nan) ∧
      constructors ArgumentType.int client string message rest =
        Except.ok (Value.number JsNumber.nan) ∧
      constructors ArgumentType.float client string message rest =
        Except.ok (Value.number JsNumber.nan) := by
  have hfloat : parseFloat string = JsNumber.nan := by
    simp only [numericStart] at h
    simp only [parseFloat]
    generalize afterSign (trimStart (tokenToString string)) = s1 at h ⊢
    generalize ((trimStart (tokenToString string)).head? == some '-') = negative
    cases s1 with
    | nil => rfl
    | cons c cs =>
      simp only [Bool.or_eq_false_iff, Bool.and_eq_false_iff] at h
      obtain ⟨⟨hc, hdot⟩, hinf⟩ := h
      have htake : (c :: cs).takeWhile isDecimalDigit = [] := by simp [List.takeWhile, hc]
      have hdrop : (c :: cs).dropWhile isDecimalDigit = c :: cs := by
        simp [List.dropWhile, hc]
      simp only [unsignedDecimalLiteral, hinf, htake, hdrop, Bool.false_eq_true, if_false,
        List.isEmpty_nil, Bool.true_and, if_true]
      split
      · next afterDot heq =>
        simp only [List.cons.injEq] at heq
        obtain ⟨hcdot, hcs⟩ := heq
        subst hcdot hcs
        rcases hdot with hne | hd
        · simp at hne
        · cases cs with
          | nil => rfl
          | cons d ds =>
            simp only at hd
            simp [List.takeWhile, hd]
      · rfl
  have hint : parseInt string = JsNumber.nan := by
    simp only [numericStart] at h
    simp only [parseInt]
    generalize afterSign (trimStart (tokenToString string)) = s1 at h ⊢
    generalize ((trimStart (tokenToString string)).head? == some '-') = negative
    cases s1 with
    | nil => rfl
    | cons c cs =>
      simp only [Bool.or_eq_false_iff, Bool.and_eq_false_iff] at h
      obtain ⟨⟨hc, _⟩, _⟩ := h
      have hmark : startsWithHexMark (c :: cs) = false := by
        cases hm : startsWithHexMark (c :: cs) with
        | false => rfl
        | true =>
          have hzero : c = '0' := by
            unfold startsWithHexMark at hm
            split at hm <;> simp_all
          subst hzero
          revert hc; decide
      have htake : (c :: cs).takeWhile isDecimalDigit = [] := by simp [List.takeWhile, hc]
      simp only [hmark, htake, Bool.false_eq_true, if_false, List.isEmpty_nil, if_true]
  simp only [constructors, hfloat, hint, and_self]

/-- C18 (witness). The token `abc` and an absent token have no numeric start. -/
theorem numeric_coercions_nan_witness :
    (numericStart (some "abc") = false ∧
        constructors ArgumentType.number sampleBot (some "abc") sampleMessage [] =
          Except.ok (Value.number JsNumber.nan) ∧
        constructors ArgumentType.int sampleBot (some "abc") sampleMessage [] =
          Except.ok (Value.number JsNumber.nan) ∧
        constructors ArgumentType.float sampleBot (some "abc") sampleMessage [] =
          Except.ok (Value.number JsNumber.nan)) ∧
      (numericStart none = false ∧
        constructors ArgumentType.int sampleBot none sampleMessage [] =
          Except.ok (Value.number JsNumber.nan)) :=
  ⟨⟨by decide, numeric_coercions_nan sampleBot sampleMessage [] (some "abc") (by decide)⟩,
    ⟨by decide, (numeric_coercions_nan sampleBot sampleMessage [] none (by decide)).2.1⟩⟩

/-- C17 (counterexample). The token `0x10` starts with the decimal digit `0`, and its leading
decimal digits denote 0; the integer coercion reads it in radix 16 and returns 16. The token
`0xg` has the same leading digit and gives not-a-number. -/
theorem int_coercion_hex_counterexample :
    digitsValue 10 ("0x10".data.takeWhile isDecimalDigit) = 0 ∧
      constructors ArgumentType.int sampleBot (some "0x10") sampleMessage [] =
        Except.ok (Value.number (JsNumber.finite false 16 0)) ∧
      constructors ArgumentType.int sampleBot (some "0xg") sampleMessage [] =
        Except.ok (Value.number JsNumber.nan) :=
  ⟨by decide, rfl, rfl⟩

/-- Reading the sign of a token that is an optional sign followed by characters starting with
a decimal digit: there is no white space to skip, the sign is removed, and the result is
negative exactly for the sign `-`. -/
theorem sign_split (sign : List Char) (hsign : sign = [] ∨ sign = ['+'] ∨ sign = ['-'])
    (c : Char) (cs : List Char) (hc : isDecimalDigit c = true) :
    trimStart (sign ++ c :: cs) = sign ++ c :: cs ∧ afterSign (sign ++ c :: cs) = c :: cs ∧
      ((sign ++ c :: cs).head? == some '-') = decide (sign = ['-']) := by
  have hws := not_whiteSpace_of_digit c hc
  obtain ⟨hplus, hminus⟩ := not_sign_of_digit c hc
  rcases hsign with h | h | h
  · subst h
    refine ⟨by simp [trimStart, List.dropWhile, hws], ?_, ?_⟩
    · simp [afterSign, hplus, hminus]
    · simp [hminus]
  · subst h
    have hp : isStrWhiteSpaceChar '+' = false := by decide
    refine ⟨by simp [trimStart, List.dropWhile, hp], ?_, ?_⟩
    · simp [afterSign]
    · simp
  · subst h
    have hm : isStrWhiteSpaceChar '-' = false := by decide
    refine ⟨by simp [trimStart, List.dropWhile, hm], ?_, ?_⟩
    · simp [afterSign]
    · simp

/-- C17 (amended). The integer coercion is `parseInt` without a radix. A token that is an
optional sign and decimal digits, possibly followed by other characters, gives the integer its
leading decimal digits denote, with the sign, unless it starts (after the sign) with `0x` or
`0X`; such a token is read in radix 16: it gives the integer denoted by the hexadecimal digits
after the mark, and not-a-number when there is none. -/
theorem int_coercion_digits (client : Bot) (message : Message) (rest : List String)
    (sign : List Char) (hsign : sign = [] ∨ sign = ['+'] ∨ sign = ['-']) :
    (∀ digits tail : List Char, digits ≠ [] → (∀ c ∈ digits, isDecimalDigit c = true) →
        (∀ c, tail.head? = some c → isDecimalDigit c = false) →
        startsWithHexMark (digits ++ tail) = false →
        constructors ArgumentType.int client (some (String.mk (sign ++ (digits ++ tail))))
            message rest =
          Except.ok (Value.number
            (JsNumber.finite (decide (sign = ['-'])) (digitsValue 10 digits) 0))) ∧
      (∀ (mark : Char) (hexDigits tail : List Char), mark = 'x' ∨ mark = 'X' →
        (∀ c ∈ hexDigits, isHexDigit c = true) →
        (∀ c, tail.head? = some c → isHexDigit c = false) →
        constructors ArgumentType.int client
            (some (String.mk (sign ++ '0' :: mark :: (hexDigits ++ tail)))) message rest =
          Except.ok (Value.number
            (if hexDigits.isEmpty then JsNumber.nan
              else JsNumber.finite (decide (sign = ['-'])) (digitsValue 16 hexDigits) 0))) := by
  constructor
  · intro digits tail hne hd ht hhex
    cases digits with
    | nil => exact absurd rfl hne
    | cons d ds =>
      have hdig : isDecimalDigit d = true := hd d (List.mem_cons_self _ _)
      obtain ⟨h1, h2, h3⟩ := sign_split sign hsign d (ds ++ tail) hdig
      have htake := takeWhile_digits isDecimalDigit (d :: ds) tail hd ht
      simp only [List.cons_append] at htake hhex
      simp only [constructors, parseInt, tokenToString, Option.getD_some, List.cons_append, h1,
        h2, h3, hhex, htake, Bool.false_eq_true, if_false, List.isEmpty_cons]
  · intro mark hexDigits tail hmark hd ht
    have hzero : isDecimalDigit '0' = true := by decide
    obtain ⟨h1, h2, h3⟩ := sign_split sign hsign '0' (mark :: (hexDigits ++ tail)) hzero
    have hstart : startsWithHexMark ('0' :: mark :: (hexDigits ++ tail)) = true := by
      rcases hmark with h | h <;> subst h <;> rfl
    have htake := takeWhile_digits isHexDigit hexDigits tail hd ht
    simp only [constructors, parseInt, tokenToString, Option.getD_some, h1, h2, h3, hstart,
      if_true, List.drop_succ_cons, List.drop_zero, htake]

/-- C17 (witness). The token `-42.7` gives -42, and the token `0x1f` gives 31. -/
theorem int_coercion_digits_witness :
    constructors ArgumentType.int sampleBot (some "-42.7") sampleMessage [] =
        Except.ok (Value.number (JsNumber.finite true 42 0)) ∧
      constructors ArgumentType.int sampleBot (some "0x1f") sampleMessage [] =
        Except.ok (Value.number (JsNumber.finite false 31 0)) :=
  ⟨(int_coercion_digits sampleBot sampleMessage [] ['-'] (by simp)).1 ['4', '2'] ['.', '7']
      (by simp) (by decide) (by decide) (by decide),
    (int_coercion_digits sampleBot sampleMessage [] [] (by simp)).2 'x' ['1', 'f'] []
      (by simp) (by decide) (by simp)⟩

/-- C20 (counterexample). Two coercions on recognized types that raise: a member token that
matches no cached user (reading `id` of `null`), and a permission argument with no token
(`toUpperCase` of `undefined`). -/
theorem coercion_raises_counterexample :
    resolveUser sampleBot (some "nobody") = none ∧
      constructors ArgumentType.member sampleBot (some "nobody") sampleMessage [] =
        Except.error Fault.typeError ∧
      constructors ArgumentType.permission sampleBot none sampleMessage [] =
        Except.error Fault.typeError :=
  ⟨rfl, rfl, rfl⟩

/-- C20 (amended). For every raw token, absent or not, and whether or not it matches an
entity: the coercions for string, multi-word string, character, number, integer, float,
boolean, guild, user, channel and emoji return; the role coercion returns when the message has
a guild; the permission and command coercions return for every present token; the color and
duration coercions are the calls of the platform utilities and raise as those raise; the
message coercion returns exactly when its remote fetch is answered, and so does the invite
coercion in a guild; the member coercion in a guild, for a token that matches a cached user,
is the remote fetch of that member. -/
theorem coercion_returns (client : Bot) (message : Message) (rest : List String)
    (string : Option String) :
    (∀ type ∈ [ArgumentType.string, ArgumentType.mstring, ArgumentType.char,
        ArgumentType.number, ArgumentType.int, ArgumentType.float, ArgumentType.boolean,
        ArgumentType.guild, ArgumentType.user, ArgumentType.channel, ArgumentType.emoji],
        ∃ v, constructors type client string message rest = Except.ok v) ∧
      (message.guild.isSome = true →
        ∃ v, constructors ArgumentType.role client string message rest = Except.ok v) ∧
      (∀ s : String,
        (∃ v, constructors ArgumentType.permission client (some s) message rest = Except.ok v) ∧
          ∃ v, constructors ArgumentType.command client (some s) message rest = Except.ok v) ∧
      constructors ArgumentType.color client string message rest = client.resolveColor string ∧
      constructors ArgumentType.time client string message rest =
        client.fms FmsInput.client "ms" ∧
      ((∃ v, constructors ArgumentType.message client string message rest = Except.ok v) ↔
        ∃ r, message.fetchMessage string = Except.ok r) ∧
      (∀ guild, message.guild = some guild →
        ((∃ v, constructors ArgumentType.invite client string message rest = Except.ok v) ↔
          ∃ r, guild.fetchInvite string = Except.ok r)) ∧
      (∀ guild user, message.guild = some guild → resolveUser client string = some user →
        constructors ArgumentType.member client string message rest =
          (guild.fetchMember user.id).map Value.member) := by
  refine ⟨?_, ?_, ?_, rfl, rfl, ?_, ?_, ?_⟩
  · intro type htype
    simp only [List.mem_cons, List.mem_singleton, List.mem_nil_iff, or_false] at htype
    rcases htype with h | h | h | h | h | h | h | h | h | h | h <;> subst h <;>
      exact ⟨_, rfl⟩
  · intro hguild
    cases hg : message.guild with
    | none => rw [hg] at hguild; cases hguild
    | some guild =>
      simp only [constructors, resolveRole, hg]
      split <;> exact ⟨_, rfl⟩
  · intro s
    constructor
    · simp only [constructors, resolvePermission]
      split <;> exact ⟨_, rfl⟩
    · simp only [constructors, resolveCommand]
      split <;> exact ⟨_, rfl⟩
  · simp only [constructors, resolveMessage]
    cases message.fetchMessage string with
    | error e => simp
    | ok msg2 =>
      refine iff_of_true ?_ ⟨msg2, rfl⟩
      simp only
      split
      · exact ⟨_, rfl⟩
      · split <;> exact ⟨_, rfl⟩
  · intro guild hg
    simp only [constructors, resolveInvite, hg]
    cases guild.fetchInvite string with
    | error e => simp
    | ok invite2 =>
      refine iff_of_true ?_ ⟨invite2, rfl⟩
      simp only
      split
      · exact ⟨_, rfl⟩
      · split <;> exact ⟨_, rfl⟩
  · intro guild user hg hu
    simp only [constructors, resolveMember, hg, hu]
    cases guild.fetchMember user.id <;> rfl

/-- C20 (witness). In `sampleMessage`, sent in a guild, the role coercion returns `null` for
a token that names no role, and the permission coercion returns `null` for a token that is no
flag. -/
theorem coercion_returns_witness :
    sampleMessage.guild.isSome = true ∧
      (∃ v, constructors ArgumentType.role sampleBot (some "nobody") sampleMessage [] =
        Except.ok v) ∧
      constructors ArgumentType.role sampleBot (some "nobody") sampleMessage [] =
        Except.ok Value.null ∧
      constructors ArgumentType.permission sampleBot (some "fly") sampleMessage [] =
        Except.ok Value.null :=
  ⟨rfl, (coercion_returns sampleBot sampleMessage [] (some "nobody")).2.1 rfl, rfl, rfl⟩


/-! ## Theorems: the entity coercions, second part -/

/-- C21 (evaluation at the failing input). The channel cache of `cachedMessage` holds a message
with id `900`, and the token is `900` (or the URL of that message): the claim asks for the
cached message whatever the remote fetch does. The fetch is awaited before the cache hit is
looked at, so its rejection is the result of the coercion. -/
theorem resolveMessage_hit_fails_with_fetch :
    cachedMessage.channelMessages.find? (fun m => some m.id == some "900" ||
        some m.url == some "900") = some ⟨"900", "https://discord.com/channels/1/2/900"⟩ ∧
      constructors ArgumentType.message sampleBot (some "900") cachedMessage [] =
        Except.error Fault.platform ∧
      constructors ArgumentType.message sampleBot
        (some "https://discord.com/channels/1/2/900") cachedMessage [] =
        Except.error Fault.platform :=
  ⟨by decide, rfl, rfl⟩

/-- Uppercasing a character twice is uppercasing it once. -/
theorem toUpper_toUpper (c : Char) : Char.toUpper (Char.toUpper c) = Char.toUpper c := by
  by_cases h : c.toNat ≥ 97 ∧ c.toNat ≤ 122
  · have hc : c = Char.ofNat c.toNat := (Char.ofNat_toNat c).symm
    obtain ⟨h1, h2⟩ := h
    generalize c.toNat = n at hc h1 h2
    subst hc
    interval_cases n <;> decide
  · have h1 : Char.toUpper c = c := by simp only [Char.toUpper, h, if_false]
    rw [h1, h1]

/-- Uppercasing a string twice is uppercasing it once. -/
theorem upper_upper (s : String) : upper (upper s) = upper s := by
  simp only [upper, List.map_map]
  congr 1
  apply List.map_congr_left
  intro c _
  exact toUpper_toUpper c

/-- C22. For every present token `t`, the permission coercion returns `null` exactly when the
uppercased `t` is no name of the platform's permission flags, and otherwise it returns the
uppercased `t`; the coercion of that result returns it again. -/
theorem permission_coercion (client : Bot) (message : Message) (rest : List String)
    (t : String) :
    (constructors ArgumentType.permission client (some t) message rest = Except.ok Value.null ↔
        upper t ∉ client.permissionFlags) ∧
      (upper t ∈ client.permissionFlags →
        constructors ArgumentType.permission client (some t) message rest =
            Except.ok (Value.string (upper t)) ∧
          constructors ArgumentType.permission client (some (upper t)) message rest =
            Except.ok (Value.string (upper t))) := by
  have hmem : client.permissionFlags.contains (upper t) = true ↔
      upper t ∈ client.permissionFlags := List.elem_iff
  by_cases h : upper t ∈ client.permissionFlags
  · have hc := hmem.mpr h
    have h1 : constructors ArgumentType.permission client (some t) message rest =
        Except.ok (Value.string (upper t)) := by
      simp only [constructors, resolvePermission, hc, Bool.not_true, Bool.false_eq_true,
        if_false]
    refine ⟨?_, fun _ => ⟨h1, ?_⟩⟩
    · rw [h1]
      constructor
      · intro h2; cases h2
      · intro h2; exact absurd h h2
    · simp only [constructors, resolvePermission, upper_upper, hc, Bool.not_true,
        Bool.false_eq_true, if_false]
  · have hc : client.permissionFlags.contains (upper t) = false := by
      cases hb : client.permissionFlags.contains (upper t) with
      | false => rfl
      | true => exact absurd (hmem.mp hb) h
    refine ⟨iff_of_true ?_ h, fun h2 => absurd h2 h⟩
    simp only [constructors, resolvePermission, hc, Bool.not_false, if_true]

/-- C22 (evaluation). With the flags of `sampleBot`, the token `kick_Members` gives
`KICK_MEMBERS`, which gives itself, and the token `fly` gives `null`. -/
theorem permission_coercion_witness :
    "KICK_MEMBERS" ∈ sampleBot.permissionFlags ∧
      constructors ArgumentType.permission sampleBot (some "kick_Members") sampleMessage [] =
        Except.ok (Value.string "KICK_MEMBERS") ∧
      constructors ArgumentType.permission sampleBot (some "KICK_MEMBERS") sampleMessage [] =
        Except.ok (Value.string "KICK_MEMBERS") :=
  ⟨by decide,
    ((permission_coercion sampleBot sampleMessage [] "kick_Members").2 (by decide)).1,
    ((permission_coercion sampleBot sampleMessage [] "kick_Members").2 (by decide)).2⟩

/-- C23. For every present token `t` and every registry, the command coercion returns either
a command or `undefined`. A command it returns is registered, and its lowercased name or one of
its lowercased aliases is the lowercased `t`; it returns `undefined` exactly when no registered
command has that property. -/
theorem command_coercion (client : Bot) (message : Message) (rest : List String) (t : String) :
    ((∃ c, constructors ArgumentType.command client (some t) message rest =
          Except.ok (Value.command c)) ∨
        constructors ArgumentType.command client (some t) message rest =
          Except.ok Value.undefined) ∧
      (∀ c, constructors ArgumentType.command client (some t) message rest =
          Except.ok (Value.command c) →
        (∃ key, (key, c) ∈ client.commands) ∧
          (lower c.name = lower t ∨ ∃ al ∈ c.aliases, lower al = lower t)) ∧
      (constructors ArgumentType.command client (some t) message rest =
          Except.ok Value.undefined ↔
        ¬ ∃ e ∈ client.commands,
          lower e.2.name = lower t ∨ ∃ al ∈ e.2.aliases, lower al = lower t) := by
  have hp : ∀ e : String × Command,
      (lower e.2.name == lower t || (e.2.aliases.map lower).contains (lower t)) = true ↔
        (lower e.2.name = lower t ∨ ∃ al ∈ e.2.aliases, lower al = lower t) := by
    intro e
    rw [Bool.or_eq_true, beq_iff_eq]
    have h2 : (e.2.aliases.map lower).contains (lower t) = true ↔
        ∃ al ∈ e.2.aliases, lower al = lower t := by
      show List.elem (lower t) (e.2.aliases.map lower) = true ↔ _
      rw [List.elem_iff, List.mem_map]
    exact or_congr Iff.rfl h2
  cases hf : client.commands.find?
      (fun e => lower e.2.name == lower t || (e.2.aliases.map lower).contains (lower t)) with
  | none =>
    have h1 : constructors ArgumentType.command client (some t) message rest =
        Except.ok Value.undefined := by
      simp only [constructors, resolveCommand, hf]
    rw [h1]
    refine ⟨Or.inr rfl, ?_, iff_of_true rfl ?_⟩
    · intro c hc
      injection hc with h
      cases h
    rintro ⟨e, he, hm⟩
    exact List.find?_eq_none.mp hf e he ((hp e).mpr hm)
  | some e =>
    have h1 : constructors ArgumentType.command client (some t) message rest =
        Except.ok (Value.command e.2) := by
      simp only [constructors, resolveCommand, hf]
    rw [h1]
    have hmem := List.mem_of_find?_eq_some hf
    have hsat := (hp e).mp (List.find?_some
      (p := fun e : String × Command =>
        lower e.2.name == lower t || (e.2.aliases.map lower).contains (lower t)) hf)
    refine ⟨Or.inl ⟨e.2, rfl⟩, ?_, ?_⟩
    · intro c hc
      have hce : e.2 = c := by injection hc with h; injection h
      subst hce
      exact ⟨⟨e.1, hmem⟩, hsat⟩
    · constructor
      · intro h; cases h
      · intro h; exact absurd ⟨e, hmem, hsat⟩ h

/-- C23 (evaluation). In the registry of `registryBot` the token `HELP` gives the command
`guide`, by its alias `Help`, and the token `pong` gives `undefined`. -/
theorem command_coercion_witness :
    constructors ArgumentType.command registryBot (some "HELP") sampleMessage [] =
        Except.ok (Value.command guideLocal) ∧
      ((∃ key, (key, guideLocal) ∈ registryBot.commands) ∧
        (lower guideLocal.name = lower "HELP" ∨
          ∃ al ∈ guideLocal.aliases, lower al = lower "HELP")) ∧
      constructors ArgumentType.command registryBot (some "pong") sampleMessage [] =
        Except.ok Value.undefined :=
  ⟨rfl, (command_coercion registryBot sampleMessage [] "HELP").2.1 guideLocal rfl, rfl⟩


/-! ## Theorems: the prefix table -/

/-- C24. For every prefix table and default prefix, `prefix(g)` returns the default prefix
when `g` is absent, when `g` is a string under which the table has no entry, and when `g` is a
guild under whose id the table has no entry. -/
theorem prefix_fallback (prefixes : List (String × String)) (defaultPrefix : String) :
    prefixFor prefixes defaultPrefix GuildArg.absent = defaultPrefix ∧
      (∀ s, prefixes.lookup s = none →
        prefixFor prefixes defaultPrefix (GuildArg.id s) = defaultPrefix) ∧
      (∀ g : Guild, prefixes.lookup g.id = none →
        prefixFor prefixes defaultPrefix (GuildArg.guild g) = defaultPrefix) := by
  refine ⟨rfl, ?_, ?_⟩
  · intro s h
    simp only [prefixFor, getOrDefault, h, ite_self]
  · intro g h
    simp only [prefixFor, getOrDefault, h]

/-- C24 (evaluation). In a table with an entry for the guild `1` only and the default `!`,
the lookups for the id `2` and for the guild with id `2` give `!`. -/
theorem prefix_fallback_witness :
    List.lookup "2" [("1", "?")] = none ∧
      prefixFor [("1", "?")] "!" (GuildArg.id "2") = "!" ∧
      prefixFor [("1", "?")] "!" (GuildArg.guild ⟨"2"⟩) = "!" :=
  ⟨by decide, (prefix_fallback [("1", "?")] "!").2.1 "2" (by decide),
    (prefix_fallback [("1", "?")] "!").2.2 ⟨"2"⟩ (by decide)⟩


/-- Replacing the values under a key: the lookups afterwards. -/
theorem lookup_map_set (m : List (String × String)) (key value other : String) :
    (m.map (fun e => if e.1 == key then (key, value) else e)).lookup other =
      if other = key then (m.lookup key).map (fun _ => value) else m.lookup other := by
  induction m with
  | nil => simp only [List.map_nil, List.lookup, Option.map_none', ite_self]
  | cons e rest ih =>
    obtain ⟨k, v⟩ := e
    by_cases hk : k = key
    · subst hk
      have hf : ((k, v) :: rest).map (fun e => if e.1 == k then (k, value) else e) =
          (k, value) :: rest.map (fun e => if e.1 == k then (k, value) else e) := by
        simp only [List.map_cons, beq_self_eq_true, if_true]
      rw [hf]
      simp only [List.lookup_cons, ih]
      by_cases ho : other = k
      · subst ho
        simp only [beq_self_eq_true, if_true, Option.map_some']
      · have ho2 : (other == k) = false := beq_eq_false_iff_ne.mpr ho
        simp only [ho2, ho, if_false]
    · have hk2 : (k == key) = false := beq_eq_false_iff_ne.mpr hk
      have hf : ((k, v) :: rest).map (fun e => if e.1 == key then (key, value) else e) =
          (k, v) :: rest.map (fun e => if e.1 == key then (key, value) else e) := by
        simp only [List.map_cons, hk2, Bool.false_eq_true, if_false]
      have hk3 : (key == k) = false := beq_eq_false_iff_ne.mpr (fun h => hk h.symm)
      rw [hf]
      simp only [List.lookup_cons, ih, hk3]
      by_cases ho : other = k
      · subst ho
        simp only [beq_self_eq_true, hk, if_false]
      · have ho2 : (other == k) = false := beq_eq_false_iff_ne.mpr ho
        simp only [ho2]

/-- Appending an entry: the lookups afterwards. -/
theorem lookup_append_set (m : List (String × String)) (key value other : String) :
    (m ++ [(key, value)]).lookup other =
      match m.lookup other with
      | some p => some p
      | none => if other = key then some value else none := by
  induction m with
  | nil =>
    rw [List.nil_append, List.lookup_cons]
    by_cases ho : other = key
    · subst ho
      simp only [beq_self_eq_true, List.lookup, if_true]
    · have ho2 : (other == key) = false := beq_eq_false_iff_ne.mpr ho
      simp only [ho2, List.lookup, ho, if_false]
  | cons e rest ih =>
    obtain ⟨k, v⟩ := e
    rw [List.cons_append]
    simp only [List.lookup_cons, ih]
    cases other == k <;> rfl

/-- A key that no entry has is not found. -/
theorem lookup_eq_none_of_not_any (m : List (String × String)) (key : String)
    (h : ¬ m.any (fun e => e.1 == key) = true) : m.lookup key = none := by
  induction m with
  | nil => rfl
  | cons e rest ih =>
    obtain ⟨k, v⟩ := e
    rw [List.any_cons, Bool.or_eq_true, not_or] at h
    have hk : (key == k) = false := by
      apply beq_eq_false_iff_ne.mpr
      intro hc
      exact h.1 (by simp [hc])
    rw [List.lookup_cons, hk]
    exact ih h.2

/-- A key that some entry has is found. -/
theorem lookup_isSome_of_any (m : List (String × String)) (key : String)
    (h : m.any (fun e => e.1 == key) = true) : ∃ p, m.lookup key = some p := by
  induction m with
  | nil => simp at h
  | cons e rest ih =>
    obtain ⟨k, v⟩ := e
    rw [List.lookup_cons]
    by_cases hk : key = k
    · subst hk
      exact ⟨v, by simp only [beq_self_eq_true]⟩
    · have hk2 : (key == k) = false := beq_eq_false_iff_ne.mpr hk
      have hk3 : (k == key) = false := beq_eq_false_iff_ne.mpr (fun h => hk h.symm)
      rw [List.any_cons, hk3, Bool.false_or] at h
      simp only [hk2]
      exact ih h

/-- The lookups after `set`: the value set under its key, the old values elsewhere. -/
theorem lookup_prefixesSet (m : List (String × String)) (key value other : String) :
    (prefixesSet m key value).lookup other =
      if other = key then some value else m.lookup other := by
  unfold prefixesSet
  split
  · next h =>
    obtain ⟨p, hp⟩ := lookup_isSome_of_any m key h
    rw [lookup_map_set, hp]
    rfl
  · next h =>
    have hn := lookup_eq_none_of_not_any m key h
    rw [lookup_append_set]
    by_cases ho : other = key
    · subst ho
      simp only [hn, if_true]
    · simp only [ho, if_false]
      cases m.lookup other <;> rfl

/-- The lookups after the callback of an entry: its value under its key when the key is a
string or a guild and the value is a string, the old values elsewhere. -/
theorem lookup_setEntry (m : List (String × String)) (k : PrefixKey) (v : Option String)
    (other : String) :
    (setEntry m k v).lookup other =
      match entryKey k, v with
      | some key, some p => if other = key then some p else m.lookup other
      | _, _ => m.lookup other := by
  cases v with
  | none => cases k <;> rfl
  | some p =>
    cases k with
    | other => rfl
    | guild g => exact lookup_prefixesSet m g.id p other
    | string s => exact lookup_prefixesSet m s p other

/-- A `forEach` whose body never faults is a fold, and ends with no fault. -/
theorem forEach_fold {σ α : Type} (body : σ → α → σ × Option Fault)
    (h : ∀ st x, (body st x).2 = none) (xs : List α) (st : σ) :
    forEach body st xs = (xs.foldl (fun s x => (body s x).1) st, none) := by
  induction xs generalizing st with
  | nil => rfl
  | cons x rest ih =>
    have hx := h st x
    unfold forEach
    cases hb : body st x with
    | mk st1 f =>
      rw [hb] at hx
      simp only at hx
      subst hx
      simp only [List.foldl_cons, hb]
      exact ih st1

/-- The four kinds of container with the same entries leave the same table, with no fault. -/
theorem loadIterator_merged (prefixes : List (String × String))
    (entries : List (PrefixKey × Option String)) (container : PrefixCollection)
    (h : container = PrefixCollection.collection entries ∨
      container = PrefixCollection.array (entries.map (fun e => ArrayItem.pair e.1 e.2)) ∨
      container = PrefixCollection.map entries ∨
      ∃ es, container = PrefixCollection.object es ∧
        es.map (fun e => (PrefixKey.string e.1, e.2)) = entries) :
    loadIterator prefixes container = (merged prefixes entries, none) := by
  rcases h with h | h | h | ⟨es, h, hes⟩
  · subst h
    exact forEach_fold _ (fun _ _ => rfl) entries prefixes
  · subst h
    simp only [loadIterator, merged]
    induction entries generalizing prefixes with
    | nil => rfl
    | cons e rest ih =>
      simp only [List.map_cons, forEach, List.foldl_cons]
      exact ih _
  · subst h
    exact forEach_fold _ (fun _ _ => rfl) entries prefixes
  · subst h
    subst hes
    simp only [loadIterator, merged]
    induction es generalizing prefixes with
    | nil => rfl
    | cons e rest ih =>
      have he : setRecordEntry prefixes e = setEntry prefixes (PrefixKey.string e.1) e.2 := by
        unfold setRecordEntry setEntry
        cases e.2 <;> rfl
      simp only [List.map_cons, forEach, List.foldl_cons, he]
      exact ih _

/-- Entries stored under other keys leave the value under a key as it is. -/
theorem lookup_merged_other (entries : List (PrefixKey × Option String)) (other : String)
    (h : ∀ e ∈ entries, entryKey e.1 ≠ some other) (prefixes : List (String × String)) :
    (merged prefixes entries).lookup other = prefixes.lookup other := by
  induction entries generalizing prefixes with
  | nil => rfl
  | cons e rest ih =>
    have he := h e (List.mem_cons_self _ _)
    have hrest := ih (fun x hx => h x (List.mem_cons_of_mem _ hx)) (setEntry prefixes e.1 e.2)
    simp only [merged, List.foldl_cons] at hrest ⊢
    rw [hrest, lookup_setEntry]
    cases hk : entryKey e.1 with
    | none => rfl
    | some key =>
      cases e.2 with
      | none => rfl
      | some p =>
        have hne : ¬ other = key := fun hc => he (by rw [hk, hc])
        simp only [hne, if_false]

/-- The table after entries that end with the last entry for a key holds its value. -/
theorem lookup_merged_last (pre post : List (PrefixKey × Option String)) (k : PrefixKey)
    (key p : String) (hk : entryKey k = some key)
    (hlast : ∀ e ∈ post, entryKey e.1 ≠ some key) (prefixes : List (String × String)) :
    (merged prefixes (pre ++ (k, some p) :: post)).lookup key = some p := by
  have h1 : merged prefixes (pre ++ (k, some p) :: post) =
      merged (setEntry (merged prefixes pre) k (some p)) post := by
    simp only [merged, List.foldl_append, List.foldl_cons]
  rw [h1, lookup_merged_other post key hlast, lookup_setEntry, hk]
  simp only [if_true]


/-- C25 (counterexample). After `loadPrefixes([["1", ""]])` the lookup `prefix("1")` returns
the default prefix `!`, not the empty string stored for the guild; and after
`loadPrefixes([["", "?"]])` the lookup `prefix("")` returns the default prefix, not `?`. -/
theorem loadPrefixes_round_trip_counterexample :
    loadPrefixes [] [PrefixCollection.array [ArrayItem.pair (PrefixKey.string "1") (some "")]] =
        ([("1", "")], none) ∧
      prefixFor [("1", "")] "!" (GuildArg.id "1") = "!" ∧
      loadPrefixes [] [PrefixCollection.array [ArrayItem.pair (PrefixKey.string "") (some "?")]] =
        ([("", "?")], none) ∧
      prefixFor [("", "?")] "!" (GuildArg.id "") = "!" := by
  decide

/-- C25 (amended). Let a container (a collection, an array of pairs, a map, or a record) hold
entries of which the last one for the guild key `k` is `(k, p)`, where `k` is a non-empty id
string or a guild, stored under its id. Then `loadPrefixes` ends with no fault and returns the
table merged from the old table and the entries in order: it holds `p` for `k` and keeps the
value of every key for which the container has no entry. The lookup `prefix(k)` then returns
`p` when `p` is not empty, and the default prefix when `p` is the empty string. -/
theorem loadPrefixes_round_trip (prefixes : List (String × String)) (defaultPrefix : String)
    (pre post : List (PrefixKey × Option String)) (k : PrefixKey) (key p : String)
    (container : PrefixCollection) (guild : GuildArg)
    (hk : (k = PrefixKey.string key ∧ guild = GuildArg.id key ∧ key ≠ "") ∨
      ∃ g, k = PrefixKey.guild g ∧ guild = GuildArg.guild g ∧ key = g.id)
    (hlast : ∀ e ∈ post, entryKey e.1 ≠ some key)
    (hcontainer : container = PrefixCollection.collection (pre ++ (k, some p) :: post) ∨
      container = PrefixCollection.array
        ((pre ++ (k, some p) :: post).map (fun e => ArrayItem.pair e.1 e.2)) ∨
      container = PrefixCollection.map (pre ++ (k, some p) :: post) ∨
      ∃ es, container = PrefixCollection.object es ∧
        es.map (fun e => (PrefixKey.string e.1, e.2)) = pre ++ (k, some p) :: post) :
    loadPrefixes prefixes [container] =
        (merged prefixes (pre ++ (k, some p) :: post), none) ∧
      (merged prefixes (pre ++ (k, some p) :: post)).lookup key = some p ∧
      (∀ other, (∀ e ∈ pre ++ (k, some p) :: post, entryKey e.1 ≠ some other) →
        (merged prefixes (pre ++ (k, some p) :: post)).lookup other = prefixes.lookup other) ∧
      prefixFor (merged prefixes (pre ++ (k, some p) :: post)) defaultPrefix guild =
        if p = "" then defaultPrefix else p := by
  have hkey : entryKey k = some key := by
    rcases hk with ⟨h, _, _⟩ | ⟨g, h, _, hg⟩
    · rw [h]; rfl
    · rw [h, hg]; rfl
  have hload := loadIterator_merged prefixes (pre ++ (k, some p) :: post) container hcontainer
  have hlook := lookup_merged_last pre post k key p hkey hlast prefixes
  refine ⟨?_, hlook, fun other h => lookup_merged_other _ other h prefixes, ?_⟩
  · simp only [loadPrefixes, forEach, hload]
  · rcases hk with ⟨_, h, hne⟩ | ⟨g, _, h, hg⟩
    · rw [h]
      simp only [prefixFor, hne, if_false, getOrDefault, hlook]
    · rw [h]
      simp only [prefixFor, getOrDefault, ← hg, hlook]

/-- C25 (witness). A map with the entries `(guild 7, "?")`, `("8", "$")`, `("7", "%")` and an
entry for `9` whose value is no string, loaded into a table that holds `9`: the lookup for the
id `7` gives `%`, and the table keeps the prefix of `9`. -/
theorem loadPrefixes_round_trip_witness :
    loadPrefixes [("9", "+")] [PrefixCollection.map
        [(PrefixKey.guild ⟨"7"⟩, some "?"), (PrefixKey.string "8", some "$"),
          (PrefixKey.string "7", some "%"), (PrefixKey.string "9", none)]] =
        ([("9", "+"), ("7", "%"), ("8", "$")], none) ∧
      prefixFor [("9", "+"), ("7", "%"), ("8", "$")] "!" (GuildArg.id "7") = "%" := by
  have h := loadPrefixes_round_trip [("9", "+")] "!"
    [(PrefixKey.guild ⟨"7"⟩, some "?"), (PrefixKey.string "8", some "$")]
    [(PrefixKey.string "9", none)] (PrefixKey.string "7") "7" "%"
    (PrefixCollection.map
      [(PrefixKey.guild ⟨"7"⟩, some "?"), (PrefixKey.string "8", some "$"),
        (PrefixKey.string "7", some "%"), (PrefixKey.string "9", none)])
    (GuildArg.id "7") (Or.inl ⟨rfl, rfl, by decide⟩) (by decide) (Or.inr (Or.inr (Or.inl rfl)))
  have hm : merged [("9", "+")]
      ([(PrefixKey.guild ⟨"7"⟩, some "?"), (PrefixKey.string "8", some "$")] ++
        (PrefixKey.string "7", some "%") :: [(PrefixKey.string "9", none)]) =
      [("9", "+"), ("7", "%"), ("8", "$")] := by decide
  rw [hm] at h
  exact ⟨h.1, h.2.2.2⟩

/-- C26 (evaluation at the failing input). `loadPrefixes(null)` ends with a `TypeError`, raised
by `Object.entries(null)`, and not with the framework's error, which a number, a string or
`undefined` as argument gives; an array with an element that is not iterable ends with a
`TypeError` too, after the entries before that element are stored. -/
theorem loadPrefixes_null_typeError :
    loadPrefixes [] [PrefixCollection.null] = ([], some Fault.typeError) ∧
      loadPrefixes [] [PrefixCollection.primitive] = ([], some Fault.fdcError) ∧
      loadPrefixes []
          [PrefixCollection.array
            [ArrayItem.pair (PrefixKey.string "1") (some "?"), ArrayItem.notIterable]] =
        ([("1", "?")], some Fault.typeError) := by
  decide


/-! ## Theorems: the order of the passes of a reload -/

/-- The first pass issues no delete. -/
theorem syncCalls_no_delete (R : List SlashCommand) (L : List Command) :
    ∀ call ∈ syncCalls R L, ∀ t, call ≠ RemoteCall.delete t := by
  intro call hcall t ht
  have hw := (syncCalls_key R L call hcall).1
  rw [ht] at hw
  cases hw

/-- The body of the second pass leaves the state as it is. -/
theorem sweepSlashCommand_state (commands : List Command) (del help : Bool) (st : ReloadState)
    (sc : SlashCommand) : (sweepSlashCommand commands del help st sc).1 = st := by
  simp only [sweepSlashCommand]
  split
  · next h => exact absurd h (deleteCondition_ne_true _ _ _)
  · rfl
  · rfl

/-- The second pass leaves the state as it is. -/
theorem secondPass_state (commands : List Command) (del help : Bool) (st : ReloadState)
    (slashCommands : List SlashCommand) :
    (secondPass commands del help st slashCommands).1 = st :=
  forEach_keeps _ id (sweepSlashCommand_state commands del help) _ _

/-- With delete-unused enabled, the second pass over a remote set with a command that has no
slash-enabled local match ends with the `TypeError` of reading `cmd.name`. -/
theorem secondPass_fault (commands : List Command) (help : Bool) (st : ReloadState)
    (slashCommands : List SlashCommand)
    (h : ∃ sc ∈ slashCommands,
      commands.find? (fun cmd => lower cmd.name == lower sc.name && cmd.slash) = none) :
    (secondPass commands true help st slashCommands).2 = some Fault.typeError := by
  induction slashCommands generalizing st with
  | nil =>
    obtain ⟨sc, hsc, _⟩ := h
    cases hsc
  | cons r rest ih =>
    cases hfind : commands.find? (fun cmd => lower cmd.name == lower r.name && cmd.slash) with
    | none =>
      simp only [secondPass, forEach, sweepSlashCommand, hfind, deleteCondition, readName,
        Option.isNone_none, if_true]
    | some c =>
      have hrest : ∃ sc ∈ rest,
          commands.find? (fun cmd => lower cmd.name == lower sc.name && cmd.slash) = none := by
        obtain ⟨sc, hsc, hnone⟩ := h
        rcases List.mem_cons.mp hsc with heq | hmem
        · subst heq
          rw [hfind] at hnone
          cases hnone
        · exact ⟨sc, hmem, hnone⟩
      have := ih st hrest
      simp only [secondPass, forEach, sweepSlashCommand, hfind, deleteCondition,
        Option.isNone_some, Bool.false_eq_true, if_false] at this ⊢
      exact this

/-- The help injection leaves the issued calls as they are or adds one create. -/
theorem injectHelp_calls (builtInHelpCommand : Option Command) (st : ReloadState) :
    (injectHelp builtInHelpCommand st).1.calls = st.calls ∨
      ∃ h, (injectHelp builtInHelpCommand st).1.calls =
        st.calls ++ [RemoteCall.create (commandData h)] := by
  cases builtInHelpCommand with
  | none => exact Or.inl rfl
  | some h =>
    simp only [injectHelp]
    split
    · exact Or.inl rfl
    · split
      · exact Or.inr ⟨h, rfl⟩
      · exact Or.inl rfl

/-- The calls of a reload: those of the first pass, and possibly the create of the built-in
help command after them. -/
theorem reload_calls_cases (inp : ReloadInput) :
    (reload inp).1.calls = syncCalls inp.slashCommands inp.commands ∨
      ∃ h, (reload inp).1.calls =
        syncCalls inp.slashCommands inp.commands ++ [RemoteCall.create (commandData h)] := by
  have hfp := firstPass_calls inp.slashCommands inp.commands
    { calls := [], commands := [], commandCategories := inp.commandCategories }
  simp only [List.nil_append] at hfp
  simp only [reload]
  rcases hb : firstPass inp.slashCommands
    { calls := [], commands := [], commandCategories := inp.commandCategories }
    inp.commands with ⟨s1, f1⟩
  rw [hb] at hfp
  simp only at hfp
  cases f1 with
  | some e => exact Or.inl hfp
  | none =>
    simp only
    have hinj := injectHelp_calls inp.builtInHelpCommand s1
    rcases hi : injectHelp inp.builtInHelpCommand s1 with ⟨s2, f2⟩
    rw [hi] at hinj
    simp only at hinj
    rw [hfp] at hinj
    cases f2 with
    | some e => exact hinj
    | none =>
      simp only [secondPass_calls]
      exact hinj

/-- C27 (counterexample). Built-in help is enabled and the local command `guide` has the
alias `Help`. The remote set is empty, so the first pass issues the create of `guide`; the
collision is found after it, and `reload` ends with the framework's error with that create
issued. -/
theorem reload_collision_counterexample :
    collidesWithHelp builtInHelp guideLocal = true ∧
      reload ⟨[guideLocal], [], some builtInHelp, false, []⟩ =
        (⟨[RemoteCall.create (commandData guideLocal)], [("guide", guideLocal)], ["misc"]⟩,
          some Fault.fdcError) := by
  decide

/-- C27 (amended). The help injection follows the first pass. When built-in help is enabled,
the first pass completes, and a command of the registry it leaves has the help command's name
as lowercased name or alias, `reload` aborts with the framework's error in the state the first
pass leaves: the creates and edits of the first pass are issued, and no call after them, so no
delete and no create of the help command. -/
theorem reload_collision_after_first_pass (inp : ReloadInput) (helpCommand : Command)
    (st1 : ReloadState) (hhelp : inp.builtInHelpCommand = some helpCommand)
    (hfirst : firstPass inp.slashCommands ⟨[], [], inp.commandCategories⟩ inp.commands =
      (st1, none))
    (hcollide : ∃ e ∈ st1.commands, collidesWithHelp helpCommand e.2 = true) :
    reload inp = (st1, some Fault.fdcError) ∧
      st1.calls = syncCalls inp.slashCommands inp.commands ∧
      ∀ call ∈ st1.calls, call.wellFormed = true ∧
        ∃ c ∈ inp.commands, c.slash = true ∧ call.key = lower c.name := by
  have hfp := firstPass_calls inp.slashCommands inp.commands
    { calls := [], commands := [], commandCategories := inp.commandCategories }
  rw [hfirst] at hfp
  simp only [List.nil_append] at hfp
  have hany : (st1.commands.any fun e => collidesWithHelp helpCommand e.2) = true :=
    List.any_eq_true.mpr hcollide
  refine ⟨?_, hfp, ?_⟩
  · simp only [reload, hfirst, hhelp, injectHelp, hany, if_true]
  · rw [hfp]
    exact syncCalls_key _ _

/-- C27 (witness). The run of the counterexample: its first pass completes with the create of
`guide`, and the reload ends there with the framework's error. -/
theorem reload_collision_after_first_pass_witness :
    reload ⟨[guideLocal], [], some builtInHelp, false, []⟩ =
        (⟨[RemoteCall.create (commandData guideLocal)], [("guide", guideLocal)], ["misc"]⟩,
          some Fault.fdcError) ∧
      [RemoteCall.create (commandData guideLocal)] = syncCalls [] [guideLocal] :=
  ⟨(reload_collision_after_first_pass ⟨[guideLocal], [], some builtInHelp, false, []⟩
      builtInHelp
      ⟨[RemoteCall.create (commandData guideLocal)], [("guide", guideLocal)], ["misc"]⟩ rfl
      (by decide) ⟨("guide", guideLocal), by decide, by decide⟩).1,
    (reload_collision_after_first_pass ⟨[guideLocal], [], some builtInHelp, false, []⟩
      builtInHelp
      ⟨[RemoteCall.create (commandData guideLocal)], [("guide", guideLocal)], ["misc"]⟩ rfl
      (by decide) ⟨("guide", guideLocal), by decide, by decide⟩).2.1⟩

/-- C28 (counterexample). Delete-unused is enabled and the remote command `stale` has no local
match, but built-in help is enabled and the local command `guide` has the alias `Help`:
`reload` ends with the framework's error in the help injection, before the second pass, and
not on reading the name of the missing local command. -/
theorem reload_fails_before_sweep_counterexample :
    [guideLocal].find? (fun cmd => lower cmd.name == lower staleRemote.name && cmd.slash) =
        none ∧
      reload ⟨[guideLocal], [staleRemote], some builtInHelp, true, []⟩ =
        (⟨[RemoteCall.create (commandData guideLocal)], [("guide", guideLocal)], ["misc"]⟩,
          some Fault.fdcError) := by
  decide

/-- C28 (amended). For every local command set, remote set and flag values, `reload` issues no
delete. When delete-unused is enabled and some remote command has no slash-enabled local
command with the same lowercased name, `reload` fails: on reading the name of the missing local
command when the first pass and the help injection complete (it then ends with a `TypeError`,
in the state the help injection leaves), and otherwise before, in one of these two steps. -/
theorem reload_no_delete (inp : ReloadInput) :
    (∀ call ∈ (reload inp).1.calls, ∀ t, call ≠ RemoteCall.delete t) ∧
      (inp.deleteUnusedSlashCommands = true →
        (∃ sc ∈ inp.slashCommands,
          inp.commands.find? (fun cmd => lower cmd.name == lower sc.name && cmd.slash) =
            none) →
        (reload inp).2 ≠ none ∧
          ∀ st1 st2,
            firstPass inp.slashCommands ⟨[], [], inp.commandCategories⟩ inp.commands =
              (st1, none) →
            injectHelp inp.builtInHelpCommand st1 = (st2, none) →
            reload inp = (st2, some Fault.typeError)) := by
  constructor
  · intro call hcall t
    rcases reload_calls_cases inp with h | ⟨hc, h⟩
    · rw [h] at hcall
      exact syncCalls_no_delete _ _ call hcall t
    · rw [h, List.mem_append] at hcall
      rcases hcall with hcall | hcall
      · exact syncCalls_no_delete _ _ call hcall t
      · rw [List.mem_singleton] at hcall
        subst hcall
        intro hd
        cases hd
  · intro hdel hstale
    have hsecond : ∀ st, secondPass inp.commands inp.deleteUnusedSlashCommands
        inp.builtInHelpCommand.isSome st inp.slashCommands = (st, some Fault.typeError) := by
      intro st
      rw [hdel]
      exact Prod.ext (secondPass_state _ _ _ _ _) (secondPass_fault _ _ _ _ hstale)
    constructor
    · simp only [reload]
      rcases firstPass inp.slashCommands
        { calls := [], commands := [], commandCategories := inp.commandCategories }
        inp.commands with ⟨s1, f1⟩
      cases f1 with
      | some e => simp
      | none =>
        simp only
        rcases injectHelp inp.builtInHelpCommand s1 with ⟨s2, f2⟩
        cases f2 with
        | some e => simp
        | none => simp [hsecond]
    · intro st1 st2 h1 h2
      simp only [reload, h1, h2, hsecond]

/-- C28 (evaluation). In `sampleInput` delete-unused is enabled and the remote command `stale`
has no local match: the first pass edits `ping` and creates `echo`, and the second pass ends
with a `TypeError`; no delete is issued. -/
theorem reload_no_delete_witness :
    (reload sampleInput).2 ≠ none ∧
      reload sampleInput =
        (⟨[RemoteCall.edit pingOutdated (commandData pingLocal),
            RemoteCall.create (commandData echoLocal)],
          [("ping", pingLocal), ("echo", echoLocal)], ["misc"]⟩, some Fault.typeError) :=
  ⟨((reload_no_delete sampleInput).2 rfl ⟨staleRemote, by decide, by decide⟩).1,
    ((reload_no_delete sampleInput).2 rfl ⟨staleRemote, by decide, by decide⟩).2
      ⟨[RemoteCall.edit pingOutdated (commandData pingLocal),
          RemoteCall.create (commandData echoLocal)],
        [("ping", pingLocal), ("echo", echoLocal)], ["misc"]⟩
      ⟨[RemoteCall.edit pingOutdated (commandData pingLocal),
          RemoteCall.create (commandData echoLocal)],
        [("ping", pingLocal), ("echo", echoLocal)], ["misc"]⟩
      (by decide) (by decide)⟩


/-! ## Theorems: termination of the permission evaluator -/

/-- A key found by `lookup` is a key of the list, with the value found. -/
theorem lookup_some_mem {β : Type} (l : List (String × β)) (a : String) (v : β)
    (h : l.lookup a = some v) : (a, v) ∈ l := by
  induction l with
  | nil => cases h
  | cons e rest ih =>
    obtain ⟨k, w⟩ := e
    rw [List.lookup_cons] at h
    by_cases hk : a = k
    · subst hk
      simp only [beq_self_eq_true, Option.some.injEq] at h
      subst h
      exact List.mem_cons_self _ _
    · rw [beq_eq_false_iff_ne.mpr hk] at h
      exact List.mem_cons_of_mem _ (ih h)

/-- An alias is a key of the permission table, with its spec as value. -/
theorem tableEntry_some_mem (permissionData : List (String × PermissionSpec)) (a : String)
    (spec : PermissionSpec) (h : tableEntry permissionData a = some spec) :
    (a, spec) ∈ permissionData := by
  unfold tableEntry at h
  cases hl : permissionData.lookup a with
  | none => rw [hl] at h; cases h
  | some s =>
    rw [hl] at h
    simp only at h
    split at h
    · injection h with h
      subst h
      exact lookup_some_mem _ _ _ hl
    · cases h

/-- A relation that a rank decreases along has no cycle. -/
theorem acyclic_of_rank (R : String → String → Prop) (rank : String → Nat)
    (h : ∀ a b, R a b → rank b < rank a) : ∀ a, ¬ Relation.TransGen R a a := by
  have hlt : ∀ a b, Relation.TransGen R a b → rank b < rank a := by
    intro a b hab
    induction hab with
    | single h1 => exact h _ _ h1
    | tail _ h2 ih => exact Nat.lt_trans (h _ _ h2) ih
  intro a ha
  exact Nat.lt_irrefl _ (hlt a a ha)

/-- In a finite table whose alias-reference relation has no cycle, every chain of references
ends. -/
theorem refers_wellFounded (client : Client) (m : GuildMember)
    (hacyclic : ∀ a, ¬ Relation.TransGen (refers client m) a a) :
    WellFounded (fun b a => refers client m a b) := by
  have hkey : ∀ a b, refers client m a b → a ∈ client.permissionData.map Prod.fst := by
    rintro a b ⟨_, _, spec, hspec, _⟩
    exact List.mem_map.mpr ⟨(a, spec), tableEntry_some_mem _ _ _ hspec, rfl⟩
  let r : {a // a ∈ client.permissionData.map Prod.fst} →
      {a // a ∈ client.permissionData.map Prod.fst} → Prop :=
    fun y x => Relation.TransGen (refers client m) x.1 y.1
  haveI : IsTrans _ r := ⟨fun _ _ _ hzy hyx => Relation.TransGen.trans hyx hzy⟩
  haveI : IsIrrefl _ r := ⟨fun x hx => hacyclic x.1 hx⟩
  have wf : WellFounded r := Finite.wellFounded_of_trans_of_irrefl r
  have hsub : ∀ x : {a // a ∈ client.permissionData.map Prod.fst},
      Acc (fun b a => refers client m a b) x.1 := by
    intro x
    refine wf.induction (C := fun y => Acc (fun b a => refers client m a b) y.1) x ?_
    intro y ih
    refine Acc.intro y.1 (fun b hb => ?_)
    by_cases hbk : b ∈ client.permissionData.map Prod.fst
    · exact ih ⟨b, hbk⟩ (Relation.TransGen.single hb)
    · exact Acc.intro b (fun c hc => absurd (hkey b c hc) hbk)
  constructor
  intro a
  by_cases ha : a ∈ client.permissionData.map Prod.fst
  · exact hsub ⟨a, ha⟩
  · exact Acc.intro a (fun b hb => absurd (hkey a b hb) ha)

/-- The test `some` returns a boolean when the callback does on every element. -/
theorem arraySome_returns {α : Type} (f : α → Except Fault Bool) (xs : List α)
    (h : ∀ x ∈ xs, ∃ b, f x = Except.ok b) : ∃ b, arraySome f xs = Except.ok b := by
  induction xs with
  | nil => exact ⟨false, rfl⟩
  | cons x rest ih =>
    obtain ⟨b, hb⟩ := h x (List.mem_cons_self _ _)
    obtain ⟨v, hv⟩ := ih (fun y hy => h y (List.mem_cons_of_mem _ hy))
    rw [arraySome_cons, hb, hv]
    cases b
    · exact ⟨v, rfl⟩
    · exact ⟨true, rfl⟩

/-- The test `every` returns a boolean when the callback does on every element. -/
theorem arrayEvery_returns {α : Type} (f : α → Except Fault Bool) (xs : List α)
    (h : ∀ x ∈ xs, ∃ b, f x = Except.ok b) : ∃ b, arrayEvery f xs = Except.ok b := by
  induction xs with
  | nil => exact ⟨true, rfl⟩
  | cons x rest ih =>
    obtain ⟨b, hb⟩ := h x (List.mem_cons_self _ _)
    obtain ⟨v, hv⟩ := ih (fun y hy => h y (List.mem_cons_of_mem _ hy))
    rw [arrayEvery_cons, hb, hv]
    cases b
    · exact ⟨false, rfl⟩
    · exact ⟨v, rfl⟩

/-- Atoms that each return a boolean at some depth all return one from a common depth on. -/
theorem checkPermission_common_return (client : Client) (m : GuildMember)
    (atoms : List String)
    (h : ∀ a ∈ atoms, ∃ n b, checkPermission client n a m = Except.ok b) :
    ∃ N, ∀ a ∈ atoms, ∀ k, N ≤ k → ∃ b, checkPermission client k a m = Except.ok b := by
  induction atoms with
  | nil => exact ⟨0, fun a ha => absurd ha (List.not_mem_nil a)⟩
  | cons x rest ih =>
    obtain ⟨N, hN⟩ := ih (fun a ha => h a (List.mem_cons_of_mem _ ha))
    obtain ⟨n, b, hb⟩ := h x (List.mem_cons_self _ _)
    refine ⟨max N n, fun a ha k hk => ?_⟩
    rcases List.mem_cons.mp ha with heq | hmem
    · subst heq
      exact ⟨b, checkPermission_le client n k (le_trans (le_max_right _ _) hk) a m b hb⟩
    · exact hN a hmem k (le_trans (le_max_left _ _) hk)

/-- The body of `checkPermissions` on a list returns a boolean when the callback does on every
string the list names. -/
theorem checkPermissionsWith_returns (check : String → GuildMember → Except Fault Bool)
    (m : GuildMember) (ps : List Permission)
    (h : ∀ a ∈ (PermissionSpec.list ps).atoms, ∃ b, check a m = Except.ok b) :
    ∃ b, checkPermissionsWith check (PermissionSpec.list ps) (MemberArg.guildMember m) =
      Except.ok b := by
  simp only [checkPermissionsWith]
  apply arraySome_returns
  intro e he
  have hsub : ∀ a ∈ e.atoms, a ∈ (PermissionSpec.list ps).atoms := by
    intro a ha
    simp only [PermissionSpec.atoms, List.mem_flatMap]
    exact ⟨e, he, ha⟩
  cases e with
  | perm p => exact h p (hsub p (List.mem_singleton.mpr rfl))
  | all qs =>
    simp only [checkElement]
    exact arrayEvery_returns _ qs (fun q hq => h q (hsub q hq))

/-- On a table with no cycle whose values are lists, and a platform that answers every
query, every call of `checkPermission` returns a boolean at some depth. -/
theorem checkPermission_returns (client : Client) (m : GuildMember)
    (hacyclic : ∀ a, ¬ Relation.TransGen (refers client m) a a)
    (hlists : ∀ a spec, tableEntry client.permissionData a = some spec →
      ∃ ps, spec = PermissionSpec.list ps)
    (hplatform : ∀ p, ∃ b, m.permissionsHas p = Except.ok b) :
    ∀ a, ∃ n b, checkPermission client n a m = Except.ok b := by
  intro a
  refine (refers_wellFounded client m hacyclic).induction
    (C := fun a => ∃ n b, checkPermission client n a m = Except.ok b) a ?_
  intro a ih
  cases hu : client.users.contains a with
  | true => exact ⟨1, m.id == a, by simp only [checkPermission, hu, if_true]⟩
  | false =>
    cases hr : m.guildRoles.contains a with
    | true =>
      exact ⟨1, m.roles.contains a, by
        simp only [checkPermission, hu, hr, if_true, Bool.false_eq_true, if_false]⟩
    | false =>
      cases ht : tableEntry client.permissionData a with
      | none =>
        obtain ⟨b, hb⟩ := hplatform a
        exact ⟨1, b, by
          simp only [checkPermission, hu, hr, ht, hb, Bool.false_eq_true, if_false]⟩
      | some spec =>
        obtain ⟨ps, hps⟩ := hlists a spec ht
        subst hps
        obtain ⟨N, hN⟩ := checkPermission_common_return client m
          (PermissionSpec.list ps).atoms (fun b hb => ih b ⟨hu, hr, _, ht, hb⟩)
        obtain ⟨b, hb⟩ := checkPermissionsWith_returns (checkPermission client N) m ps
          (fun x hx => hN x hx N (le_refl _))
        exact ⟨N + 1, b, by
          simp only [checkPermission, hu, hr, ht, hb, Bool.false_eq_true, if_false]⟩

/-- The alias-reference relation of `plainClient` and that of `teamClient` decrease
`teamRank`. -/
theorem teamRank_decreases (a b : String) :
    (refers plainClient alice a b → teamRank b < teamRank a) ∧
      (refers teamClient alice a b → teamRank b < teamRank a) := by
  constructor
  · rintro ⟨_, _, spec, hspec, hb⟩
    have hmem := tableEntry_some_mem _ _ _ hspec
    simp only [plainClient, List.mem_singleton, Prod.mk.injEq] at hmem
    obtain ⟨ha, hs⟩ := hmem
    subst ha
    subst hs
    simp only [PermissionSpec.atoms, List.mem_singleton] at hb
    subst hb
    decide
  · rintro ⟨_, _, spec, hspec, hb⟩
    have hmem := tableEntry_some_mem _ _ _ hspec
    simp only [teamClient, List.mem_cons, List.mem_singleton, Prod.mk.injEq,
      List.mem_nil_iff, or_false] at hmem
    rcases hmem with ⟨ha, hs⟩ | ⟨ha, hs⟩
    · subst ha
      subst hs
      have hat : (PermissionSpec.list
          [Permission.perm "42", Permission.all ["7", "mods"]]).atoms = ["42", "7", "mods"] :=
        rfl
      rw [hat] at hb
      simp only [List.mem_cons, List.mem_singleton, List.mem_nil_iff, or_false] at hb
      rcases hb with h | h | h <;> subst h <;> decide
    · subst ha
      subst hs
      have hat : (PermissionSpec.list [Permission.perm "8"]).atoms = ["8"] := rfl
      rw [hat, List.mem_singleton] at hb
      subst hb
      decide

/-- C29 (counterexample). The table of `plainClient` has one alias, `mods`, whose value is
the single string `42`; no alias reaches itself. On the spec list `["mods"]` the evaluator
returns no boolean at any depth: the call of `some` on the string is a `TypeError`. -/
theorem checkPermissions_acyclic_counterexample :
    (∀ a, ¬ Relation.TransGen (refers plainClient alice) a a) ∧
      checkPermissions plainClient 2 (PermissionSpec.list [Permission.perm "mods"])
        (MemberArg.guildMember alice) = Except.error Fault.typeError ∧
      ∀ n b, checkPermissions plainClient n (PermissionSpec.list [Permission.perm "mods"])
        (MemberArg.guildMember alice) ≠ Except.ok b := by
  refine ⟨acyclic_of_rank _ teamRank (fun a b => (teamRank_decreases a b).1), rfl, ?_⟩
  intro n b h
  cases n with
  | zero => cases h
  | succ k =>
    have h2 : checkPermissions plainClient (k + 1)
        (PermissionSpec.list [Permission.perm "mods"]) (MemberArg.guildMember alice) =
        Except.error Fault.typeError := rfl
    rw [h2] at h
    cases h

/-- The test `some` under a second callback that agrees with the first wherever the first does
not run out of depth: the same result, when the first test does not run out of depth. -/
theorem arraySome_settled {α : Type} (f g : α → Except Fault Bool)
    (h : ∀ x, f x ≠ Except.error Fault.fuel → g x = f x) (xs : List α) :
    arraySome f xs ≠ Except.error Fault.fuel → arraySome g xs = arraySome f xs := by
  induction xs with
  | nil => intro _; rfl
  | cons x rest ih =>
    intro hne
    rw [arraySome_cons] at hne ⊢
    rw [arraySome_cons]
    have hx : f x ≠ Except.error Fault.fuel := by
      intro hc
      rw [hc] at hne
      exact hne rfl
    rw [h x hx]
    cases hf : f x with
    | error e => rfl
    | ok b =>
      cases b with
      | true => rfl
      | false =>
        rw [hf] at hne
        exact ih hne

/-- The same for the test `every`. -/
theorem arrayEvery_settled {α : Type} (f g : α → Except Fault Bool)
    (h : ∀ x, f x ≠ Except.error Fault.fuel → g x = f x) (xs : List α) :
    arrayEvery f xs ≠ Except.error Fault.fuel → arrayEvery g xs = arrayEvery f xs := by
  induction xs with
  | nil => intro _; rfl
  | cons x rest ih =>
    intro hne
    rw [arrayEvery_cons] at hne ⊢
    rw [arrayEvery_cons]
    have hx : f x ≠ Except.error Fault.fuel := by
      intro hc
      rw [hc] at hne
      exact hne rfl
    rw [h x hx]
    cases hf : f x with
    | error e => rfl
    | ok b =>
      cases b with
      | false => rfl
      | true =>
        rw [hf] at hne
        exact ih hne

/-- The same for the body of `checkPermissions`. -/
theorem checkPermissionsWith_settled (check1 check2 : String → GuildMember → Except Fault Bool)
    (h : ∀ x m, check1 x m ≠ Except.error Fault.fuel → check2 x m = check1 x m)
    (permissions : PermissionSpec) (member : MemberArg) :
    checkPermissionsWith check1 permissions member ≠ Except.error Fault.fuel →
      checkPermissionsWith check2 permissions member =
        checkPermissionsWith check1 permissions member := by
  cases member with
  | absent => intro _; rfl
  | other => intro _; rfl
  | guildMember m =>
    cases permissions with
    | single p => intro _; rfl
    | list ps =>
      simp only [checkPermissionsWith]
      apply arraySome_settled
      intro e
      cases e with
      | perm p => exact h p m
      | all qs => exact arrayEvery_settled _ _ (fun q => h q m) qs

/-- A result other than the exhaustion of the depth is the result one level deeper. -/
theorem checkPermission_succ_settled (client : Client) (n : Nat) :
    ∀ (permission : String) (m : GuildMember),
      checkPermission client n permission m ≠ Except.error Fault.fuel →
        checkPermission client (n + 1) permission m = checkPermission client n permission m := by
  induction n with
  | zero => intro permission m h; exact absurd rfl h
  | succ k ih =>
    intro permission m h
    rw [checkPermission] at h ⊢
    rw [checkPermission]
    simp only at h ⊢
    split
    · rfl
    · split
      · rfl
      · next hu hr =>
        simp only [hu, hr, if_false] at h
        cases ht : tableEntry client.permissionData permission with
        | none => rfl
        | some spec =>
          rw [ht] at h
          exact checkPermissionsWith_settled _ _ ih spec _ h

/-- A result other than the exhaustion of the depth is the result at every greater depth. -/
theorem checkPermission_le_settled (client : Client) (n k : Nat) (hnk : n ≤ k)
    (permission : String) (m : GuildMember)
    (h : checkPermission client n permission m ≠ Except.error Fault.fuel) :
    checkPermission client k permission m = checkPermission client n permission m := by
  induction hnk with
  | refl => rfl
  | step _ ih =>
    rw [← ih]
    apply checkPermission_succ_settled
    rw [ih]
    exact h

/-- The test `some` does not run out of depth when the callback does not on any element. -/
theorem arraySome_ne_fuel {α : Type} (f : α → Except Fault Bool) (xs : List α)
    (h : ∀ x ∈ xs, f x ≠ Except.error Fault.fuel) :
    arraySome f xs ≠ Except.error Fault.fuel := by
  induction xs with
  | nil => intro hc; cases hc
  | cons x rest ih =>
    have hx := h x (List.mem_cons_self _ _)
    have hrest := ih (fun y hy => h y (List.mem_cons_of_mem _ hy))
    rw [arraySome_cons]
    cases hf : f x with
    | error e =>
      intro hc
      apply hx
      rw [hf]
      exact hc
    | ok b =>
      cases b with
      | true => intro hc; cases hc
      | false => exact hrest

/-- The test `every` does not run out of depth when the callback does not on any element. -/
theorem arrayEvery_ne_fuel {α : Type} (f : α → Except Fault Bool) (xs : List α)
    (h : ∀ x ∈ xs, f x ≠ Except.error Fault.fuel) :
    arrayEvery f xs ≠ Except.error Fault.fuel := by
  induction xs with
  | nil => intro hc; cases hc
  | cons x rest ih =>
    have hx := h x (List.mem_cons_self _ _)
    have hrest := ih (fun y hy => h y (List.mem_cons_of_mem _ hy))
    rw [arrayEvery_cons]
    cases hf : f x with
    | error e =>
      intro hc
      apply hx
      rw [hf]
      exact hc
    | ok b =>
      cases b with
      | false => intro hc; cases hc
      | true => exact hrest

/-- The body of `checkPermissions` does not run out of depth when the callback does not on any
string the spec names. -/
theorem checkPermissionsWith_ne_fuel (check : String → GuildMember → Except Fault Bool)
    (m : GuildMember) (spec : PermissionSpec)
    (h : ∀ a ∈ spec.atoms, check a m ≠ Except.error Fault.fuel) :
    checkPermissionsWith check spec (MemberArg.guildMember m) ≠ Except.error Fault.fuel := by
  cases spec with
  | single p => intro hc; cases hc
  | list ps =>
    simp only [checkPermissionsWith]
    apply arraySome_ne_fuel
    intro e he
    have hsub : ∀ a ∈ e.atoms, a ∈ (PermissionSpec.list ps).atoms := by
      intro a ha
      simp only [PermissionSpec.atoms, List.mem_flatMap]
      exact ⟨e, he, ha⟩
    cases e with
    | perm p => exact h p (hsub p (List.mem_singleton.mpr rfl))
    | all qs =>
      simp only [checkElement]
      exact arrayEvery_ne_fuel _ qs (fun q hq => h q (hsub q hq))

/-- Atoms that each end at some depth all end from a common depth on. -/
theorem checkPermission_common_end (client : Client) (m : GuildMember) (atoms : List String)
    (h : ∀ a ∈ atoms, ∃ n, checkPermission client n a m ≠ Except.error Fault.fuel) :
    ∃ N, ∀ a ∈ atoms, ∀ k, N ≤ k →
      checkPermission client k a m ≠ Except.error Fault.fuel := by
  induction atoms with
  | nil => exact ⟨0, fun a ha => absurd ha (List.not_mem_nil a)⟩
  | cons x rest ih =>
    obtain ⟨N, hN⟩ := ih (fun a ha => h a (List.mem_cons_of_mem _ ha))
    obtain ⟨n, hn⟩ := h x (List.mem_cons_self _ _)
    refine ⟨max N n, fun a ha k hk => ?_⟩
    rcases List.mem_cons.mp ha with heq | hmem
    · subst heq
      rw [checkPermission_le_settled client n k (le_trans (le_max_right _ _) hk) a m hn]
      exact hn
    · exact hN a hmem k (le_trans (le_max_left _ _) hk)

/-- On a table with no cycle, every call of `checkPermission` ends at some depth, with a
boolean or an error, when the platform's answers are its own. -/
theorem checkPermission_ends (client : Client) (m : GuildMember)
    (hacyclic : ∀ a, ¬ Relation.TransGen (refers client m) a a)
    (hplatform : ∀ p, m.permissionsHas p ≠ Except.error Fault.fuel) :
    ∀ a, ∃ n, checkPermission client n a m ≠ Except.error Fault.fuel := by
  intro a
  refine (refers_wellFounded client m hacyclic).induction
    (C := fun a => ∃ n, checkPermission client n a m ≠ Except.error Fault.fuel) a ?_
  intro a ih
  cases hu : client.users.contains a with
  | true =>
    refine ⟨1, ?_⟩
    simp only [checkPermission, hu, if_true]
    intro hc
    cases hc
  | false =>
    cases hr : m.guildRoles.contains a with
    | true =>
      refine ⟨1, ?_⟩
      simp only [checkPermission, hu, hr, if_true, Bool.false_eq_true, if_false]
      intro hc
      cases hc
    | false =>
      cases ht : tableEntry client.permissionData a with
      | none =>
        refine ⟨1, ?_⟩
        simp only [checkPermission, hu, hr, ht, Bool.false_eq_true, if_false]
        exact hplatform a
      | some spec =>
        obtain ⟨N, hN⟩ := checkPermission_common_end client m spec.atoms
          (fun b hb => ih b ⟨hu, hr, _, ht, hb⟩)
        refine ⟨N + 1, ?_⟩
        simp only [checkPermission, hu, hr, ht, Bool.false_eq_true, if_false]
        exact checkPermissionsWith_ne_fuel _ m spec (fun x hx => hN x hx N (le_refl _))

/-- C29 (amended). For every guild member and every finite permission table in which no alias
reaches itself, `checkPermissions` terminates on every spec list: there is a recursion depth
from which on it gives one and the same result, which is not the exhaustion of the depth
(the platform's answers being booleans or errors of its own). That result is a boolean when
every value of the table is a list and the platform answers every permission query; a value
that is a single string, or a query that the platform rejects, can make it an error instead.
The evaluator is a function of the spec and the table: it gives the result and writes to
neither. -/
theorem checkPermissions_terminates (client : Client) (m : GuildMember)
    (hacyclic : ∀ a, ¬ Relation.TransGen (refers client m) a a)
    (permissions : List Permission) :
    ((∀ p, m.permissionsHas p ≠ Except.error Fault.fuel) →
        ∃ n r, r ≠ Except.error Fault.fuel ∧ ∀ k, n ≤ k →
          checkPermissions client k (PermissionSpec.list permissions)
            (MemberArg.guildMember m) = r) ∧
      ((∀ a spec, tableEntry client.permissionData a = some spec →
          ∃ ps, spec = PermissionSpec.list ps) →
        (∀ p, ∃ b, m.permissionsHas p = Except.ok b) →
        ∃ n b, ∀ k, n ≤ k →
          checkPermissions client k (PermissionSpec.list permissions)
            (MemberArg.guildMember m) = Except.ok b) := by
  constructor
  · intro hplatform
    obtain ⟨N, hN⟩ := checkPermission_common_end client m
      (PermissionSpec.list permissions).atoms
      (fun a _ => checkPermission_ends client m hacyclic hplatform a)
    have hne := checkPermissionsWith_ne_fuel (checkPermission client N) m
      (PermissionSpec.list permissions) (fun x hx => hN x hx N (le_refl _))
    refine ⟨N, _, hne, fun k hk => ?_⟩
    exact checkPermissionsWith_settled _ _
      (fun x w hx => checkPermission_le_settled client N k hk x w hx) _ _ hne
  · intro hlists hplatform
    obtain ⟨N, hN⟩ := checkPermission_common_return client m
      (PermissionSpec.list permissions).atoms
      (fun a _ => checkPermission_returns client m hacyclic hlists hplatform a)
    obtain ⟨b, hb⟩ := checkPermissionsWith_returns (checkPermission client N) m permissions
      (fun x hx => hN x hx N (le_refl _))
    exact ⟨N, b, fun k hk => checkPermissions_le client N k hk _ _ b hb⟩

/-- C29 (witness). In `teamClient` the alias `staff` names the alias `mods`, and no alias
reaches itself. For the member `42`, who holds the role `7` but not the role `8`, the spec
list `[["7", "mods"], "staff"]` comes out true from some depth on, and it does at depth 3. -/
theorem checkPermissions_terminates_witness :
    (∃ n b, ∀ k, n ≤ k →
        checkPermissions teamClient k
          (PermissionSpec.list [Permission.all ["7", "mods"], Permission.perm "staff"])
          (MemberArg.guildMember alice) = Except.ok b) ∧
      checkPermissions teamClient 3
        (PermissionSpec.list [Permission.all ["7", "mods"], Permission.perm "staff"])
        (MemberArg.guildMember alice) = Except.ok true :=
  ⟨(checkPermissions_terminates teamClient alice
      (acyclic_of_rank _ teamRank (fun a b => (teamRank_decreases a b).2)) _).2
      (by
        intro a spec hspec
        have hmem := tableEntry_some_mem _ _ _ hspec
        simp only [teamClient, List.mem_cons, List.mem_singleton, Prod.mk.injEq,
          List.mem_nil_iff, or_false] at hmem
        rcases hmem with ⟨_, hs⟩ | ⟨_, hs⟩ <;> exact ⟨_, hs⟩)
      (fun _ => ⟨false, rfl⟩),
    rfl⟩

end FeroDC
